import Mathlib

set_option maxHeartbeats 1000000

/-!
Verification of the zone memory allocator in `src/z_zone.c` (libretro-prboom).

The allocator keeps, for every tag, a circular doubly-linked list of the live
blocks carrying that tag (`blockbytag`), together with a signed budget counter
`free_memory` and a soft ceiling `memory_size`.  We embed the C code shallowly:
blocks are identified by natural-number ids held in an association-list arena,
pointer fields `next`/`prev` become ids, the external allocator `malloc` is
represented by a finite schedule of success/failure outcomes, and `I_Error`
(which never returns) becomes a distinguished `fatal` result.
-/

/-- `CHUNK_SIZE` tunable from z_zone.c: minimum chunk size at which blocks are
allocated (default 32). -/
def CHUNK_SIZE : Nat := 32

/-- `HEADER_SIZE` from z_zone.c: `(sizeof(memblock_t)+CHUNK_SIZE-1) & ~(CHUNK_SIZE-1)`.
On the 64-bit reference platform `sizeof(memblock_t) = 25 ≤ 32`, so this is 32. -/
def HEADER_SIZE : Nat := 32

/-- Modelled from the spec: the tag enumeration lives in `z_zone.h`, which is not
part of the provided source.  The spec fixes `FREE` as the low sentinel of the
tag range ("sentinel meaning no live block currently carries this tag"). -/
def PU_FREE : Nat := 0

/-- Modelled from the spec: `CACHE` is "the sole tag eligible for automatic
eviction, treated as lowest priority and always at the high end of the
valid-tag range"; we place it at ordinal 6 as in the classic Doom tag table. -/
def PU_CACHE : Nat := 6

/-- Modelled from the spec: `PU_MAX` is the number of tags, one past `PU_CACHE`. -/
def PU_MAX : Nat := 7

/-- `memblock_t` from z_zone.c: `next`/`prev` are the circular bucket links
(as block ids), `size` the recorded usable byte count and `tag` the owning
category.  We additionally carry the payload bytes (`data`); an entry `none`
is an uninitialized byte. -/
structure memblock where
  next : Nat
  prev : Nat
  size : Nat
  tag : Nat
  data : List (Option Nat)
deriving DecidableEq, Repr

/-- Association-list lookup for the block arena. -/
def lookupA : List (Nat × memblock) → Nat → Option memblock
  | [], _ => none
  | (j, b) :: rest, i => if j = i then some b else lookupA rest i

/-- Update the (first) record with key `i` in place, like a C field write through
a block pointer. -/
def updateA (f : memblock → memblock) : List (Nat × memblock) → Nat → List (Nat × memblock)
  | [], _ => []
  | (j, b) :: rest, i => if j = i then (j, f b) :: rest else (j, b) :: updateA f rest i

/-- Remove the record with key `i`, like `free(block)`. -/
def removeA : List (Nat × memblock) → Nat → List (Nat × memblock)
  | [], _ => []
  | (j, b) :: rest, i => if j = i then rest else (j, b) :: removeA rest i

/-- Lookup in the `blockbytag` table; `none` models a NULL bucket head. -/
def lookupH : List (Nat × Nat) → Nat → Option Nat
  | [], _ => none
  | (k, x) :: rest, t => if k = t then some x else lookupH rest t

/-- Remove every entry for tag `t` from the bucket table. -/
def removeH : List (Nat × Nat) → Nat → List (Nat × Nat)
  | [], _ => []
  | (k, x) :: rest, t => if k = t then removeH rest t else (k, x) :: removeH rest t

/-- Assign `blockbytag[t] := v` (with `none` modelling NULL). -/
def setH (h : List (Nat × Nat)) (t : Nat) (v : Option Nat) : List (Nat × Nat) :=
  match v with
  | none => removeH h t
  | some x => (t, x) :: removeH h t

/-- The global state of z_zone.c: the arena of live blocks, the `blockbytag`
table, the `memory_size` ceiling, the `free_memory` budget counter, and a
fresh-id counter standing for the addresses handed out by `malloc`. -/
structure ZState where
  arena : List (Nat × memblock)
  heads : List (Nat × Nat)
  memory_size : Int
  free_memory : Int
  fresh : Nat
deriving DecidableEq, Repr

/-- `block->next`, read through a block id (arbitrary default on a dead id:
the C code only ever reads the field of a live block). -/
def blkNext (s : ZState) (i : Nat) : Nat :=
  match lookupA s.arena i with
  | some b => b.next
  | none => i

/-- `block->prev`, read through a block id. -/
def blkPrev (s : ZState) (i : Nat) : Nat :=
  match lookupA s.arena i with
  | some b => b.prev
  | none => i

/-- The tag recorded for a live block id. -/
def tagOf (s : ZState) (i : Nat) : Option Nat :=
  (lookupA s.arena i).map (·.tag)

/-- The recorded size of a live block id. -/
def sizeOfB (s : ZState) (i : Nat) : Option Nat :=
  (lookupA s.arena i).map (·.size)

/-- The payload bytes of a live block id. -/
def dataOf (s : ZState) (i : Nat) : Option (List (Option Nat)) :=
  (lookupA s.arena i).map (·.data)

/-- `Z_Free` from z_zone.c: unlink the block from its tag's circular bucket
(fixing the bucket head when the block was the head or the sole member),
credit the budget, and release the record.  Freeing NULL is a no-op; freeing a
dead id is undefined behaviour in C and modelled as a no-op. -/
def Z_Free (s : ZState) (p : Option Nat) : ZState :=
  match p with
  | none => s
  | some i =>
    match lookupA s.arena i with
    | none => s
    | some b =>
      let heads' :=
        if b.next = i then setH s.heads b.tag none
        else if lookupH s.heads b.tag = some i then setH s.heads b.tag (some b.next)
        else s.heads
      let a1 := updateA (fun pb => { pb with next := b.next }) s.arena b.prev
      let a2 := updateA (fun nb => { nb with prev := b.prev }) a1 b.next
      { s with
        arena := removeA a2 i
        heads := heads'
        free_memory := s.free_memory + (b.size : Int) }

/-- The linking code shared textually by `Z_Malloc` (lines 177-188) and
`Z_ChangeTag` (lines 277-288): append block `i` at the tail of `tag`'s
circular bucket; an empty bucket becomes a single self-linked node. -/
def linkAtTail (s : ZState) (i : Nat) (tag : Nat) : ZState :=
  match lookupH s.heads tag with
  | none =>
    { s with
      heads := setH s.heads tag (some i)
      arena := updateA (fun b => { b with next := i, prev := i }) s.arena i }
  | some h =>
    let t :=
      match lookupA s.arena h with
      | some hb => hb.prev
      | none => h
    let a1 := updateA (fun b => { b with next := i }) s.arena t
    let a2 := updateA (fun b => { b with prev := t, next := h }) a1 i
    let a3 := updateA (fun b => { b with prev := i }) a2 h
    { s with arena := a3 }

/-- Result of the allocation entry points: `fatal` models `I_Error` (which
terminates the process), `ok ret slotWrite s` models returning the payload
address `ret` with the destination slot (if one was supplied) set to
`slotWrite` and the state updated to `s`. -/
inductive ZResult where
  | fatal : ZResult
  | ok : Option Nat → Option (Option Nat) → ZState → ZResult
deriving DecidableEq, Repr

/-- `size = (size+CHUNK_SIZE-1) & ~(CHUNK_SIZE-1)` from z_zone.c line 148:
`size_t` arithmetic, so the sum wraps modulo `2^64`; for the power-of-two
`CHUNK_SIZE` the mask clears the low five bits, i.e. rounds the wrapped sum
down to a multiple of 32.  (Rounds the request up whenever the sum does not
wrap; for `size` within 31 of `2^64` it wraps and yields 0.) -/
def roundChunk (n : Nat) : Nat :=
  ((n + CHUNK_SIZE - 1) % 2 ^ 64) / CHUNK_SIZE * CHUNK_SIZE

/-- The proactive eviction loop of `Z_Malloc` (lines 157-164): free the current
block, stop when `free_memory + memory_size >= size + HEADER_SIZE` or the
snapshot tail has just been freed, else advance to the saved `next`.  Fuel
bounds the iteration; `Z_Malloc` passes more fuel than there are live blocks. -/
def evictCacheLoop : Nat → ZState → Int → Nat → Nat → ZState
  | 0, s, _, _, _ => s
  | fuel + 1, s, target, blockId, endId =>
    let nextId := blkNext s blockId
    let s' := Z_Free s (some blockId)
    if target ≤ s'.free_memory + s'.memory_size ∨ blockId = endId then s'
    else evictCacheLoop fuel s' target nextId endId

/-- Lines 150-167 of `Z_Malloc`: when a ceiling is configured and the headroom
check fails, snapshot the CACHE bucket tail and run the eviction loop.
`size` is already rounded here, as in the source. -/
def proactivePass (s : ZState) (size : Nat) : ZState :=
  if 0 < s.memory_size ∧ s.free_memory + s.memory_size < ((size + HEADER_SIZE : Nat) : Int) then
    match lookupH s.heads PU_CACHE with
    | none => s
    | some h =>
      let endId :=
        match lookupA s.arena h with
        | some b => b.prev
        | none => h
      evictCacheLoop (s.arena.length + 1) s ((size + HEADER_SIZE : Nat) : Int) h endId
  else s

/-- Lines 177-199 of `Z_Malloc`: a fresh record is obtained from the external
allocator (modelled by the fresh-id counter), linked at the tail of its tag's
bucket, then `size`, `free_memory` and `tag` are updated in source order and
the payload address is returned (and stored through `user` when supplied). -/
def finishAlloc (s : ZState) (size : Nat) (tag : Nat) (user : Bool) : ZResult :=
  let i := s.fresh
  let s1 : ZState :=
    { s with
      arena := (i, { next := i, prev := i, size := 0, tag := 0,
                     data := List.replicate size none }) :: s.arena
      fresh := s.fresh + 1 }
  let s2 := linkAtTail s1 i tag
  let s3 : ZState := { s2 with arena := updateA (fun b => { b with size := size }) s2.arena i }
  let s4 : ZState := { s3 with free_memory := s3.free_memory - (size : Int) }
  let s5 : ZState := { s4 with arena := updateA (fun b => { b with tag := tag }) s4.arena i }
  ZResult.ok (some i) (if user then some (some i) else none) s5

/-- The state transformation of `finishAlloc` after the fresh record has been
added to the arena: link at the bucket tail, set `size`, charge the budget,
set `tag` (definitionally equal to the tail of `finishAlloc`). -/
def allocCore (s1 : ZState) (i : Nat) (size tg : Nat) : ZState :=
  let s2 := linkAtTail s1 i tg
  { s2 with
    arena := updateA (fun b => { b with tag := tg })
      (updateA (fun b => { b with size := size }) s2.arena i) i
    free_memory := s2.free_memory - (size : Int) }

/-- The inner loop of `Z_FreeTags` (lines 238-245): free the current block and
stop once the snapshot tail has been freed. -/
def freeTagLoop : Nat → ZState → Nat → Nat → ZState
  | 0, s, _, _ => s
  | fuel + 1, s, blockId, endId =>
    let nextId := blkNext s blockId
    let s' := Z_Free s (some blockId)
    if blockId = endId then s'
    else freeTagLoop fuel s' nextId endId

/-- One iteration of the `Z_FreeTags` tag loop: skip an empty bucket, else
snapshot the tail (`end_block = block->prev`) and run the eviction loop. -/
def freeOneTag (s : ZState) (t : Nat) : ZState :=
  match lookupH s.heads t with
  | none => s
  | some h =>
    let endId :=
      match lookupA s.arena h with
      | some b => b.prev
      | none => h
    freeTagLoop (s.arena.length + 1) s h endId

/-- `Z_FreeTags` from z_zone.c: clamp `lowtag` up to `PU_FREE+1` and `hightag`
down to `PU_CACHE`, then empty every bucket in the inclusive range. -/
def Z_FreeTags (s : ZState) (lowtag hightag : Int) : ZState :=
  let low := if lowtag ≤ (PU_FREE : Int) then (PU_FREE : Int) + 1 else lowtag
  let high := if (PU_CACHE : Int) < hightag then (PU_CACHE : Int) else hightag
  (List.range (high + 1 - low).toNat).foldl (fun s0 k => freeOneTag s0 (low.toNat + k)) s

/-- The retry loop of `Z_Malloc` (lines 169-175): each attempt consumes one
outcome of the external-allocator schedule (an empty schedule means every
remaining attempt succeeds).  On failure, `I_Error` fires when the CACHE
bucket is empty, else the whole CACHE bucket is evicted and the request
retried. -/
def mallocLoop (s : ZState) (size : Nat) (tag : Nat) (user : Bool) : List Bool → ZResult
  | [] => finishAlloc s size tag user
  | outcome :: rest =>
    if outcome then finishAlloc s size tag user
    else if lookupH s.heads PU_CACHE = none then ZResult.fatal
    else mallocLoop (Z_FreeTags s (PU_CACHE : Int) (PU_CACHE : Int)) size tag user rest

/-- `Z_Malloc` from z_zone.c: a zero-size request returns NULL (clearing the
destination slot when one was supplied), otherwise the size is rounded to the
chunk granularity, the proactive eviction pass runs, and the retry loop
produces the new block. -/
def Z_Malloc (s : ZState) (size : Nat) (tag : Nat) (user : Bool) (sched : List Bool) : ZResult :=
  if size = 0 then ZResult.ok none (if user then some none else none) s
  else
    mallocLoop (proactivePass s (roundChunk size)) (roundChunk size) tag user sched

/-- `Z_ChangeTag` from z_zone.c: no-op on NULL or on an unchanged tag; else
unlink from the old bucket (with head fixup), relink at the tail of the new
bucket, and update the tag field.  A dead id is C undefined behaviour,
modelled as a no-op. -/
def Z_ChangeTag (s : ZState) (p : Option Nat) (tag : Nat) : ZState :=
  match p with
  | none => s
  | some i =>
    match lookupA s.arena i with
    | none => s
    | some b =>
      if tag = b.tag then s
      else
        let heads' :=
          if b.next = i then setH s.heads b.tag none
          else if lookupH s.heads b.tag = some i then setH s.heads b.tag (some b.next)
          else s.heads
        let a1 := updateA (fun pb => { pb with next := b.next }) s.arena b.prev
        let a2 := updateA (fun nb => { nb with prev := b.prev }) a1 b.next
        let s1 : ZState := { s with heads := heads', arena := a2 }
        let s2 := linkAtTail s1 i tag
        { s2 with arena := updateA (fun bb => { bb with tag := tag }) s2.arena i }

/-- The relink-and-retag tail of `Z_ChangeTag` (lines 277-290), applied to the
state in which the block has already been unlinked from its old bucket. -/
def changeCore (s1 : ZState) (i : Nat) (tg : Nat) : ZState :=
  let s2 := linkAtTail s1 i tg
  { s2 with arena := updateA (fun b => { b with tag := tg }) s2.arena i }

/-- `memcpy(dst, src, n)` over payload byte lists. -/
def memcpyL (dst src : List (Option Nat)) (n : Nat) : List (Option Nat) :=
  src.take n ++ dst.drop n

/-- `memset(dst + off, v, n)` over payload byte lists. -/
def memsetL (dst : List (Option Nat)) (off v n : Nat) : List (Option Nat) :=
  dst.take off ++ List.replicate n (some v) ++ dst.drop (off + n)

/-- The payload rewrite `Z_Realloc` performs on the new block (lines 300-306):
copy `min(n, oldSize)` old bytes, zero-fill the tail when growing. -/
def copyFillData (n : Nat) (ob : memblock) (old : List (Option Nat)) : List (Option Nat) :=
  if n ≤ ob.size then memcpyL old ob.data n
  else memsetL (memcpyL old ob.data ob.size) ob.size 0 (n - ob.size)

/-- `Z_Realloc` from z_zone.c: always allocate fresh first; when the old
pointer is non-null, copy `min(n, oldSize)` bytes, zero-fill the tail when
growing, free the old block, and re-store the new address through `user`
after the free.  A NULL old pointer degenerates to a plain `Z_Malloc`. -/
def Z_Realloc (s : ZState) (p : Option Nat) (n : Nat) (tag : Nat) (user : Bool)
    (sched : List Bool) : ZResult :=
  match Z_Malloc s n tag user sched with
  | ZResult.fatal => ZResult.fatal
  | ZResult.ok ret slotW s1 =>
    match p with
    | none => ZResult.ok ret slotW s1
    | some oldId =>
      match lookupA s1.arena oldId with
      | none => ZResult.ok ret slotW s1
      | some ob =>
        let s2 :=
          match ret with
          | none => s1
          | some newId =>
            let copyFill := fun (b : memblock) => { b with data := copyFillData n ob b.data }
            { s1 with arena := updateA copyFill s1.arena newId }
        let s3 := Z_Free s2 (some oldId)
        ZResult.ok ret (if user then some ret else none) s3

/-- `Z_Calloc` from z_zone.c: `if (n1 *= n2) return memset(Z_Malloc(n1, tag,
user), 0, n1); return NULL;` — the product is taken in `size_t` arithmetic. -/
def Z_Calloc (s : ZState) (n1 n2 : Nat) (tag : Nat) (user : Bool)
    (sched : List Bool) : ZResult :=
  let n := n1 * n2 % 2 ^ 64
  if n = 0 then ZResult.ok none none s
  else
    match Z_Malloc s n tag user sched with
    | ZResult.fatal => ZResult.fatal
    | ZResult.ok ret slotW s1 =>
      match ret with
      | none => ZResult.ok ret slotW s1
      | some i =>
        let a' := updateA (fun b => { b with data := memsetL b.data 0 0 n }) s1.arena i
        ZResult.ok ret slotW { s1 with arena := a' }

/-- The state after `Z_Init` (all buckets NULL, counters zeroed); the ceiling
is the platform default (0 unless `MEMORY_LOW`), kept as a parameter. -/
def initState (m : Int) : ZState :=
  { arena := [], heads := [], memory_size := m, free_memory := 0, fresh := 0 }

/-- One client operation, covering the four operations of the invariant claim.
An allocation carries its external-allocator outcome schedule. -/
inductive ZOp where
  | malloc : Nat → Nat → Bool → List Bool → ZOp
  | free : Nat → ZOp
  | changeTag : Nat → Nat → ZOp
  | freeTags : Int → Int → ZOp
deriving Repr

/-- Apply one operation.  When an allocation is fatal the process has
terminated; the state reached up to that point is kept. -/
def stepOp (s : ZState) : ZOp → ZState
  | ZOp.malloc size tag user sched =>
    match Z_Malloc s size tag user sched with
    | ZResult.ok _ _ s' => s'
    | ZResult.fatal => s
  | ZOp.free i => Z_Free s (some i)
  | ZOp.changeTag i t => Z_ChangeTag s (some i) t
  | ZOp.freeTags lo hi => Z_FreeTags s lo hi

/-- Run a sequence of operations from the initial state. -/
def runOps (m : Int) (ops : List ZOp) : ZState :=
  ops.foldl stepOp (initState m)

/-- `chainF f x l r`: starting from `x`, the `next`-function `f` steps through
the elements of `l` in order and then reaches `r`. -/
def chainF (f : Nat → Nat) : Nat → List Nat → Nat → Prop
  | x, [], r => f x = r
  | x, y :: l, r => f x = y ∧ chainF f y l r

/-- Decidability of `chainF`, so that witnesses can evaluate it. -/
def chainFDec (f : Nat → Nat) : (x : Nat) → (l : List Nat) → (r : Nat) → Decidable (chainF f x l r)
  | x, [], r => Nat.decEq (f x) r
  | x, y :: l, r =>
    match chainFDec f y l r with
    | isTrue h => if h2 : f x = y then isTrue ⟨h2, h⟩ else isFalse (fun hc => h2 hc.1)
    | isFalse h => isFalse (fun hc => h hc.2)

instance (f : Nat → Nat) (x : Nat) (l : List Nat) (r : Nat) : Decidable (chainF f x l r) :=
  chainFDec f x l r

/-- `cyc f l`: the list `l` is one full cycle of `f` (empty, or a chain from
its head through its tail back to its head). -/
def cyc (f : Nat → Nat) : List Nat → Prop
  | [] => True
  | a :: rest => chainF f a rest a

instance (f : Nat → Nat) (l : List Nat) : Decidable (cyc f l) :=
  match l with
  | [] => isTrue trivial
  | a :: rest => chainFDec f a rest a

/-- `bucketRep s t l`: the list `l` is the contents of tag `t`'s bucket, in
bucket order: the head table points at its first element, it enumerates
without repetition exactly the live blocks tagged `t`, the `next` fields
cycle through it, and `prev` is the inverse of `next` on it. -/
def bucketRep (s : ZState) (t : Nat) (l : List Nat) : Prop :=
  lookupH s.heads t = l.head?
  ∧ l.Nodup
  ∧ (∀ i ∈ l, tagOf s i = some t)
  ∧ (∀ p ∈ s.arena, p.2.tag = t → p.1 ∈ l)
  ∧ cyc (blkNext s) l
  ∧ (∀ i ∈ l, blkPrev s (blkNext s i) = i)

instance (s : ZState) (t : Nat) (l : List Nat) : Decidable (bucketRep s t l) := by
  unfold bucketRep; infer_instance

/-- Global well-formedness: arena keys are distinct and below the fresh-id
counter, and every tag's bucket has a representing list. -/
def ZWF (s : ZState) : Prop :=
  (s.arena.map Prod.fst).Nodup
  ∧ (∀ p ∈ s.arena, p.1 < s.fresh)
  ∧ (∀ t : Nat, ∃ l : List Nat, bucketRep s t l)

/-- `k`-fold iteration of a `next`-function. -/
def iterF (f : Nat → Nat) : Nat → Nat → Nat
  | 0, x => x
  | k + 1, x => iterF f k (f x)

/-- `k`-fold iteration of `next` from block `i`. -/
def nextIter (s : ZState) (k : Nat) (i : Nat) : Nat :=
  iterF (blkNext s) k i

/-- A block id is live and carries tag `t`. -/
def liveWithTag (s : ZState) (t i : Nat) : Prop :=
  tagOf s i = some t

instance (s : ZState) (t i : Nat) : Decidable (liveWithTag s t i) := by
  unfold liveWithTag; infer_instance

/-- Free a list of payload ids in order; the spec's description of the
eviction passes ("oldest to newest"). -/
def freeSeq (s : ZState) (ids : List Nat) : ZState :=
  ids.foldl (fun s0 i => Z_Free s0 (some i)) s

/-- A concrete CACHE-tagged block record used in test states. -/
def cacheBlk : memblock :=
  { next := 0, prev := 0, size := 32, tag := PU_CACHE, data := List.replicate 32 none }

/-- A concrete test state holding a single CACHE-tagged block (id 0, size 32),
with a configurable ceiling, as after one cache allocation. -/
def oneCacheState (m : Int) : ZState :=
  { arena := [(0, { next := 0, prev := 0, size := 32, tag := PU_CACHE,
                    data := List.replicate 32 none })],
    heads := [(PU_CACHE, 0)],
    memory_size := m,
    free_memory := -32,
    fresh := 1 }

/-! ### Association-list lemmas -/

theorem lookupA_eq_none (a : List (Nat × memblock)) (i : Nat)
    (h : i ∉ a.map Prod.fst) : lookupA a i = none := by
  induction a with
  | nil => rfl
  | cons p rest ih =>
    obtain ⟨j, b⟩ := p
    simp only [List.map_cons, List.mem_cons] at h
    push_neg at h
    simp [lookupA, Ne.symm h.1, ih h.2]

theorem mem_of_lookupA {a : List (Nat × memblock)} {i : Nat} {b : memblock}
    (h : lookupA a i = some b) : (i, b) ∈ a := by
  induction a with
  | nil => simp [lookupA] at h
  | cons p rest ih =>
    obtain ⟨j, c⟩ := p
    by_cases hj : j = i
    · subst hj
      simp [lookupA] at h
      simp [h]
    · simp [lookupA, hj] at h
      simp [ih h]

theorem lookupA_of_mem {a : List (Nat × memblock)} {i : Nat} {b : memblock}
    (hnd : (a.map Prod.fst).Nodup) (h : (i, b) ∈ a) : lookupA a i = some b := by
  induction a with
  | nil => simp at h
  | cons p rest ih =>
    obtain ⟨j, c⟩ := p
    simp only [List.map_cons, List.nodup_cons] at hnd
    rcases List.mem_cons.mp h with h1 | h1
    · rw [show j = i from (Prod.mk.injEq _ _ _ _ ▸ h1).1.symm] at hnd ⊢
      rw [show c = b from (Prod.mk.injEq _ _ _ _ ▸ h1).2.symm]
      simp [lookupA]
    · have hji : j ≠ i := by
        intro hji; subst hji
        exact hnd.1 (List.mem_map.mpr ⟨(j, b), h1, rfl⟩)
      simp [lookupA, hji, ih hnd.2 h1]

theorem lookupA_update_self (f : memblock → memblock) (a : List (Nat × memblock)) (i : Nat) :
    lookupA (updateA f a i) i = (lookupA a i).map f := by
  induction a with
  | nil => rfl
  | cons p rest ih =>
    obtain ⟨j, b⟩ := p
    by_cases hj : j = i
    · subst hj; simp [lookupA, updateA]
    · simp [lookupA, updateA, hj, ih]

theorem lookupA_update_ne (f : memblock → memblock) (a : List (Nat × memblock)) {i j : Nat}
    (h : j ≠ i) : lookupA (updateA f a i) j = lookupA a j := by
  induction a with
  | nil => rfl
  | cons p rest ih =>
    obtain ⟨k, b⟩ := p
    by_cases hk : k = i
    · subst hk
      simp [lookupA, updateA, Ne.symm h]
    · by_cases hkj : k = j
      · subst hkj; simp [lookupA, updateA, hk]
      · simp [lookupA, updateA, hk, hkj, ih]

theorem lookupA_remove_ne (a : List (Nat × memblock)) {i j : Nat}
    (h : j ≠ i) : lookupA (removeA a i) j = lookupA a j := by
  induction a with
  | nil => rfl
  | cons p rest ih =>
    obtain ⟨k, b⟩ := p
    by_cases hk : k = i
    · subst hk
      simp [lookupA, removeA, Ne.symm h]
    · by_cases hkj : k = j
      · subst hkj; simp [lookupA, removeA, hk]
      · simp [lookupA, removeA, hk, hkj, ih]

theorem keys_updateA (f : memblock → memblock) (a : List (Nat × memblock)) (i : Nat) :
    (updateA f a i).map Prod.fst = a.map Prod.fst := by
  induction a with
  | nil => rfl
  | cons p rest ih =>
    obtain ⟨k, b⟩ := p
    by_cases hk : k = i
    · subst hk; simp [updateA]
    · simp [updateA, hk, ih]

theorem keys_removeA (a : List (Nat × memblock)) (i : Nat) :
    (removeA a i).map Prod.fst = (a.map Prod.fst).erase i := by
  induction a with
  | nil => rfl
  | cons p rest ih =>
    obtain ⟨k, b⟩ := p
    by_cases hk : k = i
    · subst hk; simp [removeA]
    · simp [removeA, hk, ih, List.erase_cons_tail, hk]

theorem lookupA_remove_self {a : List (Nat × memblock)} {i : Nat}
    (hnd : (a.map Prod.fst).Nodup) : lookupA (removeA a i) i = none := by
  apply lookupA_eq_none
  rw [keys_removeA]
  exact (hnd.erase_eq_filter i ▸ List.mem_filter).mp.mt (by simp)

theorem length_updateA (f : memblock → memblock) (a : List (Nat × memblock)) (i : Nat) :
    (updateA f a i).length = a.length := by
  induction a with
  | nil => rfl
  | cons p rest ih =>
    obtain ⟨k, b⟩ := p
    by_cases hk : k = i
    · subst hk; simp [updateA]
    · simp [updateA, hk, ih]

theorem length_removeA {a : List (Nat × memblock)} {i : Nat} {b : memblock}
    (h : lookupA a i = some b) : a.length = (removeA a i).length + 1 := by
  induction a with
  | nil => simp [lookupA] at h
  | cons p rest ih =>
    obtain ⟨k, c⟩ := p
    by_cases hk : k = i
    · subst hk; simp [removeA]
    · simp [lookupA, hk] at h
      simp [removeA, hk, ih h]

/-! ### Bucket-table lemmas -/

theorem lookupH_removeH_self (h : List (Nat × Nat)) (t : Nat) :
    lookupH (removeH h t) t = none := by
  induction h with
  | nil => rfl
  | cons p rest ih =>
    obtain ⟨k, x⟩ := p
    by_cases hk : k = t
    · subst hk; simp [removeH, ih]
    · simp [removeH, lookupH, hk, ih]

theorem lookupH_removeH_ne (h : List (Nat × Nat)) {t t' : Nat} (hne : t' ≠ t) :
    lookupH (removeH h t) t' = lookupH h t' := by
  induction h with
  | nil => rfl
  | cons p rest ih =>
    obtain ⟨k, x⟩ := p
    by_cases hk : k = t
    · subst hk; simp [removeH, lookupH, Ne.symm hne, ih]
    · simp [removeH, lookupH, hk, ih]

theorem lookupH_setH_self (h : List (Nat × Nat)) (t : Nat) (v : Option Nat) :
    lookupH (setH h t v) t = v := by
  cases v with
  | none => simp [setH, lookupH_removeH_self]
  | some x => simp [setH, lookupH]

theorem lookupH_setH_ne (h : List (Nat × Nat)) {t t' : Nat} (v : Option Nat) (hne : t' ≠ t) :
    lookupH (setH h t v) t' = lookupH h t' := by
  cases v with
  | none => simp [setH, lookupH_removeH_ne h hne]
  | some x => simp [setH, lookupH, Ne.symm hne, lookupH_removeH_ne h hne]

/-! ### Chain lemmas -/

theorem chainF_append (f : Nat → Nat) (l₁ l₂ : List Nat) (x y r : Nat) :
    chainF f x (l₁ ++ y :: l₂) r ↔ chainF f x l₁ y ∧ chainF f y l₂ r := by
  induction l₁ generalizing x with
  | nil => simp [chainF, and_assoc]
  | cons z l ih => simp [chainF, ih, and_assoc]

theorem chainF_congr {f f' : Nat → Nat} {l : List Nat} {x r : Nat}
    (hx : f' x = f x) (hl : ∀ e ∈ l, f' e = f e) :
    chainF f x l r → chainF f' x l r := by
  induction l generalizing x with
  | nil => intro h; simpa [chainF, hx]
  | cons y l ih =>
    intro h
    obtain ⟨h1, h2⟩ := h
    exact ⟨hx.trans h1, ih (hl y (by simp)) (fun e he => hl e (by simp [he])) h2⟩

theorem chainF_last {f : Nat → Nat} {l : List Nat} {x r : Nat} :
    chainF f x l r → f (l.getLastD x) = r := by
  induction l generalizing x with
  | nil => intro h; simpa [chainF] using h
  | cons y l ih =>
    intro h
    obtain ⟨_, h2⟩ := h
    rw [List.getLastD_cons]
    exact ih h2

theorem chainF_target_mem {f : Nat → Nat} {l : List Nat} {x r : Nat}
    (h : chainF f x l r) : ∀ e, (e = x ∨ e ∈ l) → (f e ∈ l ∨ f e = r) := by
  induction l generalizing x with
  | nil =>
    intro e he
    rcases he with he | he
    · subst he; exact Or.inr h
    · simp at he
  | cons y l ih =>
    intro e he
    obtain ⟨h1, h2⟩ := h
    rcases he with he | he
    · subst he; exact Or.inl (by simp [h1])
    · rcases List.mem_cons.mp he with he | he
      · subst he
        rcases ih h2 e (Or.inl rfl) with hh | hh
        · exact Or.inl (by simp [hh])
        · exact Or.inr hh
      · rcases ih h2 e (Or.inr he) with hh | hh
        · exact Or.inl (by simp [hh])
        · exact Or.inr hh

theorem chainF_src_exists {f : Nat → Nat} {l : List Nat} {x r : Nat}
    (h : chainF f x l r) : ∀ m ∈ l, ∃ e, (e = x ∨ e ∈ l) ∧ f e = m := by
  induction l generalizing x with
  | nil => simp
  | cons y l ih =>
    intro m hm
    obtain ⟨h1, h2⟩ := h
    rcases List.mem_cons.mp hm with hm | hm
    · subst hm; exact ⟨x, Or.inl rfl, h1⟩
    · obtain ⟨e, he, hfe⟩ := ih h2 m hm
      rcases he with he | he
      · subst he; exact ⟨e, Or.inr (by simp), hfe⟩
      · exact ⟨e, Or.inr (by simp [he]), hfe⟩

theorem chainF_iterate {f : Nat → Nat} {l : List Nat} {x r : Nat}
    (h : chainF f x l r) :
    (∀ k, k < l.length + 1 → iterF f k x = (x :: l).getD k 0)
      ∧ iterF f (l.length + 1) x = r := by
  induction l generalizing x with
  | nil =>
    refine ⟨fun k hk => ?_, by simpa [iterF, chainF] using h⟩
    have hk0 : k = 0 := by simpa using hk
    subst hk0
    rfl
  | cons y l ih =>
    obtain ⟨h1, h2⟩ := h
    obtain ⟨ih1, ih2⟩ := ih h2
    constructor
    · intro k hk
      cases k with
      | zero => rfl
      | succ k =>
        have : iterF f (k + 1) x = iterF f k y := by simp [iterF, h1]
        rw [this]
        simpa using ih1 k (by simpa using hk)
    · have : iterF f (l.length + 1 + 1) x = iterF f (l.length + 1) y := by simp [iterF, h1]
      simpa [this] using ih2

theorem getLastD_mem (l : List Nat) (x : Nat) : l.getLastD x ∈ x :: l := by
  induction l generalizing x with
  | nil => simp
  | cons y l ih =>
    rw [List.getLastD_cons]
    exact List.mem_cons_of_mem x (ih y)

/-- Replace the final step of a chain: if `f'` agrees with `f` everywhere on the
chain except at its last element, the chain re-targets to wherever `f'` sends
that last element. -/
theorem chainF_retarget {f f' : Nat → Nat} {x r r' : Nat} {l : List Nat}
    (h : chainF f x l r) (hnd : (x :: l).Nodup)
    (hlast : f' (l.getLastD x) = r')
    (hother : ∀ e, (e = x ∨ e ∈ l) → e ≠ l.getLastD x → f' e = f e) :
    chainF f' x l r' := by
  rcases List.eq_nil_or_concat l with rfl | ⟨l'', L, hl⟩
  · exact hlast
  rw [List.concat_eq_append] at hl
  subst hl
  rw [List.getLastD_concat] at hlast hother
  have hsplit := (chainF_append f l'' [] x L r).mp h
  have hL : L ∉ x :: l'' := fun hmem => (List.disjoint_of_nodup_append hnd) hmem (by simp)
  refine (chainF_append f' l'' [] x L r').mpr ⟨?_, hlast⟩
  refine chainF_congr ?_ ?_ hsplit.1
  · exact hother x (Or.inl rfl) (fun hx => hL (hx ▸ List.mem_cons_self x l''))
  · intro e he
    exact hother e (Or.inr (by simp [he])) (fun hx => hL (hx ▸ List.mem_cons.mpr (Or.inr he)))

/-- Deleting one element from a cycle: rerouting the deleted element's
predecessor to its successor leaves a cycle on the remaining list. -/
theorem cyc_erase {f f' : Nat → Nat} (u v : List Nat) (i : Nat)
    (hnd : (u ++ i :: v).Nodup)
    (hc : cyc f (u ++ i :: v))
    (hf' : ∀ e ∈ u ++ v, f' e = if e = u.getLastD (v.getLastD i) then f i else f e) :
    cyc f' (u ++ v) := by
  cases u with
  | nil =>
    cases v with
    | nil => trivial
    | cons w v' =>
      simp only [List.nil_append] at hnd hc hf' ⊢
      obtain ⟨h1, h2⟩ := hc
      have hret : chainF f' w v' (f i) := by
        refine chainF_retarget h2 (List.nodup_cons.mp hnd).2 ?_ ?_
        · rw [show (w :: v').getLastD i = v'.getLastD w from List.getLastD_cons _ _ _] at hf'
          exact (hf' _ (getLastD_mem v' w)).trans (if_pos rfl)
        · intro e he hne
          rw [show (w :: v').getLastD i = v'.getLastD w from List.getLastD_cons _ _ _] at hf'
          have hme : e ∈ w :: v' := by
            rcases he with he | he
            · simp [he]
            · simp [he]
          exact (hf' e hme).trans (if_neg hne)
      simpa [cyc, h1] using hret
  | cons u0 u' =>
    have hc' : chainF f u0 (u' ++ i :: v) u0 := hc
    obtain ⟨h1, h2⟩ := (chainF_append f u' v u0 i u0).mp hc'
    have hpred : (u0 :: u').getLastD (v.getLastD i) = u'.getLastD u0 := List.getLastD_cons _ _ _
    rw [hpred] at hf'
    have hnd2 : ((u0 :: u') ++ (i :: v)).Nodup := hnd
    have hndu : (u0 :: u').Nodup := List.Nodup.of_append_left hnd2
    have hpred_mem : u'.getLastD u0 ∈ u0 :: u' := getLastD_mem u' u0
    have hlift : ∀ e, e ∈ u0 :: u' → e ∈ u0 :: u' ++ v := by
      intro e he
      rcases List.mem_cons.mp he with h | h
      · rw [h]; exact List.mem_cons_self _ _
      · exact List.mem_cons_of_mem _ (List.mem_append_left v h)
    have hret : chainF f' u0 u' (f i) := by
      refine chainF_retarget h1 hndu ?_ ?_
      · exact (hf' _ (hlift _ hpred_mem)).trans (if_pos rfl)
      · intro e he hne
        have hme : e ∈ u0 :: u' := by
          rcases he with he | he
          · rw [he]; exact List.mem_cons_self _ _
          · exact List.mem_cons_of_mem _ he
        exact (hf' e (hlift _ hme)).trans (if_neg hne)
    cases v with
    | nil =>
      have h2' : f i = u0 := h2
      simpa [cyc, h2'] using hret
    | cons w v' =>
      obtain ⟨h21, h22⟩ := h2
      show chainF f' u0 (u' ++ w :: v') u0
      refine (chainF_append f' u' v' u0 w u0).mpr ⟨h21 ▸ hret, ?_⟩
      have hdisj : ∀ e ∈ w :: v', e ∉ u0 :: u' := by
        intro e he hmem
        have hnd' : ((u0 :: u') ++ i :: w :: v').Nodup := by simpa using hnd
        exact (List.disjoint_of_nodup_append hnd') hmem (by simp [he])
      refine chainF_congr ?_ ?_ h22
      · refine (hf' w (by simp)).trans (if_neg ?_)
        intro hw
        exact hdisj w (by simp) (hw ▸ hpred_mem)
      · intro e he
        refine (hf' e (by simp [he])).trans (if_neg ?_)
        intro hwe
        exact hdisj e (by simp [he]) (hwe ▸ hpred_mem)

/-- Appending one fresh element at the tail of a cycle: the old tail is
rerouted to the new element and the new element points at the head. -/
theorem cyc_snoc {f f' : Nat → Nat} (l : List Nat) (i : Nat)
    (hnd : l.Nodup) (hni : i ∉ l) (hc : cyc f l)
    (hfi : f' i = l.headD i)
    (hf' : ∀ e ∈ l, f' e = if e = l.getLastD i then i else f e) :
    cyc f' (l ++ [i]) := by
  cases l with
  | nil => exact hfi
  | cons a rest =>
    show chainF f' a (rest ++ [i]) a
    refine (chainF_append f' rest [] a i a).mpr ⟨?_, hfi⟩
    rw [show (a :: rest).getLastD i = rest.getLastD a from List.getLastD_cons _ _ _] at hf'
    refine chainF_retarget hc hnd ?_ ?_
    · exact (hf' _ (getLastD_mem rest a)).trans (if_pos rfl)
    · intro e he hne
      have hme : e ∈ a :: rest := by
        rcases he with he | he
        · simp [he]
        · simp [he]
      exact (hf' e hme).trans (if_neg hne)

/-! ### Consequences of a bucket representation -/

theorem bucketRep_live {s : ZState} {t : Nat} {l : List Nat} (h : bucketRep s t l)
    {e : Nat} (he : e ∈ l) : ∃ b, lookupA s.arena e = some b ∧ b.tag = t := by
  have ht := h.2.2.1 e he
  unfold tagOf at ht
  rcases Option.map_eq_some'.mp ht with ⟨b, hb, htag⟩
  exact ⟨b, hb, htag⟩

theorem bucketRep_next_mem {s : ZState} {t : Nat} {l : List Nat} (h : bucketRep s t l)
    {e : Nat} (he : e ∈ l) : blkNext s e ∈ l := by
  cases l with
  | nil => simp at he
  | cons a rest =>
    have hc : chainF (blkNext s) a rest a := h.2.2.2.2.1
    rcases chainF_target_mem hc e (by
      rcases List.mem_cons.mp he with h1 | h1
      · exact Or.inl h1
      · exact Or.inr h1) with h2 | h2
    · exact List.mem_cons_of_mem _ h2
    · rw [h2]; exact List.mem_cons_self _ _

theorem bucketRep_src {s : ZState} {t : Nat} {l : List Nat} (h : bucketRep s t l)
    {m : Nat} (hm : m ∈ l) : ∃ e ∈ l, blkNext s e = m := by
  cases l with
  | nil => simp at hm
  | cons a rest =>
    have hc : chainF (blkNext s) a rest a := h.2.2.2.2.1
    rcases List.mem_cons.mp hm with h1 | h1
    · exact ⟨rest.getLastD a, getLastD_mem rest a, by rw [h1]; exact chainF_last hc⟩
    · obtain ⟨e, he, hfe⟩ := chainF_src_exists hc m h1
      rcases he with he | he
      · exact ⟨e, by rw [he]; exact List.mem_cons_self _ _, hfe⟩
      · exact ⟨e, List.mem_cons_of_mem _ he, hfe⟩

theorem bucketRep_prev_mem {s : ZState} {t : Nat} {l : List Nat} (h : bucketRep s t l)
    {m : Nat} (hm : m ∈ l) : blkPrev s m ∈ l ∧ blkNext s (blkPrev s m) = m := by
  obtain ⟨e, he, hfe⟩ := bucketRep_src h hm
  have hinv := h.2.2.2.2.2 e he
  rw [hfe] at hinv
  exact ⟨hinv ▸ he, by rw [hinv, hfe]⟩

/-! ### Field bridges for `Z_Free` -/

theorem lookupA_update_of_none {a : List (Nat × memblock)} {j : Nat} (k : Nat)
    (f : memblock → memblock) (hj : lookupA a j = none) :
    lookupA (updateA f a k) j = none := by
  by_cases h : j = k
  · subst h; rw [lookupA_update_self, hj]; rfl
  · rw [lookupA_update_ne _ _ h, hj]

theorem removeA_of_none {a : List (Nat × memblock)} {i : Nat}
    (h : lookupA a i = none) : removeA a i = a := by
  induction a with
  | nil => rfl
  | cons p rest ih =>
    obtain ⟨k, b⟩ := p
    by_cases hk : k = i
    · subst hk; simp [lookupA] at h
    · simp [lookupA, hk] at h
      simp [removeA, hk, ih h]

theorem lookupA_update_isSome (f : memblock → memblock) (a : List (Nat × memblock)) (k j : Nat) :
    (lookupA (updateA f a k) j).isSome = (lookupA a j).isSome := by
  by_cases h : j = k
  · subst h; rw [lookupA_update_self]; cases lookupA a j <;> rfl
  · rw [lookupA_update_ne _ _ h]

theorem Z_Free_lookup_ne {s : ZState} {i : Nat} {b : memblock}
    (hb : lookupA s.arena i = some b) {j : Nat} (hj : j ≠ i) :
    lookupA (Z_Free s (some i)).arena j =
      (lookupA s.arena j).map (fun c =>
        { c with next := if j = b.prev then b.next else c.next,
                 prev := if j = b.next then b.prev else c.prev }) := by
  have lookupA_update : ∀ (f : memblock → memblock) (a : List (Nat × memblock)) (k j : Nat),
      lookupA (updateA f a k) j = if j = k then (lookupA a j).map f else lookupA a j := by
    intro f a k j
    by_cases h : j = k
    · subst h; rw [lookupA_update_self, if_pos rfl]
    · rw [lookupA_update_ne _ _ h, if_neg h]
  simp only [Z_Free, hb]
  rw [lookupA_remove_ne _ hj, lookupA_update, lookupA_update]
  by_cases h2 : j = b.next <;> by_cases h1 : j = b.prev
  · have hpn : b.prev = b.next := h1.symm.trans h2
    cases hc : lookupA s.arena j <;> simp [h1, h2, hpn]
  · have hpn : ¬ b.next = b.prev := fun h => h1 (h2.trans h)
    cases hc : lookupA s.arena j <;> simp [h1, h2, hpn]
  · have hpn : ¬ b.prev = b.next := fun h => h2 (h1.trans h)
    cases hc : lookupA s.arena j <;> simp [h1, h2, hpn]
  · cases hc : lookupA s.arena j <;> simp [h1, h2]

theorem Z_Free_lookup_self {s : ZState} {i : Nat} {b : memblock}
    (hb : lookupA s.arena i = some b) (hnd : (s.arena.map Prod.fst).Nodup) :
    lookupA (Z_Free s (some i)).arena i = none := by
  simp only [Z_Free, hb]
  apply lookupA_remove_self
  rw [keys_updateA, keys_updateA]
  exact hnd

theorem Z_Free_keys {s : ZState} {i : Nat} {b : memblock}
    (hb : lookupA s.arena i = some b) :
    (Z_Free s (some i)).arena.map Prod.fst = (s.arena.map Prod.fst).erase i := by
  simp only [Z_Free, hb]
  rw [keys_removeA, keys_updateA, keys_updateA]

theorem Z_Free_memory_size (s : ZState) (p : Option Nat) :
    (Z_Free s p).memory_size = s.memory_size := by
  cases p with
  | none => rfl
  | some i =>
    cases hb : lookupA s.arena i with
    | none => simp [Z_Free, hb]
    | some b => simp [Z_Free, hb]

theorem Z_Free_fresh (s : ZState) (p : Option Nat) :
    (Z_Free s p).fresh = s.fresh := by
  cases p with
  | none => rfl
  | some i =>
    cases hb : lookupA s.arena i with
    | none => simp [Z_Free, hb]
    | some b => simp [Z_Free, hb]

theorem Z_Free_free_memory {s : ZState} {i : Nat} {b : memblock}
    (hb : lookupA s.arena i = some b) :
    (Z_Free s (some i)).free_memory = s.free_memory + (b.size : Int) := by
  simp [Z_Free, hb]

theorem Z_Free_heads_ne {s : ZState} {i : Nat} {b : memblock}
    (hb : lookupA s.arena i = some b) {t' : Nat} (ht : t' ≠ b.tag) :
    lookupH (Z_Free s (some i)).heads t' = lookupH s.heads t' := by
  simp only [Z_Free, hb]
  by_cases h1 : b.next = i
  · simp only [if_pos h1]
    exact lookupH_setH_ne _ _ ht
  · simp only [if_neg h1]
    by_cases h2 : lookupH s.heads b.tag = some i
    · simp only [if_pos h2]
      exact lookupH_setH_ne _ _ ht
    · simp only [if_neg h2]

theorem Z_Free_length {s : ZState} {i : Nat} {b : memblock}
    (hb : lookupA s.arena i = some b) :
    s.arena.length = (Z_Free s (some i)).arena.length + 1 := by
  simp only [Z_Free, hb]
  have hsome : (lookupA (updateA (fun nb => { nb with prev := b.prev })
      (updateA (fun pb => { pb with next := b.next }) s.arena b.prev) b.next) i).isSome := by
    rw [lookupA_update_isSome, lookupA_update_isSome, hb]
    rfl
  obtain ⟨b2, hb2⟩ := Option.isSome_iff_exists.mp hsome
  rw [← length_removeA hb2, length_updateA, length_updateA]

theorem Z_Free_dead {s : ZState} {i j : Nat} (hj : lookupA s.arena j = none) :
    lookupA (Z_Free s (some i)).arena j = none := by
  cases hb : lookupA s.arena i with
  | none => simp [Z_Free, hb, hj]
  | some b =>
    have hji : j ≠ i := fun h => by rw [h, hb] at hj; exact Option.noConfusion hj
    rw [Z_Free_lookup_ne hb hji, hj]
    rfl

theorem Z_Free_tagOf {s : ZState} {i : Nat} {b : memblock}
    (hb : lookupA s.arena i = some b) {j : Nat} (hj : j ≠ i) :
    tagOf (Z_Free s (some i)) j = tagOf s j := by
  unfold tagOf
  rw [Z_Free_lookup_ne hb hj]
  cases lookupA s.arena j <;> simp

theorem Z_Free_sizeOf {s : ZState} {i : Nat} {b : memblock}
    (hb : lookupA s.arena i = some b) {j : Nat} (hj : j ≠ i) :
    sizeOfB (Z_Free s (some i)) j = sizeOfB s j := by
  unfold sizeOfB
  rw [Z_Free_lookup_ne hb hj]
  cases lookupA s.arena j <;> simp

theorem Z_Free_dataOf {s : ZState} {i : Nat} {b : memblock}
    (hb : lookupA s.arena i = some b) {j : Nat} (hj : j ≠ i) :
    dataOf (Z_Free s (some i)) j = dataOf s j := by
  unfold dataOf
  rw [Z_Free_lookup_ne hb hj]
  cases lookupA s.arena j <;> simp

theorem Z_Free_blkNext_other {s : ZState} {i : Nat} {b : memblock}
    (hb : lookupA s.arena i = some b) {j : Nat} (hj : j ≠ i) (hjp : j ≠ b.prev) :
    blkNext (Z_Free s (some i)) j = blkNext s j := by
  unfold blkNext
  rw [Z_Free_lookup_ne hb hj]
  cases lookupA s.arena j <;> simp [hjp]

theorem Z_Free_blkNext_prev {s : ZState} {i : Nat} {b : memblock}
    (hb : lookupA s.arena i = some b) (hpi : b.prev ≠ i) {pb : memblock}
    (hpb : lookupA s.arena b.prev = some pb) :
    blkNext (Z_Free s (some i)) b.prev = b.next := by
  unfold blkNext
  rw [Z_Free_lookup_ne hb hpi, hpb]
  simp

theorem Z_Free_blkPrev_other {s : ZState} {i : Nat} {b : memblock}
    (hb : lookupA s.arena i = some b) {j : Nat} (hj : j ≠ i) (hjn : j ≠ b.next) :
    blkPrev (Z_Free s (some i)) j = blkPrev s j := by
  unfold blkPrev
  rw [Z_Free_lookup_ne hb hj]
  cases lookupA s.arena j <;> simp [hjn]

theorem Z_Free_blkPrev_next {s : ZState} {i : Nat} {b : memblock}
    (hb : lookupA s.arena i = some b) (hni : b.next ≠ i) {nb : memblock}
    (hnb : lookupA s.arena b.next = some nb) :
    blkPrev (Z_Free s (some i)) b.next = b.prev := by
  unfold blkPrev
  rw [Z_Free_lookup_ne hb hni, hnb]
  simp

theorem Z_Free_heads_tag {s : ZState} {i : Nat} {b : memblock}
    (hb : lookupA s.arena i = some b) :
    lookupH (Z_Free s (some i)).heads b.tag =
      if b.next = i then none
      else if lookupH s.heads b.tag = some i then some b.next
      else lookupH s.heads b.tag := by
  simp only [Z_Free, hb]
  by_cases h1 : b.next = i
  · simp only [if_pos h1]
    exact lookupH_setH_self _ _ _
  · simp only [if_neg h1]
    by_cases h2 : lookupH s.heads b.tag = some i
    · simp only [if_pos h2]
      exact lookupH_setH_self _ _ _
    · simp only [if_neg h2]

/-- Freeing a block deletes it from its bucket: if the bucket was
`u ++ i :: v`, afterwards it is `u ++ v`. -/
theorem Z_Free_bucket {s : ZState} {t : Nat} {u v : List Nat} {i : Nat} {b : memblock}
    (hnd : (s.arena.map Prod.fst).Nodup)
    (hrep : bucketRep s t (u ++ i :: v))
    (hb : lookupA s.arena i = some b) :
    bucketRep (Z_Free s (some i)) t (u ++ v) := by
  obtain ⟨hhead, hnodup, htags, hamem, hcyc, hinv⟩ := hrep
  have hi_mem : i ∈ u ++ i :: v := List.mem_append_right u (List.mem_cons_self i v)
  have hbt : b.tag = t := by
    have h := htags i hi_mem
    unfold tagOf at h
    rw [hb] at h
    simpa using h
  have hbn : b.next = blkNext s i := by simp [blkNext, hb]
  have hbp : b.prev = blkPrev s i := by simp [blkPrev, hb]
  have hlive : ∀ e ∈ u ++ i :: v, ∃ c, lookupA s.arena e = some c ∧ c.tag = t := by
    intro e he
    have h := htags e he
    unfold tagOf at h
    rcases Option.map_eq_some'.mp h with ⟨c, hc, hct⟩
    exact ⟨c, hc, hct⟩
  have hnd_uv : (u ++ v).Nodup :=
    List.Nodup.sublist (List.Sublist.append_left (List.sublist_cons_self i v) u) hnodup
  have hi_not_uv : i ∉ u ++ v := by
    rcases List.nodup_append.mp hnodup with ⟨_, hndiv, hdisj⟩
    intro hmem
    rcases List.mem_append.mp hmem with h | h
    · exact hdisj h (List.mem_cons_self i v)
    · exact (List.nodup_cons.mp hndiv).1 h
  have hsub : ∀ e ∈ u ++ v, e ∈ u ++ i :: v := by
    intro e he
    rcases List.mem_append.mp he with h | h
    · exact List.mem_append_left _ h
    · exact List.mem_append_right _ (List.mem_cons_of_mem i h)
  have hne_i : ∀ e ∈ u ++ v, e ≠ i := fun e he hei => hi_not_uv (hei ▸ he)
  -- the predecessor of i in the cycle
  have hPfact : blkNext s (u.getLastD (v.getLastD i)) = i
      ∧ u.getLastD (v.getLastD i) ∈ u ++ i :: v := by
    cases u with
    | nil =>
      cases v with
      | nil => exact ⟨hcyc, by simp⟩
      | cons w v' =>
        have hc : chainF (blkNext s) i (w :: v') i := hcyc
        rw [List.getLastD_nil, List.getLastD_cons]
        refine ⟨chainF_last hc.2, ?_⟩
        exact List.mem_append_right [] (List.mem_cons_of_mem i (getLastD_mem v' w))
    | cons u0 u' =>
      have hc : chainF (blkNext s) u0 (u' ++ i :: v) u0 := hcyc
      obtain ⟨h1, _⟩ := (chainF_append _ u' v u0 i u0).mp hc
      rw [List.getLastD_cons]
      refine ⟨chainF_last h1, ?_⟩
      rcases List.mem_cons.mp (getLastD_mem u' u0) with h | h
      · rw [h]; exact List.mem_append_left _ (List.mem_cons_self u0 u')
      · exact List.mem_append_left _ (List.mem_cons_of_mem u0 h)
  have hbpP : b.prev = u.getLastD (v.getLastD i) := by
    have h := hinv _ hPfact.2
    rw [hPfact.1] at h
    rw [hbp, ← h]
  -- in the non-singleton case the freed block is not its own successor
  have hfi_ne : u ++ v ≠ [] → b.next ≠ i := by
    intro hne
    cases u with
    | nil =>
      cases v with
      | nil => exact absurd rfl hne
      | cons w v' =>
        have hc : chainF (blkNext s) i (w :: v') i := hcyc
        intro hcontra
        have hw : blkNext s i = w := hc.1
        have hwi : w ≠ i := by
          have hndr : (i :: w :: v').Nodup := hnodup
          intro h
          exact (List.nodup_cons.mp hndr).1 (by rw [h]; exact List.mem_cons_self i v')
        exact hwi (by rw [← hw, ← hbn]; exact hcontra)
    | cons u0 u' =>
      have hc : chainF (blkNext s) u0 (u' ++ i :: v) u0 := hcyc
      obtain ⟨_, h2⟩ := (chainF_append _ u' v u0 i u0).mp hc
      intro hcontra
      cases v with
      | nil =>
        have hu0 : blkNext s i = u0 := h2
        have hu0i : u0 ≠ i := by
          intro h
          have hnd2 : ((u0 :: u') ++ i :: ([] : List Nat)).Nodup := hnodup
          exact (List.disjoint_of_nodup_append hnd2)
            (List.mem_cons_self u0 u') (by rw [h]; simp)
        exact hu0i (by rw [← hu0, ← hbn]; exact hcontra)
      | cons w v' =>
        have hw : blkNext s i = w := h2.1
        have hwi : w ≠ i := by
          intro h
          have hnd2 : ((u0 :: u') ++ i :: w :: v').Nodup := hnodup
          have hndr : (i :: w :: v').Nodup := List.Nodup.of_append_right hnd2
          exact (List.nodup_cons.mp hndr).1 (by rw [h]; exact List.mem_cons_self i v')
        exact hwi (by rw [← hw, ← hbn]; exact hcontra)
  refine ⟨?_, hnd_uv, ?_, ?_, ?_, ?_⟩
  -- head
  · have hht := Z_Free_heads_tag hb
    rw [hbt] at hht
    rw [hht]
    cases u with
    | nil =>
      cases v with
      | nil =>
        have hsolo : b.next = i := by rw [hbn]; exact hcyc
        simp [hsolo]
      | cons w v' =>
        have hne : b.next ≠ i := hfi_ne (by simp)
        have hc : chainF (blkNext s) i (w :: v') i := hcyc
        have hw : b.next = w := by rw [hbn]; exact hc.1
        have hhd : lookupH s.heads t = some i := by simpa using hhead
        have hwi : w ≠ i := by
          have hndr : (i :: w :: v').Nodup := hnodup
          intro hq
          exact (List.nodup_cons.mp hndr).1 (by rw [hq]; exact List.mem_cons_self i v')
        simp [hne, hhd, hw, hwi]
    | cons u0 u' =>
      have hne : b.next ≠ i := hfi_ne (by simp)
      have hhd : lookupH s.heads t = some u0 := by simpa using hhead
      have hu0i : u0 ≠ i := by
        intro h
        have hnd2 : ((u0 :: u') ++ i :: v).Nodup := hnodup
        exact (List.disjoint_of_nodup_append hnd2)
          (List.mem_cons_self u0 u') (by rw [h]; simp)
      have hnoti : lookupH s.heads t ≠ some i := by rw [hhd]; simp [hu0i]
      simp [hne, hnoti, hhd, hu0i]
  -- tags
  · intro e he
    rw [Z_Free_tagOf hb (hne_i e he)]
    exact htags e (hsub e he)
  -- arena membership
  · intro p hp hpt
    have hndF : ((Z_Free s (some i)).arena.map Prod.fst).Nodup := by
      rw [Z_Free_keys hb]
      exact hnd.erase i
    have hlook : lookupA (Z_Free s (some i)).arena p.1 = some p.2 := by
      obtain ⟨p1, p2⟩ := p
      exact lookupA_of_mem hndF hp
    have hpi : p.1 ≠ i := by
      intro h
      rw [h, Z_Free_lookup_self hb hnd] at hlook
      exact Option.noConfusion hlook
    rw [Z_Free_lookup_ne hb hpi] at hlook
    rcases Option.map_eq_some'.mp hlook with ⟨c, hc, hcp⟩
    have hct : c.tag = t := by
      have h : p.2.tag = c.tag := by rw [← hcp]
      rw [← h, hpt]
    have hmem2 := hamem (p.1, c) (mem_of_lookupA hc) hct
    rcases List.mem_append.mp hmem2 with h | h
    · exact List.mem_append_left _ h
    · rcases List.mem_cons.mp h with h | h
      · exact absurd h hpi
      · exact List.mem_append_right _ h
  -- cycle
  · refine cyc_erase u v i hnodup hcyc ?_
    intro e he
    by_cases heP : e = u.getLastD (v.getLastD i)
    · rw [if_pos heP, ← hbn]
      obtain ⟨pc, hpc, _⟩ := hlive _ hPfact.2
      have hstep : blkNext (Z_Free s (some i)) b.prev = b.next :=
        Z_Free_blkNext_prev hb (by rw [hbpP, ← heP]; exact hne_i e he)
          (by rw [hbpP]; exact hpc)
      rw [heP, ← hbpP]
      exact hstep
    · rw [if_neg heP]
      exact Z_Free_blkNext_other hb (hne_i e he) (fun h => heP (h.trans hbpP))
  -- inverse
  · intro e he
    have heI : e ≠ i := hne_i e he
    have huv_ne : u ++ v ≠ [] := fun h => by rw [h] at he; simp at he
    have hni : b.next ≠ i := hfi_ne huv_ne
    by_cases heP : e = u.getLastD (v.getLastD i)
    · have hstep : blkNext (Z_Free s (some i)) e = b.next := by
        obtain ⟨pc, hpc, _⟩ := hlive _ hPfact.2
        have h := Z_Free_blkNext_prev hb (by rw [hbpP, ← heP]; exact heI)
          (by rw [hbpP]; exact hpc)
        rw [heP, ← hbpP]
        exact h
      rw [hstep]
      have hnmem : b.next ∈ u ++ i :: v := by
        rw [hbn]
        cases u with
        | nil =>
          have hc : chainF (blkNext s) i v i := hcyc
          rcases chainF_target_mem hc i (Or.inl rfl) with h | h
          · exact List.mem_append_right [] (List.mem_cons_of_mem i h)
          · rw [h]; exact List.mem_append_right [] (List.mem_cons_self i v)
        | cons u0 u' =>
          have hc : chainF (blkNext s) u0 (u' ++ i :: v) u0 := hcyc
          have hi_mem2 : i ∈ u' ++ i :: v := List.mem_append_right u' (List.mem_cons_self i v)
          rcases chainF_target_mem hc i (Or.inr hi_mem2) with h | h
          · exact List.mem_cons_of_mem u0 h
          · rw [h]; exact List.mem_cons_self u0 _
      obtain ⟨nc, hnc, _⟩ := hlive _ hnmem
      rw [Z_Free_blkPrev_next hb hni hnc, hbpP, heP]
    · have hfe : blkNext (Z_Free s (some i)) e = blkNext s e :=
        Z_Free_blkNext_other hb heI (fun h => heP (h.trans hbpP))
      rw [hfe]
      have hfei : blkNext s e ≠ i := by
        intro h
        have h2 := hinv e (hsub e he)
        rw [h] at h2
        exact heP (by rw [← h2, ← hbp]; exact hbpP)
      have hfen : blkNext s e ≠ b.next := by
        intro h
        have h2 := hinv e (hsub e he)
        rw [h, hbn] at h2
        have h3 := hinv i hi_mem
        exact heI (h2.symm.trans h3)
      rw [Z_Free_blkPrev_other hb hfei hfen]
      exact hinv e (hsub e he)

/-- Freeing a block leaves every other tag's bucket untouched. -/
theorem Z_Free_other {s : ZState} (hWF : ZWF s) {i : Nat} {b : memblock}
    (hb : lookupA s.arena i = some b) {t' : Nat} (hbt : b.tag ≠ t')
    {l' : List Nat} (hrep' : bucketRep s t' l') :
    bucketRep (Z_Free s (some i)) t' l' := by
  obtain ⟨hnd, hfresh, hbuckets⟩ := hWF
  obtain ⟨l, hl⟩ := hbuckets b.tag
  have hi_l : i ∈ l := hl.2.2.2.1 (i, b) (mem_of_lookupA hb) rfl
  have hbp : b.prev = blkPrev s i := by simp [blkPrev, hb]
  have hbn : b.next = blkNext s i := by simp [blkNext, hb]
  have hprev_l : b.prev ∈ l := by rw [hbp]; exact (bucketRep_prev_mem hl hi_l).1
  have hnext_l : b.next ∈ l := by rw [hbn]; exact bucketRep_next_mem hl hi_l
  obtain ⟨hhead', hnodup', htags', hamem', hcyc', hinv'⟩ := hrep'
  have htag_l : ∀ e ∈ l, tagOf s e = some b.tag := hl.2.2.1
  have hne3 : ∀ e ∈ l', e ≠ i ∧ e ≠ b.prev ∧ e ≠ b.next := by
    intro e he
    have ht' := htags' e he
    refine ⟨?_, ?_, ?_⟩
    · intro h
      rw [h] at ht'
      have : tagOf s i = some b.tag := by simp [tagOf, hb]
      rw [this] at ht'
      exact hbt (by injection ht')
    · intro h
      rw [h] at ht'
      rw [htag_l _ hprev_l] at ht'
      exact hbt (by injection ht')
    · intro h
      rw [h] at ht'
      rw [htag_l _ hnext_l] at ht'
      exact hbt (by injection ht')
  have hfe : ∀ e ∈ l', blkNext (Z_Free s (some i)) e = blkNext s e := by
    intro e he
    exact Z_Free_blkNext_other hb (hne3 e he).1 (hne3 e he).2.1
  refine ⟨?_, hnodup', ?_, ?_, ?_, ?_⟩
  · rw [Z_Free_heads_ne hb (Ne.symm hbt)]
    exact hhead'
  · intro e he
    rw [Z_Free_tagOf hb (hne3 e he).1]
    exact htags' e he
  · intro p hp hpt
    have hndF : ((Z_Free s (some i)).arena.map Prod.fst).Nodup := by
      rw [Z_Free_keys hb]
      exact hnd.erase i
    have hlook : lookupA (Z_Free s (some i)).arena p.1 = some p.2 := by
      obtain ⟨p1, p2⟩ := p
      exact lookupA_of_mem hndF hp
    have hpi : p.1 ≠ i := by
      intro h
      rw [h, Z_Free_lookup_self hb hnd] at hlook
      exact Option.noConfusion hlook
    rw [Z_Free_lookup_ne hb hpi] at hlook
    rcases Option.map_eq_some'.mp hlook with ⟨c, hc, hcp⟩
    have hct : c.tag = t' := by
      have h : p.2.tag = c.tag := by rw [← hcp]
      rw [← h, hpt]
    exact hamem' (p.1, c) (mem_of_lookupA hc) hct
  · cases hl0 : l' with
    | nil => trivial
    | cons a rest =>
      have hc : chainF (blkNext s) a rest a := by rw [hl0] at hcyc'; exact hcyc'
      refine chainF_congr ?_ ?_ hc
      · exact hfe a (by rw [hl0]; exact List.mem_cons_self a rest)
      · intro e he
        exact hfe e (by rw [hl0]; exact List.mem_cons_of_mem a he)
  · intro e he
    rw [hfe e he]
    have hfmem : blkNext s e ∈ l' := bucketRep_next_mem ⟨hhead', hnodup', htags', hamem', hcyc', hinv'⟩ he
    rw [Z_Free_blkPrev_other hb (hne3 _ hfmem).1 (hne3 _ hfmem).2.2]
    exact hinv' e he

/-- `Z_Free` preserves global well-formedness. -/
theorem Z_Free_ZWF {s : ZState} (hWF : ZWF s) (p : Option Nat) : ZWF (Z_Free s p) := by
  cases p with
  | none => exact hWF
  | some i =>
    cases hb : lookupA s.arena i with
    | none => simpa [Z_Free, hb] using hWF
    | some b =>
      obtain ⟨hnd, hfresh, hbuckets⟩ := hWF
      refine ⟨?_, ?_, ?_⟩
      · rw [Z_Free_keys hb]
        exact hnd.erase i
      · intro q hq
        have hk : q.1 ∈ (Z_Free s (some i)).arena.map Prod.fst :=
          List.mem_map.mpr ⟨q, hq, rfl⟩
        rw [Z_Free_keys hb] at hk
        rcases List.mem_map.mp (List.mem_of_mem_erase hk) with ⟨q', hq', hfst⟩
        rw [Z_Free_fresh, ← hfst]
        exact hfresh q' hq'
      · intro t
        by_cases ht : b.tag = t
        · obtain ⟨l, hl⟩ := hbuckets t
          have hi_l : i ∈ l := hl.2.2.2.1 (i, b) (mem_of_lookupA hb) ht
          obtain ⟨u, v, hluv⟩ := List.append_of_mem hi_l
          rw [hluv] at hl
          exact ⟨u ++ v, Z_Free_bucket hnd hl hb⟩
        · obtain ⟨l', hl'⟩ := hbuckets t
          exact ⟨l', Z_Free_other ⟨hnd, hfresh, hbuckets⟩ hb ht hl'⟩

theorem lookupA_update_ite (f : memblock → memblock) (a : List (Nat × memblock)) (k j : Nat) :
    lookupA (updateA f a k) j = if j = k then (lookupA a j).map f else lookupA a j := by
  by_cases h : j = k
  · subst h; rw [lookupA_update_self, if_pos rfl]
  · rw [lookupA_update_ne _ _ h, if_neg h]

theorem linkAtTail_empty {s1 : ZState} {i tg : Nat} (hh : lookupH s1.heads tg = none) :
    linkAtTail s1 i tg =
      { s1 with heads := setH s1.heads tg (some i),
                arena := updateA (fun b => { b with next := i, prev := i }) s1.arena i } := by
  simp [linkAtTail, hh]

theorem linkAtTail_nonempty {s1 : ZState} {i tg a : Nat} {ab : memblock}
    (hh : lookupH s1.heads tg = some a) (ha : lookupA s1.arena a = some ab) :
    (linkAtTail s1 i tg).arena =
      updateA (fun b => { b with prev := i })
        (updateA (fun b => { b with prev := ab.prev, next := a })
          (updateA (fun b => { b with next := i }) s1.arena ab.prev) i) a
    ∧ (linkAtTail s1 i tg).heads = s1.heads := by
  constructor <;> simp [linkAtTail, hh, ha]

theorem link_ne_lookup {s1 : ZState} {i tg a : Nat} {ab : memblock}
    (hh : lookupH s1.heads tg = some a) (ha : lookupA s1.arena a = some ab)
    {j : Nat} (hj : j ≠ i) :
    lookupA (linkAtTail s1 i tg).arena j =
      (lookupA s1.arena j).map (fun c =>
        { c with next := if j = ab.prev then i else c.next,
                 prev := if j = a then i else c.prev }) := by
  rw [(linkAtTail_nonempty hh ha).1]
  rw [lookupA_update_ite, lookupA_update_ite, lookupA_update_ite]
  by_cases h1 : j = a <;> by_cases h2 : j = ab.prev
  · have hTa : ab.prev = a := h2.symm.trans h1
    have hane : ¬ a = i := fun h => hj (h1.trans h)
    cases hc : lookupA s1.arena j <;> simp [h1, h2, hj, hTa, hane]
  · have hTa : ¬ a = ab.prev := fun h => h2 (h1.trans h)
    have hane : ¬ a = i := fun h => hj (h1.trans h)
    cases hc : lookupA s1.arena j <;> simp [h1, h2, hj, hTa, hane]
  · have hTa : ¬ ab.prev = a := fun h => h1 (h2.trans h)
    have hTne : ¬ ab.prev = i := fun h => hj (h2.trans h)
    cases hc : lookupA s1.arena j <;> simp [h1, h2, hj, hTa, hTne]
  · cases hc : lookupA s1.arena j <;> simp [h1, h2, hj]

theorem link_i_lookup {s1 : ZState} {i tg a : Nat} {ab : memblock}
    (hh : lookupH s1.heads tg = some a) (ha : lookupA s1.arena a = some ab)
    (hai : a ≠ i) (hTi : ab.prev ≠ i) :
    lookupA (linkAtTail s1 i tg).arena i =
      (lookupA s1.arena i).map (fun c => { c with prev := ab.prev, next := a }) := by
  rw [(linkAtTail_nonempty hh ha).1]
  rw [lookupA_update_ite, lookupA_update_ite, lookupA_update_ite]
  cases hc : lookupA s1.arena i <;> simp [Ne.symm hai, Ne.symm hTi]

theorem link_keys {s1 : ZState} (i tg : Nat) :
    (linkAtTail s1 i tg).arena.map Prod.fst = s1.arena.map Prod.fst := by
  unfold linkAtTail
  cases hh : lookupH s1.heads tg with
  | none => simp [keys_updateA]
  | some a =>
    cases ha : lookupA s1.arena a <;> simp [keys_updateA]

theorem link_fields {s1 : ZState} (i tg : Nat) :
    (linkAtTail s1 i tg).memory_size = s1.memory_size
      ∧ (linkAtTail s1 i tg).free_memory = s1.free_memory
      ∧ (linkAtTail s1 i tg).fresh = s1.fresh := by
  unfold linkAtTail
  cases hh : lookupH s1.heads tg with
  | none => exact ⟨rfl, rfl, rfl⟩
  | some a => cases ha : lookupA s1.arena a <;> exact ⟨rfl, rfl, rfl⟩

theorem link_heads_nonempty {s1 : ZState} {i tg a : Nat}
    (hh : lookupH s1.heads tg = some a) :
    (linkAtTail s1 i tg).heads = s1.heads := by
  unfold linkAtTail
  rw [hh]

theorem finishAlloc_eq (s : ZState) (size tag : Nat) (user : Bool) :
    finishAlloc s size tag user =
      ZResult.ok (some s.fresh) (if user then some (some s.fresh) else none)
        (allocCore
          { s with
            arena := (s.fresh, { next := s.fresh, prev := s.fresh, size := 0, tag := 0,
                                 data := List.replicate size none }) :: s.arena
            fresh := s.fresh + 1 }
          s.fresh size tag) := rfl

theorem allocCore_arena (s1 : ZState) (i size tg : Nat) :
    (allocCore s1 i size tg).arena =
      updateA (fun b => { b with tag := tg })
        (updateA (fun b => { b with size := size }) (linkAtTail s1 i tg).arena i) i := rfl

theorem allocCore_heads (s1 : ZState) (i size tg : Nat) :
    (allocCore s1 i size tg).heads = (linkAtTail s1 i tg).heads := rfl

theorem allocCore_fields (s1 : ZState) (i size tg : Nat) :
    (allocCore s1 i size tg).free_memory = s1.free_memory - (size : Int)
      ∧ (allocCore s1 i size tg).memory_size = s1.memory_size
      ∧ (allocCore s1 i size tg).fresh = s1.fresh := by
  refine ⟨?_, ?_, ?_⟩
  · show (linkAtTail s1 i tg).free_memory - (size : Int) = _
    rw [(link_fields i tg).2.1]
  · show (linkAtTail s1 i tg).memory_size = _
    rw [(link_fields i tg).1]
  · show (linkAtTail s1 i tg).fresh = _
    rw [(link_fields i tg).2.2]

theorem allocCore_keys (s1 : ZState) (i size tg : Nat) :
    (allocCore s1 i size tg).arena.map Prod.fst = s1.arena.map Prod.fst := by
  rw [allocCore_arena, keys_updateA, keys_updateA, link_keys]

theorem allocCore_lookup_ne_empty {s1 : ZState} {i tg : Nat} (size : Nat)
    (hh : lookupH s1.heads tg = none) {j : Nat} (hj : j ≠ i) :
    lookupA (allocCore s1 i size tg).arena j = lookupA s1.arena j := by
  rw [allocCore_arena, lookupA_update_ite, if_neg hj, lookupA_update_ite, if_neg hj,
    linkAtTail_empty hh]
  show lookupA (updateA _ s1.arena i) j = _
  rw [lookupA_update_ite, if_neg hj]

theorem allocCore_lookup_i_empty {s1 : ZState} {i tg : Nat} (size : Nat)
    (hh : lookupH s1.heads tg = none) :
    lookupA (allocCore s1 i size tg).arena i =
      (lookupA s1.arena i).map (fun c =>
        { c with next := i, prev := i, size := size, tag := tg }) := by
  rw [allocCore_arena, lookupA_update_ite, if_pos rfl, lookupA_update_ite, if_pos rfl,
    linkAtTail_empty hh]
  show ((lookupA (updateA _ s1.arena i) i).map _).map _ = _
  rw [lookupA_update_ite, if_pos rfl]
  cases lookupA s1.arena i <;> rfl

theorem allocCore_heads_empty {s1 : ZState} {i tg : Nat} (size : Nat)
    (hh : lookupH s1.heads tg = none) {t' : Nat} :
    lookupH (allocCore s1 i size tg).heads t' =
      if t' = tg then some i else lookupH s1.heads t' := by
  rw [allocCore_heads, linkAtTail_empty hh]
  show lookupH (setH s1.heads tg (some i)) t' = _
  by_cases h : t' = tg
  · rw [if_pos h, h, lookupH_setH_self]
  · rw [if_neg h, lookupH_setH_ne _ _ h]

theorem allocCore_lookup_ne_nonempty {s1 : ZState} {i tg a : Nat} {ab : memblock}
    (size : Nat) (hh : lookupH s1.heads tg = some a) (ha : lookupA s1.arena a = some ab)
    {j : Nat} (hj : j ≠ i) :
    lookupA (allocCore s1 i size tg).arena j =
      (lookupA s1.arena j).map (fun c =>
        { c with next := if j = ab.prev then i else c.next,
                 prev := if j = a then i else c.prev }) := by
  rw [allocCore_arena, lookupA_update_ite, if_neg hj, lookupA_update_ite, if_neg hj,
    link_ne_lookup hh ha hj]

theorem allocCore_lookup_i_nonempty {s1 : ZState} {i tg a : Nat} {ab : memblock}
    (size : Nat) (hh : lookupH s1.heads tg = some a) (ha : lookupA s1.arena a = some ab)
    (hai : a ≠ i) (hTi : ab.prev ≠ i) :
    lookupA (allocCore s1 i size tg).arena i =
      (lookupA s1.arena i).map (fun c =>
        { c with next := a, prev := ab.prev, size := size, tag := tg }) := by
  rw [allocCore_arena, lookupA_update_ite, if_pos rfl, lookupA_update_ite, if_pos rfl,
    link_i_lookup hh ha hai hTi]
  cases lookupA s1.arena i <;> rfl

theorem allocCore_heads_nonempty {s1 : ZState} {i tg a : Nat}
    (size : Nat) (hh : lookupH s1.heads tg = some a) :
    (allocCore s1 i size tg).heads = s1.heads := by
  rw [allocCore_heads, link_heads_nonempty hh]

/-- A bucket representation transfers to any state that agrees on the bucket
head, on the records of the bucket members, and whose blocks tagged `t'` are
among the members. -/
theorem bucketRep_transfer {s s' : ZState} {t' : Nat} {l' : List Nat}
    (hrep : bucketRep s t' l')
    (hhead : lookupH s'.heads t' = lookupH s.heads t')
    (hlook : ∀ e ∈ l', lookupA s'.arena e = lookupA s.arena e)
    (hback : ∀ p ∈ s'.arena, p.2.tag = t' → p.1 ∈ l') :
    bucketRep s' t' l' := by
  obtain ⟨hhead0, hnodup0, htags0, hamem0, hcyc0, hinv0⟩ := hrep
  have hnext : ∀ e ∈ l', blkNext s' e = blkNext s e := by
    intro e he
    unfold blkNext
    rw [hlook e he]
  have hprev : ∀ e ∈ l', blkPrev s' e = blkPrev s e := by
    intro e he
    unfold blkPrev
    rw [hlook e he]
  refine ⟨by rw [hhead, hhead0], hnodup0, ?_, hback, ?_, ?_⟩
  · intro e he
    unfold tagOf
    rw [hlook e he]
    exact htags0 e he
  · cases hl0 : l' with
    | nil => trivial
    | cons a rest =>
      have hc : chainF (blkNext s) a rest a := by rw [hl0] at hcyc0; exact hcyc0
      refine chainF_congr ?_ ?_ hc
      · exact hnext a (by rw [hl0]; exact List.mem_cons_self a rest)
      · intro e he
        exact hnext e (by rw [hl0]; exact List.mem_cons_of_mem a he)
  · intro e he
    rw [hnext e he]
    have hm : blkNext s e ∈ l' :=
      bucketRep_next_mem ⟨hhead0, hnodup0, htags0, hamem0, hcyc0, hinv0⟩ he
    rw [hprev _ hm]
    exact hinv0 e he

/-- Arena-membership direction of a bucket representation, transferred through
a lookup characterization. -/
theorem amem_transfer {s s' : ZState} {t' : Nat} {l' : List Nat}
    (hnd' : (s'.arena.map Prod.fst).Nodup)
    (hchar : ∀ j c, lookupA s'.arena j = some c → c.tag = t' →
        ∃ c2, lookupA s.arena j = some c2 ∧ c2.tag = t')
    (hamem : ∀ p ∈ s.arena, p.2.tag = t' → p.1 ∈ l') :
    ∀ p ∈ s'.arena, p.2.tag = t' → p.1 ∈ l' := by
  intro p hp hpt
  have hlk : lookupA s'.arena p.1 = some p.2 := by
    obtain ⟨p1, p2⟩ := p
    exact lookupA_of_mem hnd' hp
  obtain ⟨c2, hc2, ht2⟩ := hchar p.1 p.2 hlk hpt
  exact hamem (p.1, c2) (mem_of_lookupA hc2) ht2

/-- Full specification of the allocation success path (`Z_Malloc` lines
177-199): the fresh block is appended at the tail of its tag's bucket, every
other bucket is untouched, the new record carries the rounded size and the
tag, existing records keep their tag/size/payload, and the budget is charged. -/
theorem finishAlloc_spec {s : ZState} (hWF : ZWF s) (size tag : Nat) (user : Bool)
    {l : List Nat} (hrep : bucketRep s tag l) :
    ∃ s5 : ZState,
      finishAlloc s size tag user
        = ZResult.ok (some s.fresh) (if user then some (some s.fresh) else none) s5
      ∧ ZWF s5
      ∧ bucketRep s5 tag (l ++ [s.fresh])
      ∧ (∀ t', t' ≠ tag → ∀ l'', bucketRep s t' l'' → bucketRep s5 t' l'')
      ∧ (∃ c, lookupA s5.arena s.fresh = some c ∧ c.size = size ∧ c.tag = tag
            ∧ c.data = List.replicate size none)
      ∧ (∀ j, j ≠ s.fresh → tagOf s5 j = tagOf s j ∧ sizeOfB s5 j = sizeOfB s j
            ∧ dataOf s5 j = dataOf s j
            ∧ ((lookupA s5.arena j).isSome ↔ (lookupA s.arena j).isSome))
      ∧ s5.free_memory = s.free_memory - (size : Int)
      ∧ s5.memory_size = s.memory_size
      ∧ s5.fresh = s.fresh + 1 := by
  have hfK : s.fresh ∉ s.arena.map Prod.fst := by
    intro hmem
    rcases List.mem_map.mp hmem with ⟨q, hq, hfst⟩
    have := hWF.2.1 q hq
    omega
  have hiK : lookupA s.arena s.fresh = none := lookupA_eq_none _ _ hfK
  have hmem_ne : ∀ e ∈ l, e ≠ s.fresh := by
    intro e he hE
    obtain ⟨c, hc, _⟩ := bucketRep_live hrep he
    rw [hE, hiK] at hc
    exact Option.noConfusion hc
  set s1 : ZState :=
    { s with
      arena := (s.fresh, { next := s.fresh, prev := s.fresh, size := 0, tag := 0,
                           data := List.replicate size none }) :: s.arena
      fresh := s.fresh + 1 } with hs1
  have hl1ne : ∀ j, j ≠ s.fresh → lookupA s1.arena j = lookupA s.arena j := by
    intro j hj
    rw [hs1]
    simp [lookupA, Ne.symm hj]
  have hl1i : lookupA s1.arena s.fresh
      = some { next := s.fresh, prev := s.fresh, size := 0, tag := 0,
               data := List.replicate size none } := by
    rw [hs1]
    simp [lookupA]
  have hh1 : s1.heads = s.heads := by rw [hs1]
  have hk1 : s1.arena.map Prod.fst = s.fresh :: s.arena.map Prod.fst := by
    rw [hs1]
    simp
  have heq : finishAlloc s size tag user
      = ZResult.ok (some s.fresh) (if user then some (some s.fresh) else none)
        (allocCore s1 s.fresh size tag) := by
    rw [finishAlloc_eq, hs1]
  have hfm : (allocCore s1 s.fresh size tag).free_memory = s.free_memory - (size : Int) := by
    rw [(allocCore_fields s1 s.fresh size tag).1, hs1]
  have hms : (allocCore s1 s.fresh size tag).memory_size = s.memory_size := by
    rw [(allocCore_fields s1 s.fresh size tag).2.1, hs1]
  have hfr : (allocCore s1 s.fresh size tag).fresh = s.fresh + 1 := by
    rw [(allocCore_fields s1 s.fresh size tag).2.2, hs1]
  have hk5 : (allocCore s1 s.fresh size tag).arena.map Prod.fst
      = s.fresh :: s.arena.map Prod.fst := by
    rw [allocCore_keys, hk1]
  have hnd5 : ((allocCore s1 s.fresh size tag).arena.map Prod.fst).Nodup := by
    rw [hk5]
    exact List.nodup_cons.mpr ⟨hfK, hWF.1⟩
  have hfresh5 : ∀ q ∈ (allocCore s1 s.fresh size tag).arena,
      q.1 < (allocCore s1 s.fresh size tag).fresh := by
    intro q hq
    have hkm : q.1 ∈ (allocCore s1 s.fresh size tag).arena.map Prod.fst :=
      List.mem_map.mpr ⟨q, hq, rfl⟩
    rw [hk5] at hkm
    rw [hfr]
    rcases List.mem_cons.mp hkm with h | h
    · omega
    · rcases List.mem_map.mp h with ⟨q', hq', hfst⟩
      have := hWF.2.1 q' hq'
      omega
  cases hh : lookupH s.heads tag with
  | none =>
    have hL : l = [] := by
      have h := hrep.1
      rw [hh] at h
      exact List.head?_eq_none_iff.mp h.symm
    subst hL
    have hh1tag : lookupH s1.heads tag = none := by rw [hh1, hh]
    have hA : ∀ j, j ≠ s.fresh →
        lookupA (allocCore s1 s.fresh size tag).arena j = lookupA s.arena j := by
      intro j hj
      rw [allocCore_lookup_ne_empty size hh1tag hj, hl1ne j hj]
    have hB : lookupA (allocCore s1 s.fresh size tag).arena s.fresh
        = some { next := s.fresh, prev := s.fresh, size := size, tag := tag,
                 data := List.replicate size none } := by
      rw [allocCore_lookup_i_empty size hh1tag, hl1i]
      rfl
    have hH : ∀ t', lookupH (allocCore s1 s.fresh size tag).heads t'
        = if t' = tag then some s.fresh else lookupH s.heads t' := by
      intro t'
      rw [allocCore_heads_empty size hh1tag, hh1]
    have hrepNew : bucketRep (allocCore s1 s.fresh size tag) tag ([] ++ [s.fresh]) := by
      refine ⟨?_, by simp, ?_, ?_, ?_, ?_⟩
      · rw [hH tag, if_pos rfl]
        rfl
      · intro e he
        simp at he
        subst he
        unfold tagOf
        rw [hB]
        rfl
      · intro p hp hpt
        have hlk : lookupA (allocCore s1 s.fresh size tag).arena p.1 = some p.2 := by
          obtain ⟨p1, p2⟩ := p
          exact lookupA_of_mem hnd5 hp
        by_cases hpf : p.1 = s.fresh
        · simp [hpf]
        · rw [hA p.1 hpf] at hlk
          have := hrep.2.2.2.1 (p.1, p.2) (mem_of_lookupA hlk) hpt
          simp at this
      · show blkNext (allocCore s1 s.fresh size tag) s.fresh = s.fresh
        unfold blkNext
        rw [hB]
      · intro e he
        simp at he
        subst he
        have h1 : blkNext (allocCore s1 s.fresh size tag) s.fresh = s.fresh := by
          unfold blkNext
          rw [hB]
        rw [h1]
        unfold blkPrev
        rw [hB]
    have hoth : ∀ t', t' ≠ tag → ∀ l'', bucketRep s t' l'' →
        bucketRep (allocCore s1 s.fresh size tag) t' l'' := by
      intro t' ht' l'' hrep''
      have hmem_ne'' : ∀ e ∈ l'', e ≠ s.fresh := by
        intro e he hE
        obtain ⟨c, hc, _⟩ := bucketRep_live hrep'' he
        rw [hE, hiK] at hc
        exact Option.noConfusion hc
      refine bucketRep_transfer hrep'' ?_ ?_ ?_
      · rw [hH t', if_neg ht']
      · intro e he
        exact hA e (hmem_ne'' e he)
      · refine amem_transfer hnd5 ?_ hrep''.2.2.2.1
        intro j c hc hct
        by_cases hjf : j = s.fresh
        · rw [hjf, hB] at hc
          injection hc with hc'
          rw [← hc'] at hct
          exact absurd hct.symm ht'
        · rw [hA j hjf] at hc
          exact ⟨c, hc, hct⟩
    have hwf5 : ZWF (allocCore s1 s.fresh size tag) := by
      refine ⟨hnd5, hfresh5, ?_⟩
      intro t
      by_cases ht : t = tag
      · subst ht
        exact ⟨_, hrepNew⟩
      · obtain ⟨l'', hl''⟩ := hWF.2.2 t
        exact ⟨l'', hoth t ht l'' hl''⟩
    have hframe : ∀ j, j ≠ s.fresh → tagOf (allocCore s1 s.fresh size tag) j = tagOf s j
        ∧ sizeOfB (allocCore s1 s.fresh size tag) j = sizeOfB s j
        ∧ dataOf (allocCore s1 s.fresh size tag) j = dataOf s j
        ∧ ((lookupA (allocCore s1 s.fresh size tag).arena j).isSome
            ↔ (lookupA s.arena j).isSome) := by
      intro j hj
      unfold tagOf sizeOfB dataOf
      rw [hA j hj]
      exact ⟨rfl, rfl, rfl, Iff.rfl⟩
    exact ⟨allocCore s1 s.fresh size tag, heq, hwf5, hrepNew, hoth,
      ⟨_, hB, rfl, rfl, rfl⟩, hframe, hfm, hms, hfr⟩
  | some a =>
    obtain ⟨rest, hL⟩ : ∃ rest, l = a :: rest := by
      cases hl0 : l with
      | nil =>
        have h := hrep.1
        rw [hh, hl0] at h
        exact Option.noConfusion h
      | cons a' rest =>
        have h := hrep.1
        rw [hh, hl0] at h
        injection h with h
        exact ⟨rest, by rw [h]⟩
    subst hL
    have ha_mem : a ∈ a :: rest := List.mem_cons_self a rest
    obtain ⟨ab, hab, habt⟩ := bucketRep_live hrep ha_mem
    have hane : a ≠ s.fresh := hmem_ne a ha_mem
    have habp : ab.prev = blkPrev s a := by simp [blkPrev, hab]
    have hT_mem : ab.prev ∈ a :: rest := by
      rw [habp]
      exact (bucketRep_prev_mem hrep ha_mem).1
    have hTne : ab.prev ≠ s.fresh := hmem_ne _ hT_mem
    obtain ⟨tb, htb, htbt⟩ := bucketRep_live hrep hT_mem
    have hT_last : ab.prev = rest.getLastD a := by
      have hc : chainF (blkNext s) a rest a := hrep.2.2.2.2.1
      have h1 : blkNext s (rest.getLastD a) = a := chainF_last hc
      have h2 := hrep.2.2.2.2.2 (rest.getLastD a) (getLastD_mem rest a)
      rw [h1] at h2
      rw [habp, ← h2]
    have hh1tag : lookupH s1.heads tag = some a := by rw [hh1, hh]
    have hab1 : lookupA s1.arena a = some ab := by rw [hl1ne a hane]; exact hab
    have hA : ∀ j, j ≠ s.fresh →
        lookupA (allocCore s1 s.fresh size tag).arena j =
          (lookupA s.arena j).map (fun c =>
            { c with next := if j = ab.prev then s.fresh else c.next,
                     prev := if j = a then s.fresh else c.prev }) := by
      intro j hj
      rw [allocCore_lookup_ne_nonempty size hh1tag hab1 hj, hl1ne j hj]
    have hB : lookupA (allocCore s1 s.fresh size tag).arena s.fresh
        = some { next := a, prev := ab.prev, size := size, tag := tag,
                 data := List.replicate size none } := by
      rw [allocCore_lookup_i_nonempty size hh1tag hab1 hane hTne, hl1i]
      rfl
    have hH : (allocCore s1 s.fresh size tag).heads = s.heads := by
      rw [allocCore_heads_nonempty size hh1tag, hh1]
    have hNxm : ∀ e, e ≠ s.fresh → lookupA s.arena e ≠ none →
        blkNext (allocCore s1 s.fresh size tag) e
          = if e = ab.prev then s.fresh else blkNext s e := by
      intro e he hlv
      unfold blkNext
      rw [hA e he]
      cases hc : lookupA s.arena e with
      | none => exact absurd hc hlv
      | some c => by_cases h : e = ab.prev <;> simp [h]
    have hPvm : ∀ e, e ≠ s.fresh → lookupA s.arena e ≠ none →
        blkPrev (allocCore s1 s.fresh size tag) e
          = if e = a then s.fresh else blkPrev s e := by
      intro e he hlv
      unfold blkPrev
      rw [hA e he]
      cases hc : lookupA s.arena e with
      | none => exact absurd hc hlv
      | some c => by_cases h : e = a <;> simp [h]
    have hfresh_not : s.fresh ∉ a :: rest := fun hmem => hmem_ne _ hmem rfl
    have hrepNew : bucketRep (allocCore s1 s.fresh size tag) tag
        ((a :: rest) ++ [s.fresh]) := by
      refine ⟨?_, ?_, ?_, ?_, ?_, ?_⟩
      · rw [hH, hh]
        rfl
      · rw [List.nodup_append]
        refine ⟨hrep.2.1, by simp, ?_⟩
        intro e he hm
        simp at hm
        exact hmem_ne e he hm
      · intro e he
        rcases List.mem_append.mp he with h | h
        · have hlve := bucketRep_live hrep h
          obtain ⟨c, hc, hct⟩ := hlve
          unfold tagOf
          rw [hA e (hmem_ne e h), hc]
          simp [hct]
        · simp at h
          subst h
          unfold tagOf
          rw [hB]
          rfl
      · intro p hp hpt
        have hlk : lookupA (allocCore s1 s.fresh size tag).arena p.1 = some p.2 := by
          obtain ⟨p1, p2⟩ := p
          exact lookupA_of_mem hnd5 hp
        by_cases hpf : p.1 = s.fresh
        · rw [hpf]
          exact List.mem_append_right _ (by simp)
        · rw [hA p.1 hpf] at hlk
          rcases Option.map_eq_some'.mp hlk with ⟨c, hc, hcp⟩
          have hct : c.tag = tag := by
            have h : p.2.tag = c.tag := by rw [← hcp]
            rw [← h, hpt]
          exact List.mem_append_left _ (hrep.2.2.2.1 (p.1, c) (mem_of_lookupA hc) hct)
      · refine cyc_snoc (a :: rest) s.fresh hrep.2.1 hfresh_not hrep.2.2.2.2.1 ?_ ?_
        · unfold blkNext
          rw [hB]
          rfl
        · intro e he
          rw [List.getLastD_cons, ← hT_last]
          obtain ⟨c, hc, _⟩ := bucketRep_live hrep he
          exact hNxm e (hmem_ne e he) (by rw [hc]; exact fun h => Option.noConfusion h)
      · intro e he
        rcases List.mem_append.mp he with h | h
        · by_cases heT : e = ab.prev
          · obtain ⟨c, hc, _⟩ := bucketRep_live hrep h
            have h1 : blkNext (allocCore s1 s.fresh size tag) e = s.fresh := by
              rw [hNxm e (hmem_ne e h) (by rw [hc]; exact fun hx => Option.noConfusion hx),
                if_pos heT]
            rw [h1]
            unfold blkPrev
            rw [hB]
            rw [heT]
          · obtain ⟨c, hc, _⟩ := bucketRep_live hrep h
            have h1 : blkNext (allocCore s1 s.fresh size tag) e = blkNext s e := by
              rw [hNxm e (hmem_ne e h) (by rw [hc]; exact fun hx => Option.noConfusion hx),
                if_neg heT]
            rw [h1]
            have hm : blkNext s e ∈ a :: rest := bucketRep_next_mem hrep h
            have hmna : blkNext s e ≠ a := by
              intro hx
              have h2 := hrep.2.2.2.2.2 e h
              rw [hx] at h2
              rw [← habp] at h2
              exact heT h2.symm
            obtain ⟨c2, hc2, _⟩ := bucketRep_live hrep hm
            rw [hPvm _ (hmem_ne _ hm) (by rw [hc2]; exact fun hx => Option.noConfusion hx),
              if_neg hmna]
            exact hrep.2.2.2.2.2 e h
        · simp at h
          subst h
          have h1 : blkNext (allocCore s1 s.fresh size tag) s.fresh = a := by
            unfold blkNext
            rw [hB]
          rw [h1]
          rw [hPvm a hane (by rw [hab]; exact fun hx => Option.noConfusion hx), if_pos rfl]
    have hoth : ∀ t', t' ≠ tag → ∀ l'', bucketRep s t' l'' →
        bucketRep (allocCore s1 s.fresh size tag) t' l'' := by
      intro t' ht' l'' hrep''
      have hmem_ne'' : ∀ e ∈ l'', e ≠ s.fresh := by
        intro e he hE
        obtain ⟨c, hc, _⟩ := bucketRep_live hrep'' he
        rw [hE, hiK] at hc
        exact Option.noConfusion hc
      have hdiff : ∀ e ∈ l'', e ≠ a ∧ e ≠ ab.prev := by
        intro e he
        have ht1 := hrep''.2.2.1 e he
        constructor
        · intro hx
          rw [hx] at ht1
          have : tagOf s a = some tag := by unfold tagOf; rw [hab]; simp [habt]
          rw [this] at ht1
          exact ht' (by injection ht1 with h2; exact h2.symm)
        · intro hx
          rw [hx] at ht1
          have : tagOf s ab.prev = some tag := by unfold tagOf; rw [htb]; simp [htbt]
          rw [this] at ht1
          exact ht' (by injection ht1 with h2; exact h2.symm)
      refine bucketRep_transfer hrep'' ?_ ?_ ?_
      · rw [hH]
      · intro e he
        rw [hA e (hmem_ne'' e he)]
        cases hc : lookupA s.arena e with
        | none => rfl
        | some c =>
          simp [(hdiff e he).1, (hdiff e he).2]
      · refine amem_transfer hnd5 ?_ hrep''.2.2.2.1
        intro j c hc hct
        by_cases hjf : j = s.fresh
        · rw [hjf, hB] at hc
          injection hc with hc'
          rw [← hc'] at hct
          exact absurd hct.symm ht'
        · rw [hA j hjf] at hc
          rcases Option.map_eq_some'.mp hc with ⟨c2, hc2, hcc⟩
          refine ⟨c2, hc2, ?_⟩
          have h : c.tag = c2.tag := by rw [← hcc]
          rw [← h, hct]
    have hwf5 : ZWF (allocCore s1 s.fresh size tag) := by
      refine ⟨hnd5, hfresh5, ?_⟩
      intro t
      by_cases ht : t = tag
      · subst ht
        exact ⟨_, hrepNew⟩
      · obtain ⟨l'', hl''⟩ := hWF.2.2 t
        exact ⟨l'', hoth t ht l'' hl''⟩
    have hframe : ∀ j, j ≠ s.fresh → tagOf (allocCore s1 s.fresh size tag) j = tagOf s j
        ∧ sizeOfB (allocCore s1 s.fresh size tag) j = sizeOfB s j
        ∧ dataOf (allocCore s1 s.fresh size tag) j = dataOf s j
        ∧ ((lookupA (allocCore s1 s.fresh size tag).arena j).isSome
            ↔ (lookupA s.arena j).isSome) := by
      intro j hj
      unfold tagOf sizeOfB dataOf
      rw [hA j hj]
      cases lookupA s.arena j <;> simp
    exact ⟨allocCore s1 s.fresh size tag, heq, hwf5, hrepNew, hoth,
      ⟨_, hB, rfl, rfl, rfl⟩, hframe, hfm, hms, hfr⟩

theorem bucketRep_length_le {s : ZState} {t : Nat} {l : List Nat}
    (hrep : bucketRep s t l) : l.length ≤ s.arena.length := by
  have hsub : l.toFinset ⊆ (s.arena.map Prod.fst).toFinset := by
    intro x hx
    rw [List.mem_toFinset] at hx ⊢
    obtain ⟨c, hc, _⟩ := bucketRep_live hrep hx
    exact List.mem_map.mpr ⟨(x, c), mem_of_lookupA hc, rfl⟩
  calc l.length = l.toFinset.card := (List.toFinset_card_of_nodup hrep.2.1).symm
    _ ≤ (s.arena.map Prod.fst).toFinset.card := Finset.card_le_card hsub
    _ ≤ (s.arena.map Prod.fst).length := (s.arena.map Prod.fst).toFinset_card_le
    _ = s.arena.length := by rw [List.length_map]

theorem freeSeq_cons (s : ZState) (i : Nat) (ids : List Nat) :
    freeSeq s (i :: ids) = freeSeq (Z_Free s (some i)) ids := rfl

/-- The inner `Z_FreeTags` loop frees exactly the bucket, head to tail. -/
theorem freeTagLoop_spec {t : Nat} : ∀ (rest : List Nat) (h0 : Nat) (s : ZState) (fuel : Nat),
    ZWF s → bucketRep s t (h0 :: rest) → rest.length + 1 ≤ fuel →
    freeTagLoop fuel s h0 (rest.getLastD h0) = freeSeq s (h0 :: rest)
    ∧ ZWF (freeSeq s (h0 :: rest))
    ∧ bucketRep (freeSeq s (h0 :: rest)) t []
    ∧ (∀ e ∈ h0 :: rest, lookupA (freeSeq s (h0 :: rest)).arena e = none)
    ∧ (∀ t', t' ≠ t → ∀ l', bucketRep s t' l' → bucketRep (freeSeq s (h0 :: rest)) t' l')
    ∧ (∀ j c, lookupA s.arena j = some c → c.tag ≠ t →
        ∃ c', lookupA (freeSeq s (h0 :: rest)).arena j = some c'
          ∧ c'.tag = c.tag ∧ c'.size = c.size ∧ c'.data = c.data)
    ∧ (∀ j, lookupA s.arena j = none → lookupA (freeSeq s (h0 :: rest)).arena j = none)
    ∧ (freeSeq s (h0 :: rest)).memory_size = s.memory_size
    ∧ (freeSeq s (h0 :: rest)).fresh = s.fresh := by
  intro rest
  induction rest with
  | nil =>
    intro h0 s fuel hWF hrep hfuel
    obtain ⟨b, hb, hbt⟩ := bucketRep_live hrep (List.mem_cons_self h0 [])
    cases fuel with
    | zero => omega
    | succ f =>
      have hstep : freeTagLoop (f + 1) s h0 (List.getLastD [] h0) = Z_Free s (some h0) := by
        simp [freeTagLoop]
      have hfree : freeSeq s [h0] = Z_Free s (some h0) := rfl
      have hrep0 : bucketRep (Z_Free s (some h0)) t ([] ++ ([] : List Nat)) :=
        Z_Free_bucket hWF.1 (by simpa using hrep) hb
      refine ⟨by rw [hstep, hfree], ?_, by simpa using hrep0, ?_, ?_, ?_, ?_, ?_, ?_⟩
      · rw [hfree]; exact Z_Free_ZWF hWF _
      · intro e he
        simp at he
        subst he
        rw [hfree]
        exact Z_Free_lookup_self hb hWF.1
      · intro t' ht' l' hl'
        rw [hfree]
        exact Z_Free_other hWF hb (by rw [hbt]; exact Ne.symm ht') hl'
      · intro j c hc hct
        have hj : j ≠ h0 := by
          intro hx
          rw [hx, hb] at hc
          injection hc with hc
          rw [← hc] at hct
          exact hct hbt
        rw [hfree, Z_Free_lookup_ne hb hj, hc]
        exact ⟨_, rfl, rfl, rfl, rfl⟩
      · intro j hj
        rw [hfree]
        exact Z_Free_dead hj
      · rw [hfree]
        exact Z_Free_memory_size s _
      · rw [hfree]
        exact Z_Free_fresh s _
  | cons w rest' ih =>
    intro h0 s fuel hWF hrep hfuel
    obtain ⟨b, hb, hbt⟩ := bucketRep_live hrep (List.mem_cons_self h0 _)
    cases fuel with
    | zero => omega
    | succ f =>
      have hc : chainF (blkNext s) h0 (w :: rest') h0 := hrep.2.2.2.2.1
      have hnx : blkNext s h0 = w := hc.1
      have hend_mem : (w :: rest').getLastD h0 ∈ w :: rest' := by
        rw [List.getLastD_cons]
        exact getLastD_mem rest' w
      have hne_end : h0 ≠ (w :: rest').getLastD h0 := by
        intro hx
        have hnd := hrep.2.1
        exact (List.nodup_cons.mp hnd).1 (hx ▸ hend_mem)
      have hrep' : bucketRep (Z_Free s (some h0)) t ([] ++ w :: rest') :=
        Z_Free_bucket hWF.1 (by simpa using hrep) hb
      have hWF' : ZWF (Z_Free s (some h0)) := Z_Free_ZWF hWF _
      have hstep : freeTagLoop (f + 1) s h0 ((w :: rest').getLastD h0)
          = freeTagLoop f (Z_Free s (some h0)) w ((w :: rest').getLastD h0) := by
        simp only [freeTagLoop]
        rw [if_neg hne_end, hnx]
      rw [List.getLastD_cons] at hstep
      have hih := ih w (Z_Free s (some h0)) f hWF' (by simpa using hrep')
        (by simp at hfuel ⊢; omega)
      obtain ⟨ih1, ih2, ih3, ih4, ih5, ih6, ih7, ih8, ih9⟩ := hih
      have hfree : freeSeq s (h0 :: w :: rest') = freeSeq (Z_Free s (some h0)) (w :: rest') := rfl
      constructor
      · rw [List.getLastD_cons, hstep, ih1, hfree]
      refine ⟨by rw [hfree]; exact ih2, by rw [hfree]; exact ih3, ?_, ?_, ?_, ?_, ?_, ?_⟩
      · intro e he
        rw [hfree]
        rcases List.mem_cons.mp he with he1 | he1
        · subst he1
          exact ih7 _ (Z_Free_lookup_self hb hWF.1)
        · exact ih4 e he1
      · intro t' ht' l' hl'
        rw [hfree]
        exact ih5 t' ht' l' (Z_Free_other hWF hb (by rw [hbt]; exact Ne.symm ht') hl')
      · intro j c hc hct
        have hj : j ≠ h0 := by
          intro hx
          rw [hx, hb] at hc
          injection hc with hc
          rw [← hc] at hct
          exact hct hbt
        have hc1 : lookupA (Z_Free s (some h0)).arena j
            = some { c with next := if j = b.prev then b.next else c.next,
                            prev := if j = b.next then b.prev else c.prev } := by
          rw [Z_Free_lookup_ne hb hj, hc]
          rfl
        obtain ⟨c', hc', h1, h2, h3⟩ := ih6 j _ hc1 hct
        rw [hfree]
        exact ⟨c', hc', h1, h2, h3⟩
      · intro j hj
        rw [hfree]
        exact ih7 j (Z_Free_dead hj)
      · rw [hfree, ih8, Z_Free_memory_size]
      · rw [hfree, ih9, Z_Free_fresh]

theorem bucketRep_head_prev {s : ZState} {t h0 : Nat} {rest : List Nat}
    (hrep : bucketRep s t (h0 :: rest)) : blkPrev s h0 = rest.getLastD h0 := by
  have hc : chainF (blkNext s) h0 rest h0 := hrep.2.2.2.2.1
  have h1 : blkNext s (rest.getLastD h0) = h0 := chainF_last hc
  have h2 := hrep.2.2.2.2.2 (rest.getLastD h0) (getLastD_mem rest h0)
  rw [h1] at h2
  exact h2

/-- One tag iteration of `Z_FreeTags`: the bucket given by its representation
is freed entirely (in bucket order), everything else is untouched. -/
theorem freeOneTag_spec {s : ZState} {t : Nat} {l : List Nat}
    (hWF : ZWF s) (hl : bucketRep s t l) :
    freeOneTag s t = freeSeq s l
    ∧ ZWF (freeOneTag s t)
    ∧ bucketRep (freeOneTag s t) t []
    ∧ (∀ e ∈ l, lookupA (freeOneTag s t).arena e = none)
    ∧ (∀ t', t' ≠ t → ∀ l', bucketRep s t' l' → bucketRep (freeOneTag s t) t' l')
    ∧ (∀ j c, lookupA s.arena j = some c → c.tag ≠ t →
        ∃ c', lookupA (freeOneTag s t).arena j = some c'
          ∧ c'.tag = c.tag ∧ c'.size = c.size ∧ c'.data = c.data)
    ∧ (∀ j, lookupA s.arena j = none → lookupA (freeOneTag s t).arena j = none)
    ∧ (freeOneTag s t).memory_size = s.memory_size
    ∧ (freeOneTag s t).fresh = s.fresh := by
  cases hh : lookupH s.heads t with
  | none =>
    have hL : l = [] := by
      have h := hl.1
      rw [hh] at h
      exact List.head?_eq_none_iff.mp h.symm
    subst hL
    have hid : freeOneTag s t = s := by
      unfold freeOneTag
      rw [hh]
    rw [hid]
    exact ⟨rfl, hWF, hl, by simp, fun _ _ _ h => h, fun j c hc _ => ⟨c, hc, rfl, rfl, rfl⟩,
      fun _ h => h, rfl, rfl⟩
  | some h0 =>
    obtain ⟨rest, hL⟩ : ∃ rest, l = h0 :: rest := by
      cases hl0 : l with
      | nil =>
        have h := hl.1
        rw [hh, hl0] at h
        exact Option.noConfusion h
      | cons a' rest =>
        have h := hl.1
        rw [hh, hl0] at h
        injection h with h
        exact ⟨rest, by rw [h]⟩
    subst hL
    obtain ⟨b, hb, hbt⟩ := bucketRep_live hl (List.mem_cons_self h0 rest)
    have hprev : b.prev = rest.getLastD h0 := by
      have h := bucketRep_head_prev hl
      rw [← h]
      simp [blkPrev, hb]
    have hid : freeOneTag s t = freeTagLoop (s.arena.length + 1) s h0 (rest.getLastD h0) := by
      unfold freeOneTag
      rw [hh]
      simp only [hb, hprev]
    have hfuel : rest.length + 1 ≤ s.arena.length + 1 := by
      have := bucketRep_length_le hl
      simp at this
      omega
    obtain ⟨h1, h2, h3, h4, h5, h6, h7, h8, h9⟩ :=
      freeTagLoop_spec rest h0 s (s.arena.length + 1) hWF hl hfuel
    rw [hid, h1]
    exact ⟨rfl, h2, h3, h4, h5, h6, h7, h8, h9⟩

/-- Folding `freeOneTag` over a list of tags empties exactly those buckets. -/
theorem foldFree_spec : ∀ (ts : List Nat) (s : ZState), ZWF s →
    ZWF (ts.foldl freeOneTag s)
    ∧ (∀ t ∈ ts, lookupH (ts.foldl freeOneTag s).heads t = none
        ∧ ∀ j c, lookupA s.arena j = some c → c.tag = t →
            lookupA (ts.foldl freeOneTag s).arena j = none)
    ∧ (∀ t', t' ∉ ts → ∀ l', bucketRep s t' l' → bucketRep (ts.foldl freeOneTag s) t' l')
    ∧ (∀ j c, lookupA s.arena j = some c → c.tag ∉ ts →
        ∃ c', lookupA (ts.foldl freeOneTag s).arena j = some c'
          ∧ c'.tag = c.tag ∧ c'.size = c.size ∧ c'.data = c.data)
    ∧ (∀ j, lookupA s.arena j = none → lookupA (ts.foldl freeOneTag s).arena j = none)
    ∧ (ts.foldl freeOneTag s).memory_size = s.memory_size
    ∧ (ts.foldl freeOneTag s).fresh = s.fresh := by
  intro ts
  induction ts with
  | nil =>
    intro s hWF
    exact ⟨hWF, by simp, fun _ _ _ h => h, fun j c hc _ => ⟨c, hc, rfl, rfl, rfl⟩,
      fun _ h => h, rfl, rfl⟩
  | cons t0 ts' ih =>
    intro s hWF
    obtain ⟨l0, hl0⟩ := hWF.2.2 t0
    obtain ⟨f1, f2, f3, f4, f5, f6, f7, f8, f9⟩ := freeOneTag_spec hWF hl0
    obtain ⟨g1, g2, g3, g4, g5, g6, g7⟩ := ih (freeOneTag s t0) f2
    have hfold : (t0 :: ts').foldl freeOneTag s = ts'.foldl freeOneTag (freeOneTag s t0) := rfl
    rw [hfold]
    refine ⟨g1, ?_, ?_, ?_, ?_, ?_, ?_⟩
    · intro t ht
      rcases List.mem_cons.mp ht with ht1 | ht1
      · subst ht1
        constructor
        · by_cases hmem : t ∈ ts'
          · exact (g2 t hmem).1
          · have := g3 t hmem [] f3
            have hhead := this.1
            simpa using hhead
        · intro j c hc hct
          have hjl : j ∈ l0 := hl0.2.2.2.1 (j, c) (mem_of_lookupA hc) hct
          exact g5 j (f4 j hjl)
      · constructor
        · exact (g2 t ht1).1
        · intro j c hc hct
          by_cases hct0 : c.tag = t0
          · have hjl : j ∈ l0 := hl0.2.2.2.1 (j, c) (mem_of_lookupA hc) hct0
            exact g5 j (f4 j hjl)
          · obtain ⟨c', hc', hc't, _, _⟩ := f6 j c hc hct0
            exact (g2 t ht1).2 j c' hc' (by rw [hc't, hct])
    · intro t' ht' l' hl'
      have hne0 : t' ≠ t0 := fun h => ht' (h ▸ List.mem_cons_self t0 ts')
      have hnotin : t' ∉ ts' := fun h => ht' (List.mem_cons_of_mem t0 h)
      exact g3 t' hnotin l' (f5 t' hne0 l' hl')
    · intro j c hc hct
      have hne0 : c.tag ≠ t0 := fun h => hct (h ▸ List.mem_cons_self t0 ts')
      obtain ⟨c', hc', h1, h2, h3⟩ := f6 j c hc hne0
      have hnotin : c'.tag ∉ ts' := by
        rw [h1]
        exact fun h => hct (List.mem_cons_of_mem t0 h)
      obtain ⟨c'', hc'', k1, k2, k3⟩ := g4 j c' hc' hnotin
      exact ⟨c'', hc'', by rw [k1, h1], by rw [k2, h2], by rw [k3, h3]⟩
    · intro j hj
      exact g5 j (f7 j hj)
    · rw [g6, f8]
    · rw [g7, f9]

theorem Z_FreeTags_eq_fold (s : ZState) (lowtag hightag : Int) :
    Z_FreeTags s lowtag hightag =
      ((List.range (((if (PU_CACHE : Int) < hightag then (PU_CACHE : Int) else hightag) + 1
          - (if lowtag ≤ (PU_FREE : Int) then (PU_FREE : Int) + 1 else lowtag)).toNat)).map
        (fun k => (if lowtag ≤ (PU_FREE : Int) then (PU_FREE : Int) + 1 else lowtag).toNat + k)).foldl
        freeOneTag s := by
  unfold Z_FreeTags
  rw [List.foldl_map]

theorem clamp_low_eq (lowtag : Int) :
    (if lowtag ≤ (PU_FREE : Int) then (PU_FREE : Int) + 1 else lowtag)
      = max lowtag ((PU_FREE : Int) + 1) := by
  have h0 : (PU_FREE : Int) = 0 := rfl
  split_ifs with h <;> omega

theorem clamp_high_eq (hightag : Int) :
    (if (PU_CACHE : Int) < hightag then (PU_CACHE : Int) else hightag)
      = min hightag (PU_CACHE : Int) := by
  have h0 : (PU_CACHE : Int) = 6 := rfl
  split_ifs with h <;> omega

theorem mem_clampRange (lowtag hightag : Int) (t : Nat) :
    t ∈ ((List.range (((if (PU_CACHE : Int) < hightag then (PU_CACHE : Int) else hightag) + 1
          - (if lowtag ≤ (PU_FREE : Int) then (PU_FREE : Int) + 1 else lowtag)).toNat)).map
        (fun k => (if lowtag ≤ (PU_FREE : Int) then (PU_FREE : Int) + 1 else lowtag).toNat + k))
    ↔ (max lowtag ((PU_FREE : Int) + 1) ≤ (t : Int)
        ∧ (t : Int) ≤ min hightag (PU_CACHE : Int)) := by
  rw [clamp_low_eq, clamp_high_eq]
  have h0 : (PU_FREE : Int) = 0 := rfl
  have h6 : (PU_CACHE : Int) = 6 := rfl
  have hlowpos : 0 < max lowtag ((PU_FREE : Int) + 1) := by omega
  constructor
  · intro hmem
    rcases List.mem_map.mp hmem with ⟨k, hk, hkt⟩
    rw [List.mem_range] at hk
    subst hkt
    push_cast
    omega
  · intro hle
    refine List.mem_map.mpr ⟨t - (max lowtag ((PU_FREE : Int) + 1)).toNat,
      List.mem_range.mpr ?_, ?_⟩ <;> omega

/-- Top-level specification of `Z_FreeTags`: tags inside the clamped range are
emptied; tags outside it (in particular `PU_FREE` and everything above
`PU_CACHE`) are untouched, and so are all blocks tagged outside the range. -/
theorem Z_FreeTags_spec {s : ZState} (hWF : ZWF s) (lowtag hightag : Int) :
    ZWF (Z_FreeTags s lowtag hightag)
    ∧ (∀ t : Nat, max lowtag ((PU_FREE : Int) + 1) ≤ (t : Int)
        → (t : Int) ≤ min hightag (PU_CACHE : Int)
        → lookupH (Z_FreeTags s lowtag hightag).heads t = none
          ∧ ∀ j c, lookupA s.arena j = some c → c.tag = t →
              lookupA (Z_FreeTags s lowtag hightag).arena j = none)
    ∧ (∀ t' : Nat, ((t' : Int) < max lowtag ((PU_FREE : Int) + 1)
          ∨ min hightag (PU_CACHE : Int) < (t' : Int))
        → ∀ l', bucketRep s t' l' → bucketRep (Z_FreeTags s lowtag hightag) t' l')
    ∧ (∀ j c, lookupA s.arena j = some c
        → ((c.tag : Int) < max lowtag ((PU_FREE : Int) + 1)
            ∨ min hightag (PU_CACHE : Int) < (c.tag : Int))
        → ∃ c', lookupA (Z_FreeTags s lowtag hightag).arena j = some c'
            ∧ c'.tag = c.tag ∧ c'.size = c.size ∧ c'.data = c.data)
    ∧ (∀ j, lookupA s.arena j = none → lookupA (Z_FreeTags s lowtag hightag).arena j = none)
    ∧ (Z_FreeTags s lowtag hightag).memory_size = s.memory_size
    ∧ (Z_FreeTags s lowtag hightag).fresh = s.fresh := by
  rw [Z_FreeTags_eq_fold]
  obtain ⟨g1, g2, g3, g4, g5, g6, g7⟩ := foldFree_spec _ s hWF
  refine ⟨g1, ?_, ?_, ?_, g5, g6, g7⟩
  · intro t hlo hhi
    exact g2 t ((mem_clampRange lowtag hightag t).mpr ⟨hlo, hhi⟩)
  · intro t' hout l' hl'
    refine g3 t' ?_ l' hl'
    intro hmem
    have := (mem_clampRange lowtag hightag t').mp hmem
    omega
  · intro j c hc hout
    refine g4 j c hc ?_
    intro hmem
    have := (mem_clampRange lowtag hightag c.tag).mp hmem
    omega

/-- The proactive eviction loop of `Z_Malloc`: starting from the CACHE bucket
head it frees exactly some prefix of the bucket, stopping at the first point
where the headroom test passes, or after the snapshot tail if it never does. -/
theorem evictCacheLoop_spec : ∀ (rest : List Nat) (h0 : Nat) (s : ZState) (fuel : Nat)
    (target : Int), ZWF s → bucketRep s PU_CACHE (h0 :: rest) → rest.length + 1 ≤ fuel →
    ∃ k, 1 ≤ k ∧ k ≤ rest.length + 1
      ∧ evictCacheLoop fuel s target h0 (rest.getLastD h0) = freeSeq s ((h0 :: rest).take k)
      ∧ ZWF (freeSeq s ((h0 :: rest).take k))
      ∧ bucketRep (freeSeq s ((h0 :: rest).take k)) PU_CACHE ((h0 :: rest).drop k)
      ∧ (target ≤ (freeSeq s ((h0 :: rest).take k)).free_memory
            + (freeSeq s ((h0 :: rest).take k)).memory_size
          ∨ k = rest.length + 1)
      ∧ (∀ j, 1 ≤ j → j < k →
          ¬ target ≤ (freeSeq s ((h0 :: rest).take j)).free_memory
              + (freeSeq s ((h0 :: rest).take j)).memory_size) := by
  intro rest
  induction rest with
  | nil =>
    intro h0 s fuel target hWF hrep hfuel
    obtain ⟨b, hb, hbt⟩ := bucketRep_live hrep (List.mem_cons_self h0 [])
    cases fuel with
    | zero => omega
    | succ f =>
      refine ⟨1, le_refl 1, le_refl 1, ?_, ?_, ?_, Or.inr rfl, by omega⟩
      · show evictCacheLoop (f + 1) s target h0 (List.getLastD [] h0) = _
        simp [evictCacheLoop, freeSeq]
      · show ZWF (freeSeq s [h0])
        have hone : freeSeq s [h0] = Z_Free s (some h0) := rfl
        rw [hone]
        exact Z_Free_ZWF hWF _
      · show bucketRep (freeSeq s [h0]) PU_CACHE []
        have := Z_Free_bucket (u := []) (v := []) hWF.1 (by simpa using hrep) hb
        simpa using this
  | cons w rest' ih =>
    intro h0 s fuel target hWF hrep hfuel
    obtain ⟨b, hb, hbt⟩ := bucketRep_live hrep (List.mem_cons_self h0 _)
    cases fuel with
    | zero => omega
    | succ f =>
      have hc : chainF (blkNext s) h0 (w :: rest') h0 := hrep.2.2.2.2.1
      have hnx : blkNext s h0 = w := hc.1
      have hend_mem : (w :: rest').getLastD h0 ∈ w :: rest' := by
        rw [List.getLastD_cons]
        exact getLastD_mem rest' w
      have hne_end : h0 ≠ (w :: rest').getLastD h0 := by
        intro hx
        exact (List.nodup_cons.mp hrep.2.1).1 (hx ▸ hend_mem)
      have hrep' : bucketRep (Z_Free s (some h0)) PU_CACHE (w :: rest') := by
        have := Z_Free_bucket (u := []) (v := w :: rest') hWF.1 (by simpa using hrep) hb
        simpa using this
      have hWF' : ZWF (Z_Free s (some h0)) := Z_Free_ZWF hWF _
      by_cases hstop : target ≤ (Z_Free s (some h0)).free_memory
          + (Z_Free s (some h0)).memory_size
      · refine ⟨1, le_refl 1, by omega, ?_, ?_, ?_, ?_, by omega⟩
        · show evictCacheLoop (f + 1) s target h0 ((w :: rest').getLastD h0) = _
          simp only [evictCacheLoop]
          rw [if_pos (Or.inl hstop)]
          simp [freeSeq]
        · show ZWF (freeSeq s [h0])
          have hone : freeSeq s [h0] = Z_Free s (some h0) := rfl
          rw [hone]
          exact Z_Free_ZWF hWF _
        · show bucketRep (freeSeq s [h0]) PU_CACHE (w :: rest')
          exact hrep'
        · exact Or.inl hstop
      · obtain ⟨k', hk1, hk2, hk3, hk4, hk5, hk6, hk7⟩ :=
          ih w (Z_Free s (some h0)) f target hWF' hrep' (by simp at hfuel ⊢; omega)
        refine ⟨k' + 1, by omega, by simp; omega, ?_, ?_, ?_, ?_, ?_⟩
        · show evictCacheLoop (f + 1) s target h0 ((w :: rest').getLastD h0) = _
          simp only [evictCacheLoop]
          rw [if_neg (not_or.mpr ⟨hstop, hne_end⟩), hnx, List.getLastD_cons]
          rw [hk3]
          rfl
        · exact hk4
        · exact hk5
        · rcases hk6 with h | h
          · exact Or.inl h
          · exact Or.inr (by simp; omega)
        · intro j hj1 hj2
          cases j with
          | zero => omega
          | succ j' =>
            cases j' with
            | zero =>
              show ¬ target ≤ (freeSeq s [h0]).free_memory + (freeSeq s [h0]).memory_size
              exact hstop
            | succ j'' =>
              have := hk7 (j'' + 1) (by omega) (by omega)
              exact this

theorem Z_ChangeTag_eq {s : ZState} {i : Nat} {b : memblock} {t2 : Nat}
    (hb : lookupA s.arena i = some b) (hne : ¬ t2 = b.tag) :
    Z_ChangeTag s (some i) t2 = changeCore
      { s with
        heads := (if b.next = i then setH s.heads b.tag none else if lookupH s.heads b.tag = some i then setH s.heads b.tag (some b.next) else s.heads)
        arena := updateA (fun nb => { nb with prev := b.prev }) (updateA (fun pb => { pb with next := b.next }) s.arena b.prev) b.next }
      i t2 := by
  simp only [Z_ChangeTag]
  rw [hb]
  simp only [if_neg hne]
  rfl

theorem changeCore_arena (s1 : ZState) (i tg : Nat) :
    (changeCore s1 i tg).arena =
      updateA (fun b => { b with tag := tg }) (linkAtTail s1 i tg).arena i := rfl

theorem changeCore_heads (s1 : ZState) (i tg : Nat) :
    (changeCore s1 i tg).heads = (linkAtTail s1 i tg).heads := rfl

theorem changeCore_fields (s1 : ZState) (i tg : Nat) :
    (changeCore s1 i tg).free_memory = s1.free_memory
      ∧ (changeCore s1 i tg).memory_size = s1.memory_size
      ∧ (changeCore s1 i tg).fresh = s1.fresh := by
  refine ⟨?_, ?_, ?_⟩
  · show (linkAtTail s1 i tg).free_memory = _
    rw [(link_fields i tg).2.1]
  · show (linkAtTail s1 i tg).memory_size = _
    rw [(link_fields i tg).1]
  · show (linkAtTail s1 i tg).fresh = _
    rw [(link_fields i tg).2.2]

theorem changeCore_keys (s1 : ZState) (i tg : Nat) :
    (changeCore s1 i tg).arena.map Prod.fst = s1.arena.map Prod.fst := by
  rw [changeCore_arena, keys_updateA, link_keys]

theorem changeCore_lookup_ne_empty {s1 : ZState} {i tg : Nat}
    (hh : lookupH s1.heads tg = none) {j : Nat} (hj : j ≠ i) :
    lookupA (changeCore s1 i tg).arena j = lookupA s1.arena j := by
  rw [changeCore_arena, lookupA_update_ite, if_neg hj, linkAtTail_empty hh]
  show lookupA (updateA _ s1.arena i) j = _
  rw [lookupA_update_ite, if_neg hj]

theorem changeCore_lookup_i_empty {s1 : ZState} {i tg : Nat}
    (hh : lookupH s1.heads tg = none) :
    lookupA (changeCore s1 i tg).arena i =
      (lookupA s1.arena i).map (fun c => { c with next := i, prev := i, tag := tg }) := by
  rw [changeCore_arena, lookupA_update_ite, if_pos rfl, linkAtTail_empty hh]
  show (lookupA (updateA _ s1.arena i) i).map _ = _
  rw [lookupA_update_ite, if_pos rfl]
  cases lookupA s1.arena i <;> rfl

theorem changeCore_heads_empty {s1 : ZState} {i tg : Nat}
    (hh : lookupH s1.heads tg = none) {t' : Nat} :
    lookupH (changeCore s1 i tg).heads t' =
      if t' = tg then some i else lookupH s1.heads t' := by
  rw [changeCore_heads, linkAtTail_empty hh]
  show lookupH (setH s1.heads tg (some i)) t' = _
  by_cases h : t' = tg
  · rw [if_pos h, h, lookupH_setH_self]
  · rw [if_neg h, lookupH_setH_ne _ _ h]

theorem changeCore_lookup_ne_nonempty {s1 : ZState} {i tg a : Nat} {ab : memblock}
    (hh : lookupH s1.heads tg = some a) (ha : lookupA s1.arena a = some ab)
    {j : Nat} (hj : j ≠ i) :
    lookupA (changeCore s1 i tg).arena j =
      (lookupA s1.arena j).map (fun c =>
        { c with next := if j = ab.prev then i else c.next,
                 prev := if j = a then i else c.prev }) := by
  rw [changeCore_arena, lookupA_update_ite, if_neg hj, link_ne_lookup hh ha hj]

theorem changeCore_lookup_i_nonempty {s1 : ZState} {i tg a : Nat} {ab : memblock}
    (hh : lookupH s1.heads tg = some a) (ha : lookupA s1.arena a = some ab)
    (hai : a ≠ i) (hTi : ab.prev ≠ i) :
    lookupA (changeCore s1 i tg).arena i =
      (lookupA s1.arena i).map (fun c =>
        { c with next := a, prev := ab.prev, tag := tg }) := by
  rw [changeCore_arena, lookupA_update_ite, if_pos rfl, link_i_lookup hh ha hai hTi]
  cases lookupA s1.arena i <;> rfl

theorem changeCore_heads_nonempty {s1 : ZState} {i tg a : Nat}
    (hh : lookupH s1.heads tg = some a) :
    (changeCore s1 i tg).heads = s1.heads := by
  rw [changeCore_heads, link_heads_nonempty hh]

/-- Generalized erase lemma: any state whose head table and member records
relate to `s` the way unlinking block `i` prescribes represents the bucket
with `i` deleted. -/
theorem bucketRep_erase_general {s S : ZState} {t : Nat} {u v : List Nat} {i : Nat}
    {b : memblock}
    (hb : lookupA s.arena i = some b)
    (hrep : bucketRep s t (u ++ i :: v))
    (hheads : lookupH S.heads t =
        (if b.next = i then none
         else if lookupH s.heads t = some i then some b.next else lookupH s.heads t))
    (hlook : ∀ e, e ≠ i → e ∈ u ++ i :: v →
        lookupA S.arena e = (lookupA s.arena e).map (fun c =>
          { c with next := if e = b.prev then b.next else c.next,
                   prev := if e = b.next then b.prev else c.prev }))
    (hback : ∀ p ∈ S.arena, p.2.tag = t → p.1 ∈ u ++ v) :
    bucketRep S t (u ++ v) := by
  obtain ⟨hhead, hnodup, htags, hamem, hcyc, hinv⟩ := hrep
  have hi_mem : i ∈ u ++ i :: v := List.mem_append_right u (List.mem_cons_self i v)
  have hbn : b.next = blkNext s i := by simp [blkNext, hb]
  have hbp : b.prev = blkPrev s i := by simp [blkPrev, hb]
  have hlive : ∀ e ∈ u ++ i :: v, ∃ c, lookupA s.arena e = some c ∧ c.tag = t := by
    intro e he
    have h := htags e he
    unfold tagOf at h
    rcases Option.map_eq_some'.mp h with ⟨c, hc, hct⟩
    exact ⟨c, hc, hct⟩
  have hnd_uv : (u ++ v).Nodup :=
    List.Nodup.sublist (List.Sublist.append_left (List.sublist_cons_self i v) u) hnodup
  have hi_not_uv : i ∉ u ++ v := by
    rcases List.nodup_append.mp hnodup with ⟨_, hndiv, hdisj⟩
    intro hmem
    rcases List.mem_append.mp hmem with h | h
    · exact hdisj h (List.mem_cons_self i v)
    · exact (List.nodup_cons.mp hndiv).1 h
  have hsub : ∀ e ∈ u ++ v, e ∈ u ++ i :: v := by
    intro e he
    rcases List.mem_append.mp he with h | h
    · exact List.mem_append_left _ h
    · exact List.mem_append_right _ (List.mem_cons_of_mem i h)
  have hne_i : ∀ e ∈ u ++ v, e ≠ i := fun e he hei => hi_not_uv (hei ▸ he)
  have hSnext : ∀ e ∈ u ++ v, blkNext S e = if e = b.prev then b.next else blkNext s e := by
    intro e he
    obtain ⟨c, hc, _⟩ := hlive e (hsub e he)
    unfold blkNext
    rw [hlook e (hne_i e he) (hsub e he), hc]
    by_cases h : e = b.prev <;> simp [h]
  have hSprev : ∀ e ∈ u ++ v, blkPrev S e = if e = b.next then b.prev else blkPrev s e := by
    intro e he
    obtain ⟨c, hc, _⟩ := hlive e (hsub e he)
    unfold blkPrev
    rw [hlook e (hne_i e he) (hsub e he), hc]
    by_cases h : e = b.next <;> simp [h]
  have hPfact : blkNext s (u.getLastD (v.getLastD i)) = i
      ∧ u.getLastD (v.getLastD i) ∈ u ++ i :: v := by
    cases u with
    | nil =>
      cases v with
      | nil => exact ⟨hcyc, by simp⟩
      | cons w v' =>
        have hc : chainF (blkNext s) i (w :: v') i := hcyc
        rw [List.getLastD_nil, List.getLastD_cons]
        refine ⟨chainF_last hc.2, ?_⟩
        exact List.mem_append_right [] (List.mem_cons_of_mem i (getLastD_mem v' w))
    | cons u0 u' =>
      have hc : chainF (blkNext s) u0 (u' ++ i :: v) u0 := hcyc
      obtain ⟨h1, _⟩ := (chainF_append _ u' v u0 i u0).mp hc
      rw [List.getLastD_cons]
      refine ⟨chainF_last h1, ?_⟩
      rcases List.mem_cons.mp (getLastD_mem u' u0) with h | h
      · rw [h]; exact List.mem_append_left _ (List.mem_cons_self u0 u')
      · exact List.mem_append_left _ (List.mem_cons_of_mem u0 h)
  have hbpP : b.prev = u.getLastD (v.getLastD i) := by
    have h := hinv _ hPfact.2
    rw [hPfact.1] at h
    rw [hbp, ← h]
  have hfi_ne : u ++ v ≠ [] → b.next ≠ i := by
    intro hne
    cases u with
    | nil =>
      cases v with
      | nil => exact absurd rfl hne
      | cons w v' =>
        have hc : chainF (blkNext s) i (w :: v') i := hcyc
        intro hcontra
        have hw : blkNext s i = w := hc.1
        have hwi : w ≠ i := by
          have hndr : (i :: w :: v').Nodup := hnodup
          intro h
          exact (List.nodup_cons.mp hndr).1 (by rw [h]; exact List.mem_cons_self i v')
        exact hwi (by rw [← hw, ← hbn]; exact hcontra)
    | cons u0 u' =>
      have hc : chainF (blkNext s) u0 (u' ++ i :: v) u0 := hcyc
      obtain ⟨_, h2⟩ := (chainF_append _ u' v u0 i u0).mp hc
      intro hcontra
      cases v with
      | nil =>
        have hu0 : blkNext s i = u0 := h2
        have hu0i : u0 ≠ i := by
          intro h
          have hnd2 : ((u0 :: u') ++ i :: ([] : List Nat)).Nodup := hnodup
          exact (List.disjoint_of_nodup_append hnd2)
            (List.mem_cons_self u0 u') (by rw [h]; simp)
        exact hu0i (by rw [← hu0, ← hbn]; exact hcontra)
      | cons w v' =>
        have hw : blkNext s i = w := h2.1
        have hwi : w ≠ i := by
          intro h
          have hnd2 : ((u0 :: u') ++ i :: w :: v').Nodup := hnodup
          have hndr : (i :: w :: v').Nodup := List.Nodup.of_append_right hnd2
          exact (List.nodup_cons.mp hndr).1 (by rw [h]; exact List.mem_cons_self i v')
        exact hwi (by rw [← hw, ← hbn]; exact hcontra)
  refine ⟨?_, hnd_uv, ?_, hback, ?_, ?_⟩
  -- head
  · rw [hheads]
    cases u with
    | nil =>
      cases v with
      | nil =>
        have hsolo : b.next = i := by rw [hbn]; exact hcyc
        simp [hsolo]
      | cons w v' =>
        have hne : b.next ≠ i := hfi_ne (by simp)
        have hc : chainF (blkNext s) i (w :: v') i := hcyc
        have hw : b.next = w := by rw [hbn]; exact hc.1
        have hhd : lookupH s.heads t = some i := by simpa using hhead
        have hwi : w ≠ i := by
          have hndr : (i :: w :: v').Nodup := hnodup
          intro hq
          exact (List.nodup_cons.mp hndr).1 (by rw [hq]; exact List.mem_cons_self i v')
        simp [hne, hhd, hw, hwi]
    | cons u0 u' =>
      have hne : b.next ≠ i := hfi_ne (by simp)
      have hhd : lookupH s.heads t = some u0 := by simpa using hhead
      have hu0i : u0 ≠ i := by
        intro h
        have hnd2 : ((u0 :: u') ++ i :: v).Nodup := hnodup
        exact (List.disjoint_of_nodup_append hnd2)
          (List.mem_cons_self u0 u') (by rw [h]; simp)
      have hnoti : lookupH s.heads t ≠ some i := by rw [hhd]; simp [hu0i]
      simp [hne, hnoti, hhd, hu0i]
  -- tags
  · intro e he
    obtain ⟨c, hc, hct⟩ := hlive e (hsub e he)
    unfold tagOf
    rw [hlook e (hne_i e he) (hsub e he), hc]
    simp [hct]
  -- cycle
  · refine cyc_erase u v i hnodup hcyc ?_
    intro e he
    rw [hSnext e he, ← hbn, ← hbpP]
  -- inverse
  · intro e he
    have heI : e ≠ i := hne_i e he
    have huv_ne : u ++ v ≠ [] := fun h => by rw [h] at he; simp at he
    have hni : b.next ≠ i := hfi_ne huv_ne
    by_cases heP : e = b.prev
    · have hstep : blkNext S e = b.next := by rw [hSnext e he, if_pos heP]
      rw [hstep]
      have hnmem : b.next ∈ u ++ i :: v := by
        rw [hbn]
        cases u with
        | nil =>
          have hc : chainF (blkNext s) i v i := hcyc
          rcases chainF_target_mem hc i (Or.inl rfl) with h | h
          · exact List.mem_append_right [] (List.mem_cons_of_mem i h)
          · rw [h]; exact List.mem_append_right [] (List.mem_cons_self i v)
        | cons u0 u' =>
          have hc : chainF (blkNext s) u0 (u' ++ i :: v) u0 := hcyc
          have hi_mem2 : i ∈ u' ++ i :: v := List.mem_append_right u' (List.mem_cons_self i v)
          rcases chainF_target_mem hc i (Or.inr hi_mem2) with h | h
          · exact List.mem_cons_of_mem u0 h
          · rw [h]; exact List.mem_cons_self u0 _
      have hnmem_uv : b.next ∈ u ++ v := by
        rcases List.mem_append.mp hnmem with h | h
        · exact List.mem_append_left _ h
        · rcases List.mem_cons.mp h with h | h
          · exact absurd h hni
          · exact List.mem_append_right _ h
      rw [hSprev _ hnmem_uv, if_pos rfl, heP]
    · have hstep : blkNext S e = blkNext s e := by rw [hSnext e he, if_neg heP]
      rw [hstep]
      have hfei : blkNext s e ≠ i := by
        intro h
        have h2 := hinv e (hsub e he)
        rw [h] at h2
        exact heP (by rw [← h2, ← hbp])
      have hfen : blkNext s e ≠ b.next := by
        intro h
        have h2 := hinv e (hsub e he)
        rw [h, hbn] at h2
        have h3 := hinv i hi_mem
        exact heI (h2.symm.trans h3)
      have hfmem : blkNext s e ∈ u ++ v := by
        have hm : blkNext s e ∈ u ++ i :: v :=
          bucketRep_next_mem ⟨hhead, hnodup, htags, hamem, hcyc, hinv⟩ (hsub e he)
        rcases List.mem_append.mp hm with h | h
        · exact List.mem_append_left _ h
        · rcases List.mem_cons.mp h with h | h
          · exact absurd h hfei
          · exact List.mem_append_right _ h
      rw [hSprev _ hfmem, if_neg hfen]
      exact hinv e (hsub e he)

/-- Generalized tail-append lemma: any state whose head table and records
relate to `s` the way linking a fresh-to-this-bucket block `i` at the tail
prescribes represents the bucket with `i` appended. -/
theorem bucketRep_snoc_general {s S : ZState} {tg : Nat} {l : List Nat} {i : Nat}
    (hrep : bucketRep s tg l)
    (hni : i ∉ l)
    (hrecI : ∃ c, lookupA S.arena i = some c ∧ c.tag = tg
        ∧ c.next = l.headD i ∧ c.prev = l.getLastD i)
    (hheads : lookupH S.heads tg = some (l.headD i))
    (hlook : ∀ e ∈ l, lookupA S.arena e = (lookupA s.arena e).map (fun c =>
        { c with next := if e = l.getLastD i then i else c.next,
                 prev := if e = l.headD i then i else c.prev }))
    (hback : ∀ p ∈ S.arena, p.2.tag = tg → p.1 ∈ l ++ [i]) :
    bucketRep S tg (l ++ [i]) := by
  obtain ⟨ci, hci, hcit, hcin, hcip⟩ := hrecI
  have hlive : ∀ e ∈ l, ∃ c, lookupA s.arena e = some c ∧ c.tag = tg := by
    intro e he
    exact bucketRep_live hrep he
  have hne_i : ∀ e ∈ l, e ≠ i := fun e he hei => hni (hei ▸ he)
  have hSnext : ∀ e ∈ l, blkNext S e = if e = l.getLastD i then i else blkNext s e := by
    intro e he
    obtain ⟨c, hc, _⟩ := hlive e he
    unfold blkNext
    rw [hlook e he, hc]
    by_cases h : e = l.getLastD i <;> simp [h]
  have hSprev : ∀ e ∈ l, blkPrev S e = if e = l.headD i then i else blkPrev s e := by
    intro e he
    obtain ⟨c, hc, _⟩ := hlive e he
    unfold blkPrev
    rw [hlook e he, hc]
    by_cases h : e = l.headD i <;> simp [h]
  have hSnexti : blkNext S i = l.headD i := by
    unfold blkNext
    rw [hci]
    exact hcin
  have hSprevi : blkPrev S i = l.getLastD i := by
    unfold blkPrev
    rw [hci]
    exact hcip
  refine ⟨?_, ?_, ?_, hback, ?_, ?_⟩
  · rw [hheads]
    cases l with
    | nil => rfl
    | cons a rest => rfl
  · rw [List.nodup_append]
    refine ⟨hrep.2.1, by simp, ?_⟩
    intro e he hm
    simp at hm
    exact hne_i e he hm
  · intro e he
    rcases List.mem_append.mp he with h | h
    · obtain ⟨c, hc, hct⟩ := hlive e h
      unfold tagOf
      rw [hlook e h, hc]
      simp [hct]
    · simp at h
      subst h
      unfold tagOf
      rw [hci]
      simp [hcit]
  · refine cyc_snoc l i hrep.2.1 hni hrep.2.2.2.2.1 hSnexti ?_
    exact hSnext
  · intro e he
    rcases List.mem_append.mp he with h | h
    · by_cases heT : e = l.getLastD i
      · rw [hSnext e h, if_pos heT, hSprevi, heT]
      · rw [hSnext e h, if_neg heT]
        have hm : blkNext s e ∈ l := bucketRep_next_mem hrep h
        have hmi : blkNext s e ≠ i := hne_i _ hm
        have hmh : blkNext s e ≠ l.headD i := by
          cases l with
          | nil => simp at h
          | cons a rest =>
            intro hx
            have hx' : blkNext s e = a := hx
            have h2 := hrep.2.2.2.2.2 e h
            rw [hx'] at h2
            have h3 : blkPrev s a = rest.getLastD a := bucketRep_head_prev hrep
            rw [h3] at h2
            apply heT
            rw [List.getLastD_cons, ← h2]
        rw [hSprev _ hm, if_neg hmh]
        exact hrep.2.2.2.2.2 e h
    · simp at h
      rw [h, hSnexti]
      cases l with
      | nil =>
        show blkPrev S i = i
        rw [hSprevi]
        rfl
      | cons a rest =>
        show blkPrev S a = i
        rw [hSprev a (List.mem_cons_self a rest)]
        simp

theorem unlink_lookup (s : ZState) (b : memblock) (j : Nat) :
    lookupA (updateA (fun nb => { nb with prev := b.prev })
        (updateA (fun pb => { pb with next := b.next }) s.arena b.prev) b.next) j
      = (lookupA s.arena j).map (fun c =>
        { c with next := if j = b.prev then b.next else c.next,
                 prev := if j = b.next then b.prev else c.prev }) := by
  rw [lookupA_update_ite, lookupA_update_ite]
  by_cases h2 : j = b.next <;> by_cases h1 : j = b.prev
  · have hpn : b.prev = b.next := h1.symm.trans h2
    cases hc : lookupA s.arena j <;> simp [h1, h2, hpn]
  · have hpn : ¬ b.next = b.prev := fun h => h1 (h2.trans h)
    cases hc : lookupA s.arena j <;> simp [h1, h2, hpn]
  · have hpn : ¬ b.prev = b.next := fun h => h2 (h1.trans h)
    cases hc : lookupA s.arena j <;> simp [h1, h2, hpn]
  · cases hc : lookupA s.arena j <;> simp [h1, h2]

theorem unlinkHeads_ne (s : ZState) (i : Nat) (b : memblock) {t' : Nat} (ht : t' ≠ b.tag) :
    lookupH (if b.next = i then setH s.heads b.tag none
             else if lookupH s.heads b.tag = some i then setH s.heads b.tag (some b.next)
             else s.heads) t' = lookupH s.heads t' := by
  by_cases h1 : b.next = i
  · rw [if_pos h1, lookupH_setH_ne _ _ ht]
  · rw [if_neg h1]
    by_cases h2 : lookupH s.heads b.tag = some i
    · rw [if_pos h2, lookupH_setH_ne _ _ ht]
    · rw [if_neg h2]

theorem unlinkHeads_tag (s : ZState) (i : Nat) (b : memblock) :
    lookupH (if b.next = i then setH s.heads b.tag none
             else if lookupH s.heads b.tag = some i then setH s.heads b.tag (some b.next)
             else s.heads) b.tag
      = (if b.next = i then none
         else if lookupH s.heads b.tag = some i then some b.next
         else lookupH s.heads b.tag) := by
  by_cases h1 : b.next = i
  · rw [if_pos h1, if_pos h1, lookupH_setH_self]
  · rw [if_neg h1, if_neg h1]
    by_cases h2 : lookupH s.heads b.tag = some i
    · rw [if_pos h2, if_pos h2, lookupH_setH_self]
    · rw [if_neg h2, if_neg h2]

/-- Full specification of `Z_ChangeTag` on a live block with a genuinely new
tag: the block keeps its size and payload, moves from its old bucket to the
tail of the new bucket, and every other bucket, block and counter is
untouched. -/
theorem Z_ChangeTag_spec {s : ZState} {i : Nat} {b : memblock} {t2 : Nat}
    (hWF : ZWF s) (hb : lookupA s.arena i = some b) (hne : t2 ≠ b.tag) :
    (∃ b', lookupA (Z_ChangeTag s (some i) t2).arena i = some b'
        ∧ b'.tag = t2 ∧ b'.size = b.size ∧ b'.data = b.data)
    ∧ (∀ j c, j ≠ i → lookupA s.arena j = some c →
        ∃ c', lookupA (Z_ChangeTag s (some i) t2).arena j = some c'
          ∧ c'.tag = c.tag ∧ c'.size = c.size ∧ c'.data = c.data)
    ∧ (∀ j, lookupA s.arena j = none → lookupA (Z_ChangeTag s (some i) t2).arena j = none)
    ∧ (∀ u v, bucketRep s b.tag (u ++ i :: v) →
        bucketRep (Z_ChangeTag s (some i) t2) b.tag (u ++ v))
    ∧ (∀ lnew, bucketRep s t2 lnew →
        bucketRep (Z_ChangeTag s (some i) t2) t2 (lnew ++ [i]))
    ∧ (∀ t3, t3 ≠ b.tag → t3 ≠ t2 → ∀ l3, bucketRep s t3 l3 →
        bucketRep (Z_ChangeTag s (some i) t2) t3 l3)
    ∧ ZWF (Z_ChangeTag s (some i) t2)
    ∧ (Z_ChangeTag s (some i) t2).free_memory = s.free_memory
    ∧ (Z_ChangeTag s (some i) t2).memory_size = s.memory_size
    ∧ (Z_ChangeTag s (some i) t2).fresh = s.fresh := by
  have hne' : ¬ t2 = b.tag := hne
  set s1 : ZState :=
    { s with
      heads := (if b.next = i then setH s.heads b.tag none else if lookupH s.heads b.tag = some i then setH s.heads b.tag (some b.next) else s.heads)
      arena := updateA (fun nb => { nb with prev := b.prev }) (updateA (fun pb => { pb with next := b.next }) s.arena b.prev) b.next } with hs1
  have hEq : Z_ChangeTag s (some i) t2 = changeCore s1 i t2 := by
    rw [Z_ChangeTag_eq hb hne', hs1]
  rw [hEq]
  have hl1 : ∀ j, lookupA s1.arena j = (lookupA s.arena j).map (fun c =>
      { c with next := if j = b.prev then b.next else c.next,
               prev := if j = b.next then b.prev else c.prev }) := by
    intro j
    rw [hs1]
    exact unlink_lookup s b j
  have hh1ne : ∀ t', t' ≠ b.tag → lookupH s1.heads t' = lookupH s.heads t' := by
    intro t' ht'
    rw [hs1]
    exact unlinkHeads_ne s i b ht'
  have hh1tag : lookupH s1.heads b.tag
      = (if b.next = i then none
         else if lookupH s.heads b.tag = some i then some b.next
         else lookupH s.heads b.tag) := by
    rw [hs1]
    exact unlinkHeads_tag s i b
  have hk1 : s1.arena.map Prod.fst = s.arena.map Prod.fst := by
    rw [hs1]
    show (updateA _ (updateA _ s.arena b.prev) b.next).map Prod.fst = _
    rw [keys_updateA, keys_updateA]
  have hkS : (changeCore s1 i t2).arena.map Prod.fst = s.arena.map Prod.fst := by
    rw [changeCore_keys, hk1]
  have hndS : ((changeCore s1 i t2).arena.map Prod.fst).Nodup := by
    rw [hkS]
    exact hWF.1
  have hfS : (changeCore s1 i t2).free_memory = s.free_memory
      ∧ (changeCore s1 i t2).memory_size = s.memory_size
      ∧ (changeCore s1 i t2).fresh = s.fresh := by
    refine ⟨?_, ?_, ?_⟩
    · rw [(changeCore_fields s1 i t2).1, hs1]
    · rw [(changeCore_fields s1 i t2).2.1, hs1]
    · rw [(changeCore_fields s1 i t2).2.2, hs1]
  obtain ⟨lw, hlw⟩ := hWF.2.2 b.tag
  have hi_lw : i ∈ lw := hlw.2.2.2.1 (i, b) (mem_of_lookupA hb) rfl
  have hbp_lw : b.prev ∈ lw := by
    have h := (bucketRep_prev_mem hlw hi_lw).1
    have hbp : b.prev = blkPrev s i := by simp [blkPrev, hb]
    rw [hbp]
    exact h
  have hbn_lw : b.next ∈ lw := by
    have h := bucketRep_next_mem hlw hi_lw
    have hbn : b.next = blkNext s i := by simp [blkNext, hb]
    rw [hbn]
    exact h
  have htag_bp : tagOf s b.prev = some b.tag := hlw.2.2.1 _ hbp_lw
  have htag_bn : tagOf s b.next = some b.tag := hlw.2.2.1 _ hbn_lw
  have hsame1 : ∀ e c, lookupA s.arena e = some c → c.tag ≠ b.tag →
      lookupA s1.arena e = some c := by
    intro e c hc hct
    have he1 : e ≠ b.prev := by
      intro hx
      rw [hx] at hc
      unfold tagOf at htag_bp
      rw [hc] at htag_bp
      simp at htag_bp
      exact hct htag_bp
    have he2 : e ≠ b.next := by
      intro hx
      rw [hx] at hc
      unfold tagOf at htag_bn
      rw [hc] at htag_bn
      simp at htag_bn
      exact hct htag_bn
    rw [hl1 e, hc]
    simp only [Option.map_some']
    rw [if_neg he1, if_neg he2]
  have hitag : ∀ e c, lookupA s.arena e = some c → c.tag ≠ b.tag → e ≠ i := by
    intro e c hc hct hx
    rw [hx, hb] at hc
    injection hc with hc
    rw [← hc] at hct
    exact hct rfl
  cases hh2 : lookupH s.heads t2 with
  | none =>
    have hh1t2 : lookupH s1.heads t2 = none := by rw [hh1ne t2 hne, hh2]
    have hCne : ∀ j, j ≠ i →
        lookupA (changeCore s1 i t2).arena j = lookupA s1.arena j :=
      fun j hj => changeCore_lookup_ne_empty hh1t2 hj
    have hCi : lookupA (changeCore s1 i t2).arena i
        = some { next := i, prev := i, size := b.size, tag := t2, data := b.data } := by
      rw [changeCore_lookup_i_empty hh1t2, hl1 i, hb]
      rfl
    have hCh : ∀ t', lookupH (changeCore s1 i t2).heads t'
        = if t' = t2 then some i else lookupH s1.heads t' :=
      fun t' => changeCore_heads_empty hh1t2
    have hold : ∀ u v, bucketRep s b.tag (u ++ i :: v) →
        bucketRep (changeCore s1 i t2) b.tag (u ++ v) := by
      intro u v hrepold
      refine bucketRep_erase_general hb hrepold ?_ ?_ ?_
      · rw [hCh b.tag, if_neg (Ne.symm hne), hh1tag]
      · intro e hei hem
        rw [hCne e hei, hl1 e]
      · intro p hp hpt
        have hlk : lookupA (changeCore s1 i t2).arena p.1 = some p.2 := by
          obtain ⟨p1, p2⟩ := p
          exact lookupA_of_mem hndS hp
        by_cases hpi : p.1 = i
        · rw [hpi, hCi] at hlk
          injection hlk with hlk
          rw [← hlk] at hpt
          exact absurd hpt.symm (Ne.symm hne')
        · rw [hCne _ hpi, hl1 _] at hlk
          rcases Option.map_eq_some'.mp hlk with ⟨c2, hc2, hcc⟩
          have hct : c2.tag = b.tag := by
            have h : p.2.tag = c2.tag := by rw [← hcc]
            rw [← h, hpt]
          have hmem := hrepold.2.2.2.1 (p.1, c2) (mem_of_lookupA hc2) hct
          rcases List.mem_append.mp hmem with h | h
          · exact List.mem_append_left _ h
          · rcases List.mem_cons.mp h with h | h
            · exact absurd h hpi
            · exact List.mem_append_right _ h
    have hnew : ∀ lnew, bucketRep s t2 lnew →
        bucketRep (changeCore s1 i t2) t2 (lnew ++ [i]) := by
      intro lnew hrepnew
      have hL : lnew = [] := by
        have h := hrepnew.1
        rw [hh2] at h
        exact List.head?_eq_none_iff.mp h.symm
      subst hL
      refine bucketRep_snoc_general hrepnew (by simp) ⟨_, hCi, rfl, rfl, rfl⟩ ?_ (by simp) ?_
      · rw [hCh t2, if_pos rfl]
        rfl
      · intro p hp hpt
        have hlk : lookupA (changeCore s1 i t2).arena p.1 = some p.2 := by
          obtain ⟨p1, p2⟩ := p
          exact lookupA_of_mem hndS hp
        by_cases hpi : p.1 = i
        · rw [hpi]
          simp
        · rw [hCne _ hpi, hl1 _] at hlk
          rcases Option.map_eq_some'.mp hlk with ⟨c2, hc2, hcc⟩
          have hct : c2.tag = t2 := by
            have h : p.2.tag = c2.tag := by rw [← hcc]
            rw [← h, hpt]
          have hmem := hrepnew.2.2.2.1 (p.1, c2) (mem_of_lookupA hc2) hct
          simp at hmem
    have hothers : ∀ t3, t3 ≠ b.tag → t3 ≠ t2 → ∀ l3, bucketRep s t3 l3 →
        bucketRep (changeCore s1 i t2) t3 l3 := by
      intro t3 ht3b ht3n l3 hrep3
      refine bucketRep_transfer hrep3 ?_ ?_ ?_
      · rw [hCh t3, if_neg ht3n, hh1ne t3 ht3b]
      · intro e he
        obtain ⟨c, hc, hct⟩ := bucketRep_live hrep3 he
        have hct' : c.tag ≠ b.tag := by rw [hct]; exact ht3b
        rw [hCne e (hitag e c hc hct'), hsame1 e c hc hct', hc]
      · refine amem_transfer hndS ?_ hrep3.2.2.2.1
        intro j c hc hct
        by_cases hji : j = i
        · rw [hji, hCi] at hc
          injection hc with hc
          rw [← hc] at hct
          exact absurd (show t3 = t2 from hct.symm) ht3n
        · rw [hCne _ hji, hl1 _] at hc
          rcases Option.map_eq_some'.mp hc with ⟨c2, hc2, hcc⟩
          refine ⟨c2, hc2, ?_⟩
          have h : c.tag = c2.tag := by rw [← hcc]
          rw [← h, hct]
    refine ⟨⟨_, hCi, rfl, rfl, rfl⟩, ?_, ?_, hold, hnew, hothers, ?_, hfS.1, hfS.2.1, hfS.2.2⟩
    · intro j c hj hc
      rw [hCne j hj, hl1 j, hc]
      exact ⟨_, rfl, rfl, rfl, rfl⟩
    · intro j hj
      have hji : j ≠ i := by
        intro hx
        rw [hx, hb] at hj
        exact Option.noConfusion hj
      rw [hCne j hji, hl1 j, hj]
      rfl
    · refine ⟨hndS, ?_, ?_⟩
      · intro q hq
        have hkm : q.1 ∈ (changeCore s1 i t2).arena.map Prod.fst :=
          List.mem_map.mpr ⟨q, hq, rfl⟩
        rw [hkS] at hkm
        rcases List.mem_map.mp hkm with ⟨q', hq', hfst⟩
        rw [hfS.2.2, ← hfst]
        exact hWF.2.1 q' hq'
      · intro t
        by_cases htb : t = b.tag
        · subst htb
          obtain ⟨u, v, hluv⟩ := List.append_of_mem hi_lw
          rw [hluv] at hlw
          exact ⟨u ++ v, hold u v hlw⟩
        · by_cases htn : t = t2
          · subst htn
            obtain ⟨l2, hl2⟩ := hWF.2.2 t
            exact ⟨l2 ++ [i], hnew l2 hl2⟩
          · obtain ⟨l3, hl3⟩ := hWF.2.2 t
            exact ⟨l3, hothers t htb htn l3 hl3⟩
  | some a =>
    obtain ⟨l2w, hl2w⟩ := hWF.2.2 t2
    obtain ⟨rest2, hL2⟩ : ∃ rest2, l2w = a :: rest2 := by
      cases hl0 : l2w with
      | nil =>
        have h := hl2w.1
        rw [hh2, hl0] at h
        exact Option.noConfusion h
      | cons a' r =>
        have h := hl2w.1
        rw [hh2, hl0] at h
        injection h with h
        exact ⟨r, by rw [h]⟩
    rw [hL2] at hl2w
    obtain ⟨ab, hab, habt⟩ := bucketRep_live hl2w (List.mem_cons_self a rest2)
    have habtne : ab.tag ≠ b.tag := by rw [habt]; exact hne
    have hai : a ≠ i := hitag a ab hab habtne
    have habp : ab.prev = blkPrev s a := by simp [blkPrev, hab]
    have hT_mem : ab.prev ∈ a :: rest2 := by
      rw [habp]
      exact (bucketRep_prev_mem hl2w (List.mem_cons_self a rest2)).1
    obtain ⟨tb, htb, htbt⟩ := bucketRep_live hl2w hT_mem
    have htbtne : tb.tag ≠ b.tag := by rw [htbt]; exact hne
    have hTi : ab.prev ≠ i := hitag _ tb htb htbtne
    have hh1t2 : lookupH s1.heads t2 = some a := by rw [hh1ne t2 hne, hh2]
    have ha1 : lookupA s1.arena a = some ab := hsame1 a ab hab habtne
    have hCne : ∀ j, j ≠ i →
        lookupA (changeCore s1 i t2).arena j =
          (lookupA s1.arena j).map (fun c =>
            { c with next := if j = ab.prev then i else c.next,
                     prev := if j = a then i else c.prev }) :=
      fun j hj => changeCore_lookup_ne_nonempty hh1t2 ha1 hj
    have hCi : lookupA (changeCore s1 i t2).arena i
        = some { next := a, prev := ab.prev, size := b.size, tag := t2, data := b.data } := by
      rw [changeCore_lookup_i_nonempty hh1t2 ha1 hai hTi, hl1 i, hb]
      rfl
    have hCh : (changeCore s1 i t2).heads = s1.heads := changeCore_heads_nonempty hh1t2
    have htagOf_a : tagOf s a = some t2 := hl2w.2.2.1 a (List.mem_cons_self a rest2)
    have htagOf_T : tagOf s ab.prev = some t2 := hl2w.2.2.1 _ hT_mem
    have hCsame : ∀ e c, lookupA s.arena e = some c → c.tag ≠ b.tag → c.tag ≠ t2 →
        lookupA (changeCore s1 i t2).arena e = some c := by
      intro e c hc hcb hct
      have hea : e ≠ a := by
        intro hx
        rw [hx, hab] at hc
        injection hc with hc
        rw [← hc] at hct
        exact hct habt
      have heT : e ≠ ab.prev := by
        intro hx
        rw [hx, htb] at hc
        injection hc with hc
        rw [← hc] at hct
        exact hct htbt
      rw [hCne e (hitag e c hc hcb), hsame1 e c hc hcb]
      simp only [Option.map_some']
      rw [if_neg heT, if_neg hea]
    have hold : ∀ u v, bucketRep s b.tag (u ++ i :: v) →
        bucketRep (changeCore s1 i t2) b.tag (u ++ v) := by
      intro u v hrepold
      refine bucketRep_erase_general hb hrepold ?_ ?_ ?_
      · rw [hCh, hh1tag]
      · intro e hei hem
        obtain ⟨c, hc, hct⟩ := bucketRep_live hrepold hem
        have hea : e ≠ a := by
          intro hx
          rw [hx, hab] at hc
          injection hc with hc
          rw [← hc, habt] at hct
          exact hne hct
        have heT : e ≠ ab.prev := by
          intro hx
          rw [hx, htb] at hc
          injection hc with hc
          rw [← hc, htbt] at hct
          exact hne hct
        rw [hCne e hei, hl1 e, hc]
        simp only [Option.map_some']
        rw [if_neg heT, if_neg hea]
      · intro p hp hpt
        have hlk : lookupA (changeCore s1 i t2).arena p.1 = some p.2 := by
          obtain ⟨p1, p2⟩ := p
          exact lookupA_of_mem hndS hp
        by_cases hpi : p.1 = i
        · rw [hpi, hCi] at hlk
          injection hlk with hlk
          rw [← hlk] at hpt
          exact absurd hpt.symm (Ne.symm hne')
        · rw [hCne _ hpi, hl1 _] at hlk
          rcases Option.map_eq_some'.mp hlk with ⟨c2, hc2, hcc⟩
          rcases Option.map_eq_some'.mp hc2 with ⟨c3, hc3, hcc3⟩
          have hct : c3.tag = b.tag := by
            have h1 : p.2.tag = c2.tag := by rw [← hcc]
            have h2 : c2.tag = c3.tag := by rw [← hcc3]
            rw [← h2, ← h1, hpt]
          have hmem := hrepold.2.2.2.1 (p.1, c3) (mem_of_lookupA hc3) hct
          rcases List.mem_append.mp hmem with h | h
          · exact List.mem_append_left _ h
          · rcases List.mem_cons.mp h with h | h
            · exact absurd h hpi
            · exact List.mem_append_right _ h
    have hnew : ∀ lnew, bucketRep s t2 lnew →
        bucketRep (changeCore s1 i t2) t2 (lnew ++ [i]) := by
      intro lnew hrepnew
      obtain ⟨rest3, hL3⟩ : ∃ rest3, lnew = a :: rest3 := by
        cases hl0 : lnew with
        | nil =>
          have h := hrepnew.1
          rw [hh2, hl0] at h
          exact Option.noConfusion h
        | cons a' r =>
          have h := hrepnew.1
          rw [hh2, hl0] at h
          injection h with h
          exact ⟨r, by rw [h]⟩
      subst hL3
      have hgetLast : (a :: rest3).getLastD i = ab.prev := by
        rw [List.getLastD_cons]
        have h := bucketRep_head_prev hrepnew
        rw [habp, h]
      have hheadD : (a :: rest3).headD i = a := rfl
      have hni3 : i ∉ a :: rest3 := by
        intro hmem
        have := hrepnew.2.2.1 i hmem
        unfold tagOf at this
        rw [hb] at this
        simp at this
        exact hne this.symm
      refine bucketRep_snoc_general hrepnew hni3 ⟨_, hCi, rfl, ?_, ?_⟩ ?_ ?_ ?_
      · rw [hheadD]
      · rw [hgetLast]
      · rw [hCh, hh1t2, hheadD]
      · intro e he
        obtain ⟨c, hc, hct⟩ := bucketRep_live hrepnew he
        have hcb : c.tag ≠ b.tag := by rw [hct]; exact hne
        rw [hCne e (hitag e c hc hcb), hsame1 e c hc hcb, hc, hgetLast, hheadD]
      · intro p hp hpt
        have hlk : lookupA (changeCore s1 i t2).arena p.1 = some p.2 := by
          obtain ⟨p1, p2⟩ := p
          exact lookupA_of_mem hndS hp
        by_cases hpi : p.1 = i
        · rw [hpi]
          exact List.mem_append_right _ (by simp)
        · rw [hCne _ hpi, hl1 _] at hlk
          rcases Option.map_eq_some'.mp hlk with ⟨c2, hc2, hcc⟩
          rcases Option.map_eq_some'.mp hc2 with ⟨c3, hc3, hcc3⟩
          have hct : c3.tag = t2 := by
            have h1 : p.2.tag = c2.tag := by rw [← hcc]
            have h2 : c2.tag = c3.tag := by rw [← hcc3]
            rw [← h2, ← h1, hpt]
          exact List.mem_append_left _ (hrepnew.2.2.2.1 (p.1, c3) (mem_of_lookupA hc3) hct)
    have hothers : ∀ t3, t3 ≠ b.tag → t3 ≠ t2 → ∀ l3, bucketRep s t3 l3 →
        bucketRep (changeCore s1 i t2) t3 l3 := by
      intro t3 ht3b ht3n l3 hrep3
      refine bucketRep_transfer hrep3 ?_ ?_ ?_
      · rw [hCh, hh1ne t3 ht3b]
      · intro e he
        obtain ⟨c, hc, hct⟩ := bucketRep_live hrep3 he
        have hcb : c.tag ≠ b.tag := by rw [hct]; exact ht3b
        have hcn : c.tag ≠ t2 := by rw [hct]; exact ht3n
        rw [hCsame e c hc hcb hcn, hc]
      · refine amem_transfer hndS ?_ hrep3.2.2.2.1
        intro j c hc hct
        by_cases hji : j = i
        · rw [hji, hCi] at hc
          injection hc with hc
          rw [← hc] at hct
          exact absurd (show t3 = t2 from hct.symm) ht3n
        · rw [hCne _ hji, hl1 _] at hc
          rcases Option.map_eq_some'.mp hc with ⟨c2, hc2, hcc⟩
          rcases Option.map_eq_some'.mp hc2 with ⟨c3, hc3, hcc3⟩
          refine ⟨c3, hc3, ?_⟩
          have h1 : c.tag = c2.tag := by rw [← hcc]
          have h2 : c2.tag = c3.tag := by rw [← hcc3]
          rw [← h2, ← h1, hct]
    refine ⟨⟨_, hCi, rfl, rfl, rfl⟩, ?_, ?_, hold, hnew, hothers, ?_, hfS.1, hfS.2.1, hfS.2.2⟩
    · intro j c hj hc
      rw [hCne j hj, hl1 j, hc]
      exact ⟨_, rfl, rfl, rfl, rfl⟩
    · intro j hj
      have hji : j ≠ i := by
        intro hx
        rw [hx, hb] at hj
        exact Option.noConfusion hj
      rw [hCne j hji, hl1 j, hj]
      rfl
    · refine ⟨hndS, ?_, ?_⟩
      · intro q hq
        have hkm : q.1 ∈ (changeCore s1 i t2).arena.map Prod.fst :=
          List.mem_map.mpr ⟨q, hq, rfl⟩
        rw [hkS] at hkm
        rcases List.mem_map.mp hkm with ⟨q', hq', hfst⟩
        rw [hfS.2.2, ← hfst]
        exact hWF.2.1 q' hq'
      · intro t
        by_cases htb : t = b.tag
        · subst htb
          obtain ⟨u, v, hluv⟩ := List.append_of_mem hi_lw
          rw [hluv] at hlw
          exact ⟨u ++ v, hold u v hlw⟩
        · by_cases htn : t = t2
          · subst htn
            exact ⟨(a :: rest2) ++ [i], hnew (a :: rest2) hl2w⟩
          · obtain ⟨l3, hl3⟩ := hWF.2.2 t
            exact ⟨l3, hothers t htb htn l3 hl3⟩

/-- The proactive pass is the identity when no ceiling is configured or the
headroom test passes (the guard of lines 150-151 fails). -/
theorem proactivePass_id {s : ZState} {size : Nat}
    (h : ¬ (0 < s.memory_size
        ∧ s.free_memory + s.memory_size < ((size + HEADER_SIZE : Nat) : Int))) :
    proactivePass s size = s := by
  unfold proactivePass
  rw [if_neg h]

/-- The proactive pass is the identity when the CACHE bucket is empty
(line 154: `if (block)` fails). -/
theorem proactivePass_empty {s : ZState} {size : Nat}
    (h : lookupH s.heads PU_CACHE = none) :
    proactivePass s size = s := by
  unfold proactivePass
  by_cases hc : 0 < s.memory_size
      ∧ s.free_memory + s.memory_size < ((size + HEADER_SIZE : Nat) : Int)
  · rw [if_pos hc, h]
  · rw [if_neg hc]

/-- When the guard of the proactive pass holds it frees exactly a prefix of
the CACHE bucket, oldest first, stopping at the first block whose release
satisfies the headroom test (or after the snapshot tail). -/
theorem proactivePass_spec {s : ZState} {size : Nat} {l : List Nat}
    (hWF : ZWF s) (hrep : bucketRep s PU_CACHE l)
    (hcond : 0 < s.memory_size
        ∧ s.free_memory + s.memory_size < ((size + HEADER_SIZE : Nat) : Int)) :
    (l = [] → proactivePass s size = s)
    ∧ (∀ h0 rest, l = h0 :: rest →
        ∃ k, 1 ≤ k ∧ k ≤ rest.length + 1
          ∧ proactivePass s size = freeSeq s (l.take k)
          ∧ ZWF (proactivePass s size)
          ∧ bucketRep (proactivePass s size) PU_CACHE (l.drop k)
          ∧ (((size + HEADER_SIZE : Nat) : Int)
                ≤ (proactivePass s size).free_memory + (proactivePass s size).memory_size
              ∨ k = rest.length + 1)
          ∧ (∀ j, 1 ≤ j → j < k →
              ¬ ((size + HEADER_SIZE : Nat) : Int)
                  ≤ (freeSeq s (l.take j)).free_memory
                    + (freeSeq s (l.take j)).memory_size)) := by
  constructor
  · intro hL
    subst hL
    have hh : lookupH s.heads PU_CACHE = none := by
      have h := hrep.1
      simpa using h
    exact proactivePass_empty hh
  · intro h0 rest hL
    subst hL
    have hh : lookupH s.heads PU_CACHE = some h0 := by
      have h := hrep.1
      simpa using h
    obtain ⟨b, hb, hbt⟩ := bucketRep_live hrep (List.mem_cons_self h0 rest)
    have hbp : b.prev = rest.getLastD h0 := by
      have h := bucketRep_head_prev hrep
      have h2 : blkPrev s h0 = b.prev := by simp [blkPrev, hb]
      rw [← h2, h]
    have hfuel : rest.length + 1 ≤ s.arena.length + 1 := by
      have := bucketRep_length_le hrep
      simp at this
      omega
    obtain ⟨k, hk1, hk2, hkeq, hkWF, hkrep, hkstop, hkmin⟩ :=
      evictCacheLoop_spec rest h0 s (s.arena.length + 1)
        ((size + HEADER_SIZE : Nat) : Int) hWF hrep hfuel
    have hpp : proactivePass s size = freeSeq s ((h0 :: rest).take k) := by
      unfold proactivePass
      rw [if_pos hcond]
      simp only [hh, hb]
      rw [hbp]
      exact hkeq
    refine ⟨k, hk1, hk2, hpp, ?_, ?_, ?_, hkmin⟩
    · rw [hpp]
      exact hkWF
    · rw [hpp]
      exact hkrep
    · rw [hpp]
      exact hkstop

/-- The proactive pass preserves well-formedness. -/
theorem proactivePass_WF {s : ZState} (hWF : ZWF s) (size : Nat) :
    ZWF (proactivePass s size) := by
  by_cases hcond : 0 < s.memory_size
      ∧ s.free_memory + s.memory_size < ((size + HEADER_SIZE : Nat) : Int)
  · obtain ⟨l, hl⟩ := hWF.2.2 PU_CACHE
    cases hL : l with
    | nil =>
      rw [(proactivePass_spec hWF hl hcond).1 hL]
      exact hWF
    | cons h0 rest =>
      obtain ⟨k, _, _, _, hWF', _⟩ := (proactivePass_spec hWF hl hcond).2 h0 rest hL
      exact hWF'
  · rw [proactivePass_id hcond]
    exact hWF

/-- The retry loop of `Z_Malloc` either dies by `I_Error` or returns a fresh
block id together with a well-formed state; it never returns a null payload. -/
theorem mallocLoop_spec : ∀ (sched : List Bool) (s : ZState) (size tag : Nat) (user : Bool),
    ZWF s →
    mallocLoop s size tag user sched = ZResult.fatal
    ∨ ∃ i w s', mallocLoop s size tag user sched = ZResult.ok (some i) w s' ∧ ZWF s' := by
  intro sched
  induction sched with
  | nil =>
    intro s size tag user hWF
    obtain ⟨l, hl⟩ := hWF.2.2 tag
    obtain ⟨s5, heq, hWF5, _⟩ := finishAlloc_spec hWF size tag user hl
    exact Or.inr ⟨s.fresh, if user then some (some s.fresh) else none, s5, heq, hWF5⟩
  | cons o rest ih =>
    intro s size tag user hWF
    cases o with
    | true =>
      obtain ⟨l, hl⟩ := hWF.2.2 tag
      obtain ⟨s5, heq, hWF5, _⟩ := finishAlloc_spec hWF size tag user hl
      refine Or.inr ⟨s.fresh, if user then some (some s.fresh) else none, s5, ?_, hWF5⟩
      show (if true then finishAlloc s size tag user else _) = _
      rw [if_pos rfl]
      exact heq
    | false =>
      by_cases hh : lookupH s.heads PU_CACHE = none
      · left
        show (if false then _ else if lookupH s.heads PU_CACHE = none then ZResult.fatal else _)
          = ZResult.fatal
        rw [if_neg (by simp), if_pos hh]
      · have hWF' : ZWF (Z_FreeTags s (PU_CACHE : Int) (PU_CACHE : Int)) :=
          (Z_FreeTags_spec hWF _ _).1
        have h := ih (Z_FreeTags s (PU_CACHE : Int) (PU_CACHE : Int)) size tag user hWF'
        have hunf : mallocLoop s size tag user (false :: rest)
            = mallocLoop (Z_FreeTags s (PU_CACHE : Int) (PU_CACHE : Int)) size tag user rest := by
          show (if false then _ else if lookupH s.heads PU_CACHE = none then ZResult.fatal else _) = _
          rw [if_neg (by simp), if_neg hh]
        rw [hunf]
        exact h

/-- `Z_Malloc` either returns NULL (only for a zero-size request), dies by
`I_Error`, or returns a block id with a well-formed state. -/
theorem Z_Malloc_WF {s : ZState} (hWF : ZWF s) (size tag : Nat) (user : Bool)
    (sched : List Bool) :
    Z_Malloc s size tag user sched = ZResult.fatal
    ∨ ∃ r w s', Z_Malloc s size tag user sched = ZResult.ok r w s' ∧ ZWF s' := by
  by_cases hz : size = 0
  · refine Or.inr ⟨none, if user then some none else none, s, ?_, hWF⟩
    unfold Z_Malloc
    rw [if_pos hz]
  · have hWFp : ZWF (proactivePass s (roundChunk size)) := proactivePass_WF hWF _
    have h := mallocLoop_spec sched (proactivePass s (roundChunk size))
      (roundChunk size) tag user hWFp
    have hunf : Z_Malloc s size tag user sched
        = mallocLoop (proactivePass s (roundChunk size)) (roundChunk size) tag user sched := by
      unfold Z_Malloc
      rw [if_neg hz]
    rw [hunf]
    rcases h with h | ⟨i, w, s', heq, hWF'⟩
    · exact Or.inl h
    · exact Or.inr ⟨some i, w, s', heq, hWF'⟩

/-- `Z_ChangeTag` on a NULL pointer is a no-op (lines 262-263). -/
theorem Z_ChangeTag_none (s : ZState) (t : Nat) : Z_ChangeTag s none t = s := rfl

/-- `Z_ChangeTag` on a dead id is modelled as a no-op. -/
theorem Z_ChangeTag_dead {s : ZState} {i : Nat} (h : lookupA s.arena i = none) (t : Nat) :
    Z_ChangeTag s (some i) t = s := by
  simp only [Z_ChangeTag, h]

/-- `Z_ChangeTag` with an unchanged tag is a no-op (lines 266-267). -/
theorem Z_ChangeTag_same {s : ZState} {i : Nat} {b : memblock} {t : Nat}
    (h : lookupA s.arena i = some b) (ht : t = b.tag) :
    Z_ChangeTag s (some i) t = s := by
  simp only [Z_ChangeTag, h]
  rw [if_pos ht]

/-- `Z_ChangeTag` preserves well-formedness. -/
theorem Z_ChangeTag_WF {s : ZState} (hWF : ZWF s) (p : Option Nat) (t : Nat) :
    ZWF (Z_ChangeTag s p t) := by
  cases p with
  | none => exact hWF
  | some i =>
    cases hb : lookupA s.arena i with
    | none =>
      rw [Z_ChangeTag_dead hb]
      exact hWF
    | some b =>
      by_cases ht : t = b.tag
      · rw [Z_ChangeTag_same hb ht]
        exact hWF
      · exact (Z_ChangeTag_spec hWF hb ht).2.2.2.2.2.2.1

/-- The freshly initialised zone is well-formed: every bucket is empty. -/
theorem initState_ZWF (m : Int) : ZWF (initState m) := by
  refine ⟨List.nodup_nil, ?_, ?_⟩
  · intro p hp
    simp [initState] at hp
  · intro t
    refine ⟨[], rfl, List.nodup_nil, ?_, ?_, trivial, ?_⟩
    · intro i hi
      simp at hi
    · intro p hp _
      simp [initState] at hp
    · intro i hi
      simp at hi

/-- Every client operation preserves well-formedness. -/
theorem stepOp_ZWF {s : ZState} (hWF : ZWF s) (op : ZOp) : ZWF (stepOp s op) := by
  cases op with
  | malloc size tag user sched =>
    show ZWF (match Z_Malloc s size tag user sched with
      | ZResult.ok _ _ s' => s'
      | ZResult.fatal => s)
    rcases Z_Malloc_WF hWF size tag user sched with h | ⟨r, w, s', heq, hWF'⟩
    · rw [h]
      exact hWF
    · rw [heq]
      exact hWF'
  | free i => exact Z_Free_ZWF hWF _
  | changeTag i t => exact Z_ChangeTag_WF hWF _ _
  | freeTags lo hi => exact (Z_FreeTags_spec hWF lo hi).1

/-- Any operation sequence from the initial state reaches a well-formed
state. -/
theorem runOps_ZWF (m : Int) (ops : List ZOp) : ZWF (runOps m ops) := by
  unfold runOps
  have h : ∀ (l : List ZOp) (s : ZState), ZWF s → ZWF (l.foldl stepOp s) := by
    intro l
    induction l with
    | nil => intro s hs; exact hs
    | cons op l' ih =>
      intro s hs
      exact ih (stepOp s op) (stepOp_ZWF hs op)
  exact h ops (initState m) (initState_ZWF m)

/-- When the `size_t` sum of line 148 does not wrap, rounding to the chunk
granularity never shrinks a request. -/
theorem roundChunk_ge {n : Nat} (hw : n + CHUNK_SIZE - 1 < 2 ^ 64) : n ≤ roundChunk n := by
  have hw' : n + 32 - 1 < 2 ^ 64 := hw
  unfold roundChunk CHUNK_SIZE
  rw [Nat.mod_eq_of_lt hw']
  have h := Nat.div_add_mod (n + 32 - 1) 32
  have h2 : (n + 32 - 1) % 32 < 32 := Nat.mod_lt _ (by decide)
  omega

/-- The rounded size is an exact multiple of the chunk granularity. -/
theorem roundChunk_mod (n : Nat) : roundChunk n % CHUNK_SIZE = 0 := by
  unfold roundChunk CHUNK_SIZE
  exact Nat.mul_mod_left _ 32

/-- Through the retry loop, a successful allocation returns a block id whose
record carries exactly the requested (already rounded) size, the requested
tag, and an uninitialized payload of that length. -/
theorem mallocLoop_size : ∀ (sched : List Bool) (s : ZState) (size tag : Nat) (user : Bool)
    (r : Option Nat) (w : Option (Option Nat)) (s' : ZState), ZWF s →
    mallocLoop s size tag user sched = ZResult.ok r w s' →
    ∃ i b, r = some i ∧ lookupA s'.arena i = some b
      ∧ b.size = size ∧ b.tag = tag ∧ b.data = List.replicate size none
      ∧ s.fresh ≤ i := by
  intro sched
  induction sched with
  | nil =>
    intro s size tag user r w s' hWF heq
    obtain ⟨l, hl⟩ := hWF.2.2 tag
    obtain ⟨s5, h5eq, -, -, -, ⟨c, hc, hcs, hct, hcd⟩, -, -, -, -⟩ :=
      finishAlloc_spec hWF size tag user hl
    have hml : mallocLoop s size tag user [] = finishAlloc s size tag user := rfl
    rw [hml, h5eq] at heq
    injection heq with h1 h2 h3
    subst h1
    subst h3
    exact ⟨s.fresh, c, rfl, hc, hcs, hct, hcd, le_refl _⟩
  | cons o rest ih =>
    intro s size tag user r w s' hWF heq
    cases o with
    | true =>
      obtain ⟨l, hl⟩ := hWF.2.2 tag
      obtain ⟨s5, h5eq, -, -, -, ⟨c, hc, hcs, hct, hcd⟩, -, -, -, -⟩ :=
        finishAlloc_spec hWF size tag user hl
      have hml : mallocLoop s size tag user (true :: rest) = finishAlloc s size tag user := by
        show (if true then _ else _) = _
        rw [if_pos rfl]
      rw [hml, h5eq] at heq
      injection heq with h1 h2 h3
      subst h1
      subst h3
      exact ⟨s.fresh, c, rfl, hc, hcs, hct, hcd, le_refl _⟩
    | false =>
      by_cases hh : lookupH s.heads PU_CACHE = none
      · have hml : mallocLoop s size tag user (false :: rest) = ZResult.fatal := by
          show (if false then _ else if lookupH s.heads PU_CACHE = none then ZResult.fatal else _) = _
          rw [if_neg (by simp), if_pos hh]
        rw [hml] at heq
        exact ZResult.noConfusion heq
      · have hml : mallocLoop s size tag user (false :: rest)
            = mallocLoop (Z_FreeTags s (PU_CACHE : Int) (PU_CACHE : Int)) size tag user rest := by
          show (if false then _ else if lookupH s.heads PU_CACHE = none then ZResult.fatal else _) = _
          rw [if_neg (by simp), if_neg hh]
        rw [hml] at heq
        obtain ⟨i, b, h1, h2, h3, h4, h5, h6⟩ :=
          ih _ size tag user r w s' (Z_FreeTags_spec hWF _ _).1 heq
        refine ⟨i, b, h1, h2, h3, h4, h5, ?_⟩
        have hfr := (Z_FreeTags_spec hWF (PU_CACHE : Int) (PU_CACHE : Int)).2.2.2.2.2.2
        omega

/-- C8 (amended): for every positive size whose `size_t` sum `size + 31` does
not wrap, the block returned by `Z_Malloc` records a size equal to the
request rounded up to the chunk granularity — hence at least the request,
and an exact multiple of 32; in particular a request for 10 bytes records 32
and a request for 40 records 64.  (The unamended for-every-size claim fails
at sizes within 31 of `2^64`, where line 148's rounding wraps to 0: see the
counterexample.) -/
theorem C8_alloc_size_rounding {s : ZState} (hWF : ZWF s) {size : Nat} (hpos : 0 < size)
    (hsz : size + CHUNK_SIZE - 1 < 2 ^ 64)
    (tag : Nat) (user : Bool) (sched : List Bool) {r : Option Nat}
    {w : Option (Option Nat)} {s' : ZState}
    (heq : Z_Malloc s size tag user sched = ZResult.ok r w s') :
    (∃ i b, r = some i ∧ lookupA s'.arena i = some b
      ∧ b.size = roundChunk size ∧ size ≤ b.size ∧ b.size % CHUNK_SIZE = 0)
    ∧ roundChunk 10 = 32 ∧ roundChunk 40 = 64 := by
  have hz : ¬ size = 0 := by omega
  have hunf : Z_Malloc s size tag user sched
      = mallocLoop (proactivePass s (roundChunk size)) (roundChunk size) tag user sched := by
    unfold Z_Malloc
    rw [if_neg hz]
  rw [hunf] at heq
  obtain ⟨i, b, hr, hb, hbs, hbt, hbd⟩ :=
    mallocLoop_size sched _ (roundChunk size) tag user r w s' (proactivePass_WF hWF _) heq
  refine ⟨⟨i, b, hr, hb, hbs, ?_, ?_⟩, by decide, by decide⟩
  · rw [hbs]
    exact roundChunk_ge hsz
  · rw [hbs]
    exact roundChunk_mod size

/-- C9: a zero-byte request returns NULL, clears the destination slot when one
was supplied, and returns the state unchanged — no block is allocated and no
counter moves. -/
theorem C9_malloc_zero_noop (s : ZState) (tag : Nat) (user : Bool) (sched : List Bool) :
    Z_Malloc s 0 tag user sched
      = ZResult.ok none (if user then some none else none) s := by
  unfold Z_Malloc
  rw [if_pos rfl]

/-- C10: when the element count times the element size is zero (in `size_t`
arithmetic), `Z_Calloc` returns NULL without touching the state or the
destination slot — in contrast to `Z_Malloc(0, tag, user)`, which writes NULL
through a supplied slot. -/
theorem C10_calloc_zero_product (s : ZState) (n1 n2 : Nat) (tag : Nat) (user : Bool)
    (sched : List Bool) (h : n1 * n2 % 2 ^ 64 = 0) :
    Z_Calloc s n1 n2 tag user sched = ZResult.ok none none s
    ∧ Z_Malloc s 0 tag true sched = ZResult.ok none (some none) s := by
  constructor
  · unfold Z_Calloc
    rw [if_pos h]
  · rfl

theorem C8_alloc_size_rounding_witness :
    ZWF (initState 0) ∧ 0 < 10 ∧ 10 + CHUNK_SIZE - 1 < 2 ^ 64
    ∧ Z_Malloc (initState 0) 10 1 false []
        = ZResult.ok (some 0) none
            { arena := [(0, { next := 0, prev := 0, size := 32, tag := 1,
                              data := List.replicate 32 none })],
              heads := [(1, 0)], memory_size := 0, free_memory := -32, fresh := 1 }
    ∧ ((∃ i b, (some 0 : Option Nat) = some i
          ∧ lookupA [(0, { next := 0, prev := 0, size := 32, tag := 1,
                           data := List.replicate 32 none })] i = some b
          ∧ b.size = roundChunk 10 ∧ 10 ≤ b.size ∧ b.size % CHUNK_SIZE = 0)
        ∧ roundChunk 10 = 32 ∧ roundChunk 40 = 64) :=
  by
  refine ⟨initState_ZWF 0, by decide, by decide, rfl, ?_⟩
  have heq : Z_Malloc (initState 0) 10 1 false []
      = ZResult.ok (some 0) none
          { arena := [(0, { next := 0, prev := 0, size := 32, tag := 1,
                            data := List.replicate 32 none })],
            heads := [(1, 0)], memory_size := 0, free_memory := -32, fresh := 1 } := rfl
  exact C8_alloc_size_rounding (initState_ZWF 0) (by decide) (by decide) 1 false [] heq

theorem C10_calloc_zero_product_witness :
    (0 * 5 % 2 ^ 64 = 0)
    ∧ (Z_Calloc (initState 0) 0 5 1 true [] = ZResult.ok none none (initState 0)
      ∧ Z_Malloc (initState 0) 0 1 true [] = ZResult.ok none (some none) (initState 0)) :=
  ⟨by decide, C10_calloc_zero_product (initState 0) 0 5 1 true [] (by decide)⟩

/-- C1: after every sequence of allocate, free, changeTag and freeAllInRange
operations from the empty initial state, each tag's bucket is a valid
circular list of exactly the live blocks carrying that tag: the head table
entry is the list's head (present iff the live count is non-zero), and
following `next` from the head visits each member once, returning to the
head after N steps where N is the live count. -/
theorem C1_bucket_circular_invariant (m : Int) (ops : List ZOp) (t : Nat) :
    ∃ l : List Nat, l.Nodup
      ∧ (∀ i, i ∈ l ↔ liveWithTag (runOps m ops) t i)
      ∧ lookupH (runOps m ops).heads t = l.head?
      ∧ (l = [] ↔ lookupH (runOps m ops).heads t = none)
      ∧ (∀ k, k < l.length → nextIter (runOps m ops) k (l.headD 0) = l.getD k 0)
      ∧ nextIter (runOps m ops) l.length (l.headD 0) = l.headD 0 := by
  obtain ⟨l, hl⟩ := (runOps_ZWF m ops).2.2 t
  refine ⟨l, hl.2.1, ?_, hl.1, ?_, ?_, ?_⟩
  · intro i
    constructor
    · intro hi
      exact hl.2.2.1 i hi
    · intro hlive
      unfold liveWithTag tagOf at hlive
      cases hlk : lookupA (runOps m ops).arena i with
      | none =>
        rw [hlk] at hlive
        exact Option.noConfusion hlive
      | some c =>
        rw [hlk] at hlive
        injection hlive with hct
        exact hl.2.2.2.1 (i, c) (mem_of_lookupA hlk) hct
  · rw [hl.1]
    cases l with
    | nil => simp
    | cons a rest => simp
  · cases l with
    | nil =>
      intro k hk
      simp at hk
    | cons a rest =>
      intro k hk
      have hc : chainF (blkNext (runOps m ops)) a rest a := hl.2.2.2.2.1
      have h := (chainF_iterate hc).1 k (by simpa using hk)
      exact h
  · cases l with
    | nil => rfl
    | cons a rest =>
      have hc : chainF (blkNext (runOps m ops)) a rest a := hl.2.2.2.2.1
      exact (chainF_iterate hc).2

/-- The one-cache-block test state is well-formed. -/
theorem oneCacheState_ZWF (m : Int) : ZWF (oneCacheState m) := by
  refine ⟨?_, ?_, ?_⟩
  · simp [oneCacheState]
  · intro p hp
    simp [oneCacheState] at hp
    rw [hp]
    exact Nat.one_pos
  · intro t
    by_cases ht : t = PU_CACHE
    · subst ht
      refine ⟨[0], rfl, by simp, ?_, ?_, rfl, ?_⟩
      · intro i hi
        simp at hi
        subst hi
        rfl
      · intro p hp _
        simp [oneCacheState] at hp
        rw [hp]
        simp
      · intro i hi
        simp at hi
        subst hi
        rfl
    · refine ⟨[], ?_, by simp, by simp, ?_, trivial, by simp⟩
      · show lookupH [(PU_CACHE, 0)] t = none
        unfold lookupH
        rw [if_neg (fun h => ht h.symm)]
        rfl
      · intro p hp htag
        simp [oneCacheState] at hp
        rw [hp] at htag
        exact absurd htag.symm ht

/-- C2: with a positive size, allocation either succeeds with a block id and a
well-formed state or dies fatally — it never returns a null payload.  On an
external failure the loop checks the CACHE bucket: empty means `I_Error`,
otherwise the whole CACHE bucket is evicted (head table cleared, every
CACHE-tagged block freed) and the request is retried. -/
theorem C2_retry_eviction_fatal {s : ZState} (hWF : ZWF s) {size : Nat} (hpos : 0 < size)
    (tag : Nat) (user : Bool) (sched : List Bool) :
    ((∃ i w s', Z_Malloc s size tag user sched = ZResult.ok (some i) w s' ∧ ZWF s')
      ∨ Z_Malloc s size tag user sched = ZResult.fatal)
    ∧ (∀ (s0 : ZState) (rest : List Bool),
        mallocLoop s0 (roundChunk size) tag user (false :: rest)
          = (if lookupH s0.heads PU_CACHE = none then ZResult.fatal
             else mallocLoop (Z_FreeTags s0 (PU_CACHE : Int) (PU_CACHE : Int))
                    (roundChunk size) tag user rest))
    ∧ (∀ s0 : ZState, ZWF s0 →
        lookupH (Z_FreeTags s0 (PU_CACHE : Int) (PU_CACHE : Int)).heads PU_CACHE = none
        ∧ ∀ j c, lookupA s0.arena j = some c → c.tag = PU_CACHE →
            lookupA (Z_FreeTags s0 (PU_CACHE : Int) (PU_CACHE : Int)).arena j = none) := by
  refine ⟨?_, ?_, ?_⟩
  · have hz : ¬ size = 0 := by omega
    have hunf : Z_Malloc s size tag user sched
        = mallocLoop (proactivePass s (roundChunk size)) (roundChunk size) tag user sched := by
      unfold Z_Malloc
      rw [if_neg hz]
    rw [hunf]
    rcases mallocLoop_spec sched _ (roundChunk size) tag user (proactivePass_WF hWF _) with
      h | ⟨i, w, s', heq, hWF'⟩
    · exact Or.inr h
    · exact Or.inl ⟨i, w, s', heq, hWF'⟩
  · intro s0 rest
    rfl
  · intro s0 hWF0
    have h := (Z_FreeTags_spec hWF0 (PU_CACHE : Int) (PU_CACHE : Int)).2.1 PU_CACHE
      (by simp [PU_CACHE, PU_FREE]) (by simp)
    exact ⟨h.1, h.2⟩

theorem C2_retry_eviction_fatal_witness :
    ZWF (oneCacheState 0) ∧ 0 < 10
    ∧ (((∃ i w s', Z_Malloc (oneCacheState 0) 10 2 false [] = ZResult.ok (some i) w s' ∧ ZWF s')
        ∨ Z_Malloc (oneCacheState 0) 10 2 false [] = ZResult.fatal)
      ∧ (∀ (s0 : ZState) (rest : List Bool),
          mallocLoop s0 (roundChunk 10) 2 false (false :: rest)
            = (if lookupH s0.heads PU_CACHE = none then ZResult.fatal
               else mallocLoop (Z_FreeTags s0 (PU_CACHE : Int) (PU_CACHE : Int))
                      (roundChunk 10) 2 false rest))
      ∧ (∀ s0 : ZState, ZWF s0 →
          lookupH (Z_FreeTags s0 (PU_CACHE : Int) (PU_CACHE : Int)).heads PU_CACHE = none
          ∧ ∀ j c, lookupA s0.arena j = some c → c.tag = PU_CACHE →
              lookupA (Z_FreeTags s0 (PU_CACHE : Int) (PU_CACHE : Int)).arena j = none)) :=
  ⟨oneCacheState_ZWF 0, by decide,
    C2_retry_eviction_fatal (oneCacheState_ZWF 0) (by decide) 2 false []⟩

/-- C3: with a configured ceiling and failing headroom for the rounded size
plus header, allocation runs the proactive pass before requesting storage:
it frees CACHE blocks from the bucket head in bucket order (oldest first),
stopping as soon as headroom suffices or when the snapshot tail (the last
bucket element) has just been freed, and freeing nothing when the bucket is
empty. -/
theorem C3_proactive_eviction {s : ZState} {size : Nat} (hWF : ZWF s) (hpos : 0 < size)
    {l : List Nat} (hrep : bucketRep s PU_CACHE l)
    (hcond : 0 < s.memory_size ∧ s.free_memory + s.memory_size
        < ((roundChunk size + HEADER_SIZE : Nat) : Int)) :
    (∀ tag user sched, Z_Malloc s size tag user sched
        = mallocLoop (proactivePass s (roundChunk size)) (roundChunk size) tag user sched)
    ∧ (l = [] → proactivePass s (roundChunk size) = s)
    ∧ (∀ h0 rest, l = h0 :: rest →
        ∃ k, 1 ≤ k ∧ k ≤ rest.length + 1
          ∧ proactivePass s (roundChunk size) = freeSeq s (l.take k)
          ∧ bucketRep (proactivePass s (roundChunk size)) PU_CACHE (l.drop k)
          ∧ (((roundChunk size + HEADER_SIZE : Nat) : Int)
                ≤ (proactivePass s (roundChunk size)).free_memory
                  + (proactivePass s (roundChunk size)).memory_size
              ∨ k = rest.length + 1)
          ∧ (∀ j, 1 ≤ j → j < k →
              ¬ ((roundChunk size + HEADER_SIZE : Nat) : Int)
                  ≤ (freeSeq s (l.take j)).free_memory
                    + (freeSeq s (l.take j)).memory_size)) := by
  have hps := proactivePass_spec hWF hrep hcond
  refine ⟨?_, hps.1, ?_⟩
  · intro tag user sched
    unfold Z_Malloc
    rw [if_neg (by omega)]
  · intro h0 rest hL
    obtain ⟨k, hk1, hk2, hkeq, _, hkrep, hkstop, hkmin⟩ := hps.2 h0 rest hL
    exact ⟨k, hk1, hk2, hkeq, hkrep, hkstop, hkmin⟩

theorem C3_proactive_eviction_witness :
    ZWF (oneCacheState 100) ∧ 0 < 40
    ∧ bucketRep (oneCacheState 100) PU_CACHE [0]
    ∧ (0 < (oneCacheState 100).memory_size
        ∧ (oneCacheState 100).free_memory + (oneCacheState 100).memory_size
            < ((roundChunk 40 + HEADER_SIZE : Nat) : Int))
    ∧ ((∀ tag user sched, Z_Malloc (oneCacheState 100) 40 tag user sched
          = mallocLoop (proactivePass (oneCacheState 100) (roundChunk 40))
              (roundChunk 40) tag user sched)
      ∧ (([0] : List Nat) = [] →
          proactivePass (oneCacheState 100) (roundChunk 40) = oneCacheState 100)
      ∧ (∀ h0 rest, ([0] : List Nat) = h0 :: rest →
          ∃ k, 1 ≤ k ∧ k ≤ rest.length + 1
            ∧ proactivePass (oneCacheState 100) (roundChunk 40)
                = freeSeq (oneCacheState 100) (([0] : List Nat).take k)
            ∧ bucketRep (proactivePass (oneCacheState 100) (roundChunk 40)) PU_CACHE
                (([0] : List Nat).drop k)
            ∧ (((roundChunk 40 + HEADER_SIZE : Nat) : Int)
                  ≤ (proactivePass (oneCacheState 100) (roundChunk 40)).free_memory
                    + (proactivePass (oneCacheState 100) (roundChunk 40)).memory_size
                ∨ k = rest.length + 1)
            ∧ (∀ j, 1 ≤ j → j < k →
                ¬ ((roundChunk 40 + HEADER_SIZE : Nat) : Int)
                    ≤ (freeSeq (oneCacheState 100) (([0] : List Nat).take j)).free_memory
                      + (freeSeq (oneCacheState 100) (([0] : List Nat).take j)).memory_size))) :=
  ⟨oneCacheState_ZWF 100, by decide, by decide, by decide,
    C3_proactive_eviction (oneCacheState_ZWF 100) (by decide) (by decide) (by decide)⟩

/-- C4 (counterexample): with the ceiling at 0 the claim "an allocate frees no
existing block" fails: in a state holding one live CACHE block, an allocation
whose first external request fails evicts that block through the retry loop
(lines 169-175 run regardless of `memory_size`), and the allocation then
succeeds with the old block gone from the arena. -/
theorem C4_counterexample :
    (oneCacheState 0).memory_size = 0
    ∧ tagOf (oneCacheState 0) 0 = some PU_CACHE
    ∧ ∃ r w s', Z_Malloc (oneCacheState 0) 1 1 false [false] = ZResult.ok r w s'
        ∧ lookupA s'.arena 0 = none :=
  ⟨rfl, rfl, some 1, none,
    { arena := [(1, { next := 1, prev := 1, size := 32, tag := 1,
                      data := List.replicate 32 none })],
      heads := [(1, 1)], memory_size := 0, free_memory := -32, fresh := 2 },
    rfl, rfl⟩

/-- C4 (amended): with the ceiling at 0, the proactive pass is skipped, and as
long as the first external request succeeds (in particular on the success
schedule), an allocation frees no existing block: every live block stays live
with its tag, size and payload unchanged. -/
theorem C4_amended {s : ZState} (hWF : ZWF s) (hms : s.memory_size = 0) (size tag : Nat)
    (user : Bool) (sched : List Bool)
    (hsched : sched = [] ∨ ∃ rest, sched = true :: rest) :
    ∃ r w s', Z_Malloc s size tag user sched = ZResult.ok r w s'
      ∧ (∀ j, (lookupA s.arena j).isSome → (lookupA s'.arena j).isSome)
      ∧ (∀ j c, lookupA s.arena j = some c →
          ∃ c', lookupA s'.arena j = some c' ∧ c'.tag = c.tag ∧ c'.size = c.size
            ∧ c'.data = c.data) := by
  by_cases hz : size = 0
  · refine ⟨none, if user then some none else none, s, ?_, fun j h => h, ?_⟩
    · unfold Z_Malloc
      rw [if_pos hz]
    · intro j c hc
      exact ⟨c, hc, rfl, rfl, rfl⟩
  · have hpp : proactivePass s (roundChunk size) = s := by
      refine proactivePass_id ?_
      rw [hms]
      intro hcon
      exact absurd hcon.1 (by omega)
    have hunf : Z_Malloc s size tag user sched
        = mallocLoop s (roundChunk size) tag user sched := by
      unfold Z_Malloc
      rw [if_neg hz, hpp]
    obtain ⟨l, hl⟩ := hWF.2.2 tag
    obtain ⟨s5, h5eq, -, -, -, ⟨c0, hc0, -, -, -⟩, hframe, -, -, -⟩ :=
      finishAlloc_spec hWF (roundChunk size) tag user hl
    have hfin : mallocLoop s (roundChunk size) tag user sched
        = finishAlloc s (roundChunk size) tag user := by
      rcases hsched with h | ⟨rest, h⟩
      · rw [h]
        rfl
      · rw [h]
        show (if true then _ else _) = _
        rw [if_pos rfl]
    have hfK : lookupA s.arena s.fresh = none := by
      refine lookupA_eq_none _ _ ?_
      intro hmem
      rcases List.mem_map.mp hmem with ⟨q, hq, hfst⟩
      have := hWF.2.1 q hq
      omega
    refine ⟨some s.fresh, if user then some (some s.fresh) else none, s5, ?_, ?_, ?_⟩
    · rw [hunf, hfin, h5eq]
    · intro j hj
      by_cases hjf : j = s.fresh
      · rw [hjf, hc0]
        rfl
      · exact ((hframe j hjf).2.2.2).mpr hj
    · intro j c hc
      have hjf : j ≠ s.fresh := by
        intro hx
        rw [hx, hfK] at hc
        exact Option.noConfusion hc
      obtain ⟨htg, hsz, hdt, hiso⟩ := hframe j hjf
      have hsome : (lookupA s5.arena j).isSome := hiso.mpr (by rw [hc]; rfl)
      cases hlk : lookupA s5.arena j with
      | none =>
        rw [hlk] at hsome
        exact Bool.noConfusion hsome
      | some c' =>
        refine ⟨c', rfl, ?_, ?_, ?_⟩
        · have h1 : tagOf s5 j = tagOf s j := htg
          unfold tagOf at h1
          rw [hlk, hc] at h1
          injection h1
        · have h1 : sizeOfB s5 j = sizeOfB s j := hsz
          unfold sizeOfB at h1
          rw [hlk, hc] at h1
          injection h1
        · have h1 : dataOf s5 j = dataOf s j := hdt
          unfold dataOf at h1
          rw [hlk, hc] at h1
          injection h1

theorem C4_amended_witness :
    ZWF (oneCacheState 0) ∧ (oneCacheState 0).memory_size = 0
    ∧ (([] : List Bool) = [] ∨ ∃ rest, ([] : List Bool) = true :: rest)
    ∧ (∃ r w s', Z_Malloc (oneCacheState 0) 40 1 true [] = ZResult.ok r w s'
        ∧ (∀ j, (lookupA (oneCacheState 0).arena j).isSome → (lookupA s'.arena j).isSome)
        ∧ (∀ j c, lookupA (oneCacheState 0).arena j = some c →
            ∃ c', lookupA s'.arena j = some c' ∧ c'.tag = c.tag ∧ c'.size = c.size
              ∧ c'.data = c.data)) :=
  ⟨oneCacheState_ZWF 0, rfl, Or.inl rfl,
    C4_amended (oneCacheState_ZWF 0) rfl 40 1 true [] (Or.inl rfl)⟩

/-- C6: `Z_FreeTags` clamps the range to `[PU_FREE+1, PU_CACHE]` and empties
exactly the buckets inside the clamped range (head cleared, every block of
those tags freed); a single in-range tag is processed by freeing its bucket
head-to-tail in bucket order; the FREE bucket and any bucket above CACHE are
untouched, block for block. -/
theorem C6_freetags_clamp {s : ZState} (hWF : ZWF s) (lowtag hightag : Int) :
    ZWF (Z_FreeTags s lowtag hightag)
    ∧ (∀ t : Nat, max lowtag ((PU_FREE : Int) + 1) ≤ (t : Int)
        → (t : Int) ≤ min hightag (PU_CACHE : Int)
        → lookupH (Z_FreeTags s lowtag hightag).heads t = none
          ∧ ∀ j c, lookupA s.arena j = some c → c.tag = t →
              lookupA (Z_FreeTags s lowtag hightag).arena j = none)
    ∧ (∀ t : Nat, ((PU_FREE : Int) + 1 ≤ (t : Int) ∧ (t : Int) ≤ (PU_CACHE : Int))
        → ∀ lt, bucketRep s t lt → Z_FreeTags s (t : Int) (t : Int) = freeSeq s lt)
    ∧ (∀ t' : Nat, ((t' : Int) < max lowtag ((PU_FREE : Int) + 1)
          ∨ min hightag (PU_CACHE : Int) < (t' : Int))
        → ∀ l', bucketRep s t' l' → bucketRep (Z_FreeTags s lowtag hightag) t' l')
    ∧ (∀ j c, lookupA s.arena j = some c
        → ((c.tag : Int) < max lowtag ((PU_FREE : Int) + 1)
            ∨ min hightag (PU_CACHE : Int) < (c.tag : Int))
        → ∃ c', lookupA (Z_FreeTags s lowtag hightag).arena j = some c'
            ∧ c'.tag = c.tag ∧ c'.size = c.size ∧ c'.data = c.data)
    ∧ (∀ l0, bucketRep s PU_FREE l0 → bucketRep (Z_FreeTags s lowtag hightag) PU_FREE l0)
    ∧ (∀ t'' : Nat, PU_CACHE < t'' → ∀ l'', bucketRep s t'' l''
        → bucketRep (Z_FreeTags s lowtag hightag) t'' l'') := by
  obtain ⟨g1, g2, g3, g4, g5, g6, g7⟩ := Z_FreeTags_spec hWF lowtag hightag
  refine ⟨g1, g2, ?_, g3, g4, ?_, ?_⟩
  · intro t ht lt hlt
    have hlow : ¬ ((t : Int) ≤ (PU_FREE : Int)) := by
      have h := ht.1
      omega
    have hhigh : ¬ ((PU_CACHE : Int) < (t : Int)) := by
      have h := ht.2
      omega
    have hone : Z_FreeTags s (t : Int) (t : Int) = freeOneTag s t := by
      unfold Z_FreeTags
      rw [if_neg hlow, if_neg hhigh]
      show List.foldl (fun s0 k => freeOneTag s0 ((t : Int).toNat + k)) s
          (List.range (((t : Int) + 1 - (t : Int)).toNat)) = freeOneTag s t
      have hr : ((t : Int) + 1 - (t : Int)).toNat = 1 := by omega
      rw [hr]
      show freeOneTag s ((t : Int).toNat + 0) = freeOneTag s t
      have ht0 : (t : Int).toNat + 0 = t := by omega
      rw [ht0]
    rw [hone]
    exact (freeOneTag_spec hWF hlt).1
  · intro l0 hl0
    refine g3 PU_FREE ?_ l0 hl0
    left
    have h1 : ((PU_FREE : Nat) : Int) = 0 := by simp [PU_FREE]
    rw [h1]
    omega
  · intro t'' ht'' l'' hl''
    refine g3 t'' ?_ l'' hl''
    right
    have h1 : ((PU_CACHE : Nat) : Int) = 6 := by simp [PU_CACHE]
    have h2 : (6 : Int) < (t'' : Int) := by
      have : (PU_CACHE : Nat) = 6 := rfl
      omega
    omega

theorem C6_freetags_clamp_witness :
    ZWF (oneCacheState 0)
    ∧ (ZWF (Z_FreeTags (oneCacheState 0) 0 99)
      ∧ (∀ t : Nat, max (0 : Int) ((PU_FREE : Int) + 1) ≤ (t : Int)
          → (t : Int) ≤ min (99 : Int) (PU_CACHE : Int)
          → lookupH (Z_FreeTags (oneCacheState 0) 0 99).heads t = none
            ∧ ∀ j c, lookupA (oneCacheState 0).arena j = some c → c.tag = t →
                lookupA (Z_FreeTags (oneCacheState 0) 0 99).arena j = none)
      ∧ (∀ t : Nat, ((PU_FREE : Int) + 1 ≤ (t : Int) ∧ (t : Int) ≤ (PU_CACHE : Int))
          → ∀ lt, bucketRep (oneCacheState 0) t lt
              → Z_FreeTags (oneCacheState 0) (t : Int) (t : Int) = freeSeq (oneCacheState 0) lt)
      ∧ (∀ t' : Nat, ((t' : Int) < max (0 : Int) ((PU_FREE : Int) + 1)
            ∨ min (99 : Int) (PU_CACHE : Int) < (t' : Int))
          → ∀ l', bucketRep (oneCacheState 0) t' l'
              → bucketRep (Z_FreeTags (oneCacheState 0) 0 99) t' l')
      ∧ (∀ j c, lookupA (oneCacheState 0).arena j = some c
          → ((c.tag : Int) < max (0 : Int) ((PU_FREE : Int) + 1)
              ∨ min (99 : Int) (PU_CACHE : Int) < (c.tag : Int))
          → ∃ c', lookupA (Z_FreeTags (oneCacheState 0) 0 99).arena j = some c'
              ∧ c'.tag = c.tag ∧ c'.size = c.size ∧ c'.data = c.data)
      ∧ (∀ l0, bucketRep (oneCacheState 0) PU_FREE l0
          → bucketRep (Z_FreeTags (oneCacheState 0) 0 99) PU_FREE l0)
      ∧ (∀ t'' : Nat, PU_CACHE < t'' → ∀ l'', bucketRep (oneCacheState 0) t'' l''
          → bucketRep (Z_FreeTags (oneCacheState 0) 0 99) t'' l'')) :=
  ⟨oneCacheState_ZWF 0, C6_freetags_clamp (oneCacheState_ZWF 0) 0 99⟩

/-- C7: `Z_ChangeTag` is a no-op on a NULL pointer or an unchanged tag;
otherwise it removes the block from its old tag's bucket, appends it at the
tail of the new tag's bucket and rewrites the tag field, leaving the block's
size and payload, every other block, and the budget counters untouched — and
a subsequent `Z_FreeTags` over the old tag leaves the retagged block live. -/
theorem C7_changetag {s : ZState} {i : Nat} {b : memblock} {t2 : Nat}
    (hWF : ZWF s) (hb : lookupA s.arena i = some b) (hne : t2 ≠ b.tag) :
    (∀ t3, Z_ChangeTag s none t3 = s)
    ∧ (∀ j c t3, lookupA s.arena j = some c → t3 = c.tag → Z_ChangeTag s (some j) t3 = s)
    ∧ (∃ b', lookupA (Z_ChangeTag s (some i) t2).arena i = some b'
        ∧ b'.tag = t2 ∧ b'.size = b.size ∧ b'.data = b.data)
    ∧ (∀ u v, bucketRep s b.tag (u ++ i :: v) →
        bucketRep (Z_ChangeTag s (some i) t2) b.tag (u ++ v))
    ∧ (∀ lnew, bucketRep s t2 lnew →
        bucketRep (Z_ChangeTag s (some i) t2) t2 (lnew ++ [i]))
    ∧ (∀ j c, j ≠ i → lookupA s.arena j = some c →
        ∃ c', lookupA (Z_ChangeTag s (some i) t2).arena j = some c'
          ∧ c'.tag = c.tag ∧ c'.size = c.size ∧ c'.data = c.data)
    ∧ (Z_ChangeTag s (some i) t2).free_memory = s.free_memory
    ∧ (Z_ChangeTag s (some i) t2).memory_size = s.memory_size
    ∧ (∃ c', lookupA (Z_FreeTags (Z_ChangeTag s (some i) t2)
          (b.tag : Int) (b.tag : Int)).arena i = some c' ∧ c'.tag = t2) := by
  obtain ⟨hrec, hframe, hdead, herase, hsnoc, hothers, hWF', hfree, hmem, hfresh⟩ :=
    Z_ChangeTag_spec hWF hb hne
  refine ⟨fun t3 => rfl, ?_, hrec, herase, hsnoc, hframe, hfree, hmem, ?_⟩
  · intro j c t3 hc ht3
    exact Z_ChangeTag_same hc ht3
  · obtain ⟨b', hb', hbt', _, _⟩ := hrec
    have hout : ((b'.tag : Int) < max (b.tag : Int) ((PU_FREE : Int) + 1)
        ∨ min (b.tag : Int) (PU_CACHE : Int) < (b'.tag : Int)) := by
      rw [hbt']
      rcases Nat.lt_or_ge t2 b.tag with h | h
      · left
        have : (t2 : Int) < (b.tag : Int) := by omega
        omega
      · right
        have hgt : b.tag < t2 := by omega
        have : (b.tag : Int) < (t2 : Int) := by omega
        omega
    obtain ⟨c', hc', hct', _, _⟩ :=
      (Z_FreeTags_spec hWF' (b.tag : Int) (b.tag : Int)).2.2.2.1 i b' hb' hout
    exact ⟨c', hc', hct'.trans hbt'⟩

theorem C7_changetag_witness :
    ZWF (oneCacheState 0)
    ∧ lookupA (oneCacheState 0).arena 0 = some cacheBlk
    ∧ (1 : Nat) ≠ cacheBlk.tag
    ∧ ((∀ t3, Z_ChangeTag (oneCacheState 0) none t3 = oneCacheState 0)
      ∧ (∀ j c t3, lookupA (oneCacheState 0).arena j = some c → t3 = c.tag →
          Z_ChangeTag (oneCacheState 0) (some j) t3 = oneCacheState 0)
      ∧ (∃ b', lookupA (Z_ChangeTag (oneCacheState 0) (some 0) 1).arena 0 = some b'
          ∧ b'.tag = 1 ∧ b'.size = cacheBlk.size ∧ b'.data = cacheBlk.data)
      ∧ (∀ u v, bucketRep (oneCacheState 0) cacheBlk.tag (u ++ 0 :: v) →
          bucketRep (Z_ChangeTag (oneCacheState 0) (some 0) 1) cacheBlk.tag (u ++ v))
      ∧ (∀ lnew, bucketRep (oneCacheState 0) 1 lnew →
          bucketRep (Z_ChangeTag (oneCacheState 0) (some 0) 1) 1 (lnew ++ [0]))
      ∧ (∀ j c, j ≠ 0 → lookupA (oneCacheState 0).arena j = some c →
          ∃ c', lookupA (Z_ChangeTag (oneCacheState 0) (some 0) 1).arena j = some c'
            ∧ c'.tag = c.tag ∧ c'.size = c.size ∧ c'.data = c.data)
      ∧ (Z_ChangeTag (oneCacheState 0) (some 0) 1).free_memory = (oneCacheState 0).free_memory
      ∧ (Z_ChangeTag (oneCacheState 0) (some 0) 1).memory_size = (oneCacheState 0).memory_size
      ∧ (∃ c', lookupA (Z_FreeTags (Z_ChangeTag (oneCacheState 0) (some 0) 1)
            (cacheBlk.tag : Int) (cacheBlk.tag : Int)).arena 0 = some c' ∧ c'.tag = 1)) :=
  ⟨oneCacheState_ZWF 0, rfl, by decide,
    C7_changetag (oneCacheState_ZWF 0) rfl (by decide)⟩

/-- The eviction loop never touches the fresh-id counter. -/
theorem evictCacheLoop_fresh : ∀ (fuel : Nat) (s : ZState) (target : Int) (bId eId : Nat),
    (evictCacheLoop fuel s target bId eId).fresh = s.fresh := by
  intro fuel
  induction fuel with
  | zero => intro s _ _ _; rfl
  | succ f ih =>
    intro s target bId eId
    show (if target ≤ (Z_Free s (some bId)).free_memory + (Z_Free s (some bId)).memory_size
            ∨ bId = eId
          then Z_Free s (some bId)
          else evictCacheLoop f (Z_Free s (some bId)) target (blkNext s bId) eId).fresh
        = s.fresh
    by_cases hc : target ≤ (Z_Free s (some bId)).free_memory
        + (Z_Free s (some bId)).memory_size ∨ bId = eId
    · rw [if_pos hc]
      exact Z_Free_fresh s _
    · rw [if_neg hc, ih]
      exact Z_Free_fresh s _

/-- The proactive pass never touches the fresh-id counter. -/
theorem proactivePass_fresh (s : ZState) (size : Nat) :
    (proactivePass s size).fresh = s.fresh := by
  by_cases hc : 0 < s.memory_size
      ∧ s.free_memory + s.memory_size < ((size + HEADER_SIZE : Nat) : Int)
  · unfold proactivePass
    rw [if_pos hc]
    cases h : lookupH s.heads PU_CACHE with
    | none => rfl
    | some hd =>
      simp only [h]
      exact evictCacheLoop_fresh _ s _ hd _
  · rw [proactivePass_id hc]

/-- Reading inside the copied prefix of a `memcpy`. -/
theorem memcpyL_getD {dst src : List (Option Nat)} {n k : Nat}
    (hk : k < n) (hks : k < src.length) :
    (memcpyL dst src n).getD k none = src.getD k none := by
  unfold memcpyL
  have hlt : k < (src.take n).length := by
    rw [List.length_take]
    omega
  rw [List.getD_append (src.take n) (dst.drop n) none k hlt,
    List.getD_eq_getElem _ _ hlt, List.getD_eq_getElem _ _ hks]
  exact List.getElem_take src

/-- Reading below the fill offset of a `memset`. -/
theorem memsetL_getD_below {dst : List (Option Nat)} {off v n k : Nat}
    (hk : k < off) (hkd : k < dst.length) :
    (memsetL dst off v n).getD k none = dst.getD k none := by
  unfold memsetL
  have hlt : k < (dst.take off).length := by
    rw [List.length_take]
    omega
  rw [List.append_assoc,
    List.getD_append (dst.take off) _ none k hlt,
    List.getD_eq_getElem _ _ hlt, List.getD_eq_getElem _ _ hkd]
  exact List.getElem_take dst

/-- Reading inside the filled region of a `memset`. -/
theorem memsetL_getD_in {dst : List (Option Nat)} {off v n k : Nat}
    (hoff : off ≤ dst.length) (h1 : off ≤ k) (h2 : k < off + n) :
    (memsetL dst off v n).getD k none = some v := by
  unfold memsetL
  have hlen : (dst.take off).length = off := by
    rw [List.length_take]
    omega
  rw [List.append_assoc,
    List.getD_append_right (dst.take off) _ none k (by omega),
    hlen]
  have hlt : k - off < (List.replicate n (some v)).length := by
    rw [List.length_replicate]
    omega
  rw [List.getD_append (List.replicate n (some v)) _ none (k - off) hlt,
    List.getD_eq_getElem _ _ hlt]
  exact List.getElem_replicate (some v) hlt

/-- C5: `Z_Realloc` on a live old block allocates fresh storage of the new
size under the given tag, copies the first `min(newSize, oldSize)` bytes of
the old payload into the new one, zero-fills from the old recorded size up to
the new size when growing, frees the old block (it is gone from the arena),
and re-stores the new payload address through the destination slot after the
free; on a NULL old pointer it is exactly a plain `Z_Malloc`. -/
theorem C5_realloc {s : ZState} {oldId : Nat} {ob0 : memblock} {n tag : Nat} {user : Bool}
    {sched : List Bool} {newId : Nat} {w : Option (Option Nat)} {s1 : ZState} {ob : memblock}
    (hWF : ZWF s) (hold : lookupA s.arena oldId = some ob0)
    (heq : Z_Malloc s n tag user sched = ZResult.ok (some newId) w s1)
    (hsurv : lookupA s1.arena oldId = some ob)
    (hlen : ob.data.length = ob.size) :
    (∀ n2 t2 u2 sc2, Z_Realloc s none n2 t2 u2 sc2 = Z_Malloc s n2 t2 u2 sc2)
    ∧ ∃ s3, Z_Realloc s (some oldId) n tag user sched
        = ZResult.ok (some newId) (if user then some (some newId) else none) s3
      ∧ lookupA s3.arena oldId = none
      ∧ ∃ nb, lookupA s3.arena newId = some nb
        ∧ nb.size = roundChunk n ∧ nb.tag = tag
        ∧ (∀ k, k < min n ob.size → nb.data.getD k none = ob.data.getD k none)
        ∧ (∀ k, ob.size ≤ k → k < n → nb.data.getD k none = some 0) := by
  constructor
  · intro n2 t2 u2 sc2
    cases hm : Z_Malloc s n2 t2 u2 sc2 with
    | fatal => simp [Z_Realloc, hm]
    | ok r w1 st => simp [Z_Realloc, hm]
  · have hn : ¬ n = 0 := by
      intro h0
      subst h0
      unfold Z_Malloc at heq
      rw [if_pos rfl] at heq
      injection heq with h1 h2 h3
      exact Option.noConfusion h1
    have hunf : Z_Malloc s n tag user sched
        = mallocLoop (proactivePass s (roundChunk n)) (roundChunk n) tag user sched := by
      unfold Z_Malloc
      rw [if_neg hn]
    have heq' := heq
    rw [hunf] at heq'
    have hWFp : ZWF (proactivePass s (roundChunk n)) := proactivePass_WF hWF _
    obtain ⟨i, b, hi, hb1, hbs, hbt, hbd, hfle⟩ :=
      mallocLoop_size sched _ (roundChunk n) tag user (some newId) w s1 hWFp heq'
    injection hi with hi
    subst hi
    have hWF1 : ZWF s1 := by
      rcases mallocLoop_spec sched _ (roundChunk n) tag user hWFp with
        h | ⟨i2, w2, s2', heq2, hWF2⟩
      · rw [heq'] at h
        exact ZResult.noConfusion h
      · rw [heq'] at heq2
        injection heq2 with g1 g2 g3
        rw [g3]
        exact hWF2
    have hnd1 : (s1.arena.map Prod.fst).Nodup := hWF1.1
    have holdlt : oldId < s.fresh := hWF.2.1 (oldId, ob0) (mem_of_lookupA hold)
    have hfr : (proactivePass s (roundChunk n)).fresh = s.fresh := proactivePass_fresh s _
    have hne : oldId ≠ newId := by omega
    have hne' : newId ≠ oldId := by omega
    set cf : memblock → memblock :=
      fun bb => { bb with data := copyFillData n ob bb.data } with hcf
    set A2 : List (Nat × memblock) := updateA cf s1.arena newId with hA2
    set S2 : ZState := { s1 with arena := A2 } with hS2
    have hreq : Z_Realloc s (some oldId) n tag user sched
        = ZResult.ok (some newId) (if user then some (some newId) else none)
            (Z_Free S2 (some oldId)) := by
      rw [hS2, hA2, hcf]
      unfold Z_Realloc
      rw [heq]
      simp only [hsurv]
    have h2new : lookupA S2.arena newId = some { b with data := copyFillData n ob b.data } := by
      rw [hS2]
      show lookupA A2 newId = _
      rw [hA2, lookupA_update_self, hb1, hcf]
      rfl
    have h2old : lookupA S2.arena oldId = some ob := by
      rw [hS2]
      show lookupA A2 oldId = _
      rw [hA2, lookupA_update_ne _ _ hne, hsurv]
    have h2nd : (S2.arena.map Prod.fst).Nodup := by
      rw [hS2]
      show (A2.map Prod.fst).Nodup
      rw [hA2, keys_updateA]
      exact hnd1
    have h3old : lookupA (Z_Free S2 (some oldId)).arena oldId = none :=
      Z_Free_lookup_self h2old h2nd
    refine ⟨Z_Free S2 (some oldId), hreq, h3old, ?_⟩
    rw [Z_Free_lookup_ne h2old hne', h2new]
    refine ⟨_, rfl, hbs, hbt, ?_, ?_⟩
    · intro k hk
      show (copyFillData n ob b.data).getD k none = ob.data.getD k none
      unfold copyFillData
      by_cases hsm : n ≤ ob.size
      · rw [if_pos hsm]
        exact memcpyL_getD (by omega) (by omega)
      · rw [if_neg hsm]
        have hbase : (memcpyL b.data ob.data ob.size).length
            = ob.size + (b.data.length - ob.size) := by
          unfold memcpyL
          rw [List.length_append, List.length_take, List.length_drop, hlen]
          omega
        rw [memsetL_getD_below (by omega) (by omega)]
        exact memcpyL_getD (by omega) (by omega)
    · intro k hk1 hk2
      show (copyFillData n ob b.data).getD k none = some 0
      unfold copyFillData
      have hsm : ¬ n ≤ ob.size := by omega
      rw [if_neg hsm]
      have hbase : (memcpyL b.data ob.data ob.size).length
          = ob.size + (b.data.length - ob.size) := by
        unfold memcpyL
        rw [List.length_append, List.length_take, List.length_drop, hlen]
        omega
      exact memsetL_getD_in (by omega) hk1 (by omega)

theorem C5_realloc_witness :
    ZWF (oneCacheState 0)
    ∧ lookupA (oneCacheState 0).arena 0 = some cacheBlk
    ∧ Z_Malloc (oneCacheState 0) 40 1 true []
        = ZResult.ok (some 1) (some (some 1))
            { arena := [(1, { next := 1, prev := 1, size := 64, tag := 1,
                              data := List.replicate 64 none }), (0, cacheBlk)],
              heads := [(1, 1), (6, 0)], memory_size := 0, free_memory := -96, fresh := 2 }
    ∧ lookupA ({ arena := [(1, { next := 1, prev := 1, size := 64, tag := 1,
                                 data := List.replicate 64 none }), (0, cacheBlk)],
                 heads := [(1, 1), (6, 0)], memory_size := 0, free_memory := -96,
                 fresh := 2 } : ZState).arena 0 = some cacheBlk
    ∧ cacheBlk.data.length = cacheBlk.size
    ∧ ((∀ n2 t2 u2 sc2, Z_Realloc (oneCacheState 0) none n2 t2 u2 sc2
          = Z_Malloc (oneCacheState 0) n2 t2 u2 sc2)
      ∧ ∃ s3, Z_Realloc (oneCacheState 0) (some 0) 40 1 true []
          = ZResult.ok (some 1) (if true then some (some 1) else none) s3
        ∧ lookupA s3.arena 0 = none
        ∧ ∃ nb, lookupA s3.arena 1 = some nb
          ∧ nb.size = roundChunk 40 ∧ nb.tag = 1
          ∧ (∀ k, k < min 40 cacheBlk.size →
              nb.data.getD k none = cacheBlk.data.getD k none)
          ∧ (∀ k, cacheBlk.size ≤ k → k < 40 → nb.data.getD k none = some 0)) := by
  refine ⟨oneCacheState_ZWF 0, rfl, rfl, rfl, rfl, ?_⟩
  exact C5_realloc (oneCacheState_ZWF 0) rfl rfl rfl rfl

/-- C8 (counterexample): the unamended for-every-size claim fails where line
148's `size_t` rounding wraps: a request of `2^64 - 1` bytes rounds to 0, the
allocation succeeds, and the returned block records size 0 — neither at least
the request nor the request rounded up to a multiple of 32. -/
theorem C8_counterexample :
    0 < 2 ^ 64 - 1
    ∧ roundChunk (2 ^ 64 - 1) = 0
    ∧ Z_Malloc (initState 0) (2 ^ 64 - 1) 1 false []
        = ZResult.ok (some 0) none
            { arena := [(0, { next := 0, prev := 0, size := 0, tag := 1, data := [] })],
              heads := [(1, 0)], memory_size := 0, free_memory := 0, fresh := 1 }
    ∧ ∃ b, lookupA
          [((0 : Nat), ({ next := 0, prev := 0, size := 0, tag := 1, data := [] } : memblock))]
          0 = some b ∧ b.size < 2 ^ 64 - 1 :=
  ⟨by decide, by decide, rfl, ⟨_, rfl, by decide⟩⟩
